import Mathlib

/-!
# Tile layout of `elements` (`lib/src/element/tile.cpp`)

A shallow embedding of the vertical / horizontal tile composites: limits
negotiation, the stretch allocation loop, the layout walk that fills the
bounds cache, and the `bounds_of` query.  Two smaller parts follow: the option
word of the Windows file dialogs (`host/windows/window.cpp`) and the selection
of radio buttons (`element/gallery/radio_button.cpp`).

## Numbers

Every C++ `float` / `double` is a `Flt`: a rational number or one of the three
IEEE-754 special values.  The special values follow the IEEE rules, so a
division by zero yields an infinity or a NaN and every ordered comparison with
a NaN is false.  Signed zeros are not distinguished.

The code is embedded twice.  In the first embedding (`vtile_element.limits`,
`allocate`, `vtile_element.layout`, ...) arithmetic on finite values is exact:
no rounding and no overflow.  It carries the properties of the control flow:
the round counter, the shape of the cache, the order of the calls, the
`bounds_of` guard, the divisions by zero.  In the second embedding (`fp.*`)
every operation is followed by the rounding of the type the C++ code computes
it in, `Flt.to_float` for `float` (binary32) and `Flt.to_double` for `double`
(binary64), round to nearest, ties to even, overflow to an infinity.  It
carries the properties of the numbers that the code returns: the sums of the
limits, the allocations and the offsets of the cache.
-/

set_option autoImplicit false

namespace Elements

/-! ## Floating-point values in exact arithmetic -/

/-- A C++ floating-point value: a finite number, `+inf`, `-inf` or NaN. -/
inductive Flt where
  | fin (q : ℚ)
  | pinf
  | ninf
  | nan
  deriving DecidableEq

namespace Flt

instance : OfNat Flt 0 := ⟨fin 0⟩
instance : OfNat Flt 1 := ⟨fin 1⟩
instance : Inhabited Flt := ⟨fin 0⟩

/-- The literal `0.5`. -/
def half : Flt := fin (1 / 2)

/-- IEEE addition. -/
def add : Flt → Flt → Flt
  | fin a, fin b => fin (a + b)
  | nan, _ => nan
  | _, nan => nan
  | pinf, ninf => nan
  | ninf, pinf => nan
  | pinf, _ => pinf
  | _, pinf => pinf
  | ninf, _ => ninf
  | _, ninf => ninf

/-- IEEE negation. -/
def neg : Flt → Flt
  | fin a => fin (-a)
  | pinf => ninf
  | ninf => pinf
  | nan => nan

/-- IEEE subtraction. -/
def sub (a b : Flt) : Flt := add a (neg b)

/-- The infinity carrying the sign of `q`, NaN for `q = 0`. -/
def signed_inf (q : ℚ) : Flt :=
  if 0 < q then pinf else if q < 0 then ninf else nan

/-- IEEE multiplication. -/
def mul : Flt → Flt → Flt
  | fin a, fin b => fin (a * b)
  | nan, _ => nan
  | _, nan => nan
  | fin a, pinf => signed_inf a
  | fin a, ninf => signed_inf (-a)
  | pinf, fin b => signed_inf b
  | ninf, fin b => signed_inf (-b)
  | pinf, pinf => pinf
  | ninf, ninf => pinf
  | pinf, ninf => ninf
  | ninf, pinf => ninf

/-- IEEE division; a zero divisor is the positive zero. -/
def div : Flt → Flt → Flt
  | fin a, fin b => if b = 0 then signed_inf a else fin (a / b)
  | nan, _ => nan
  | _, nan => nan
  | fin _, pinf => fin 0
  | fin _, ninf => fin 0
  | pinf, fin b => if 0 ≤ b then pinf else ninf
  | ninf, fin b => if 0 ≤ b then ninf else pinf
  | pinf, pinf => nan
  | pinf, ninf => nan
  | ninf, pinf => nan
  | ninf, ninf => nan

/-- The comparison `a < b`; false when either side is NaN. -/
def lt : Flt → Flt → Bool
  | fin a, fin b => decide (a < b)
  | nan, _ => false
  | _, nan => false
  | _, ninf => false
  | pinf, _ => false
  | ninf, _ => true
  | fin _, pinf => true

/-- The comparison `a > b`. -/
def gt (a b : Flt) : Bool := lt b a

/-- The comparison `a >= b`; false when either side is NaN. -/
def ge : Flt → Flt → Bool
  | fin a, fin b => decide (b ≤ a)
  | nan, _ => false
  | _, nan => false
  | pinf, _ => true
  | _, ninf => true
  | ninf, _ => false
  | fin _, pinf => false

instance : Add Flt := ⟨add⟩
instance : Sub Flt := ⟨sub⟩
instance : Mul Flt := ⟨mul⟩
instance : Div Flt := ⟨div⟩

end Flt

/-! ## Geometry and the element protocol -/

/-- A `point`: the two coordinates of an extent. -/
structure point where
  x : Flt
  y : Flt
  deriving DecidableEq

/-- The `view_limits` pair: minimum and maximum extent of an element. -/
structure view_limits where
  min : point
  max : point
  deriving DecidableEq

/-- The `view_stretch` pair: the stretch factor of an element on each axis. -/
structure view_stretch where
  x : Flt
  y : Flt
  deriving DecidableEq

/-- A `rect`, in the field order of the C++ aggregate `{ left, top, right, bottom }`. -/
structure rect where
  left : Flt
  top : Flt
  right : Flt
  bottom : Flt
  deriving DecidableEq

/-- Modelled from the spec: the value-initialised `rect{}` of `support/rect.hpp`, which
is not among the sources; the "empty rectangle" has all four edges at zero. -/
def rect.empty : rect := { left := 0, top := 0, right := 0, bottom := 0 }

/-- Modelled from the spec: `rect::height()` of `support/rect.hpp`, the length of the
rectangle along the vertical axis. -/
def rect.height (r : rect) : Flt := r.bottom - r.top

/-- Modelled from the spec: `rect::width()` of `support/rect.hpp`, the length of the
rectangle along the horizontal axis. -/
def rect.width (r : rect) : Flt := r.right - r.left

/-- Modelled from the spec: the helper `clamp_min(val, min)` of the support library,
which raises `val` to `min` when it is below it; the result is the new `val`. -/
def clamp_min (val min : Flt) : Flt := if Flt.lt val min then min else val

/-- Modelled from the spec: the helper `clamp_max(val, max)` of the support library,
which lowers `val` to `max` when it is above it; the result is the new `val`. -/
def clamp_max (val max : Flt) : Flt := if Flt.gt val max then max else val

/-- What a tile asks of a child: the answer of `limits(ctx)` and of `stretch()`. -/
structure element where
  limits : view_limits
  stretch : view_stretch
  deriving DecidableEq

/-- The per-child record `layout_info` of `tile.cpp`. -/
structure layout_info where
  min : Flt
  max : Flt
  stretch : Flt
  alloc : Flt
  deriving DecidableEq

/-- A vertical tile: its children, the recorded cross-axis edges and the bounds cache. -/
structure vtile_element where
  children : List element
  _left : Flt
  _right : Flt
  _tiles : List Flt
  deriving DecidableEq

/-- A horizontal tile: its children, the recorded cross-axis edges and the bounds cache. -/
structure htile_element where
  children : List element
  _top : Flt
  _bottom : Flt
  _tiles : List Flt
  deriving DecidableEq

/-! ## Limits negotiation -/

/-- The body of the `for` of `vtile_element::limits` for one child. -/
def vtile_element.limits_step (limits : view_limits) (elem : element) : view_limits :=
  let el := elem.limits
  { min := { x := clamp_min limits.min.x el.min.x, y := limits.min.y + el.min.y },
    max := { x := clamp_max limits.max.x el.max.x, y := limits.max.y + el.max.y } }

/-- The function `vtile_element::limits`; `full_extent` is the constant of the support
library, taken as a parameter. -/
def vtile_element.limits (full_extent : Flt) (self : vtile_element) : view_limits :=
  let limits := self.children.foldl vtile_element.limits_step
    { min := { x := 0, y := 0 }, max := { x := full_extent, y := 0 } }
  { min := limits.min,
    max := { x := clamp_min limits.max.x limits.min.x,
             y := clamp_max limits.max.y full_extent } }

/-- The body of the `for` of `htile_element::limits` for one child. -/
def htile_element.limits_step (limits : view_limits) (elem : element) : view_limits :=
  let el := elem.limits
  { min := { x := limits.min.x + el.min.x, y := clamp_min limits.min.y el.min.y },
    max := { x := limits.max.x + el.max.x, y := clamp_max limits.max.y el.max.y } }

/-- The function `htile_element::limits`; `full_extent` is the constant of the support
library, taken as a parameter. -/
def htile_element.limits (full_extent : Flt) (self : htile_element) : view_limits :=
  let limits := self.children.foldl htile_element.limits_step
    { min := { x := 0, y := 0 }, max := { x := 0, y := full_extent } }
  { min := limits.min,
    max := { x := clamp_max limits.max.x full_extent,
             y := clamp_min limits.max.y limits.min.y } }

/-! ## The allocation loop -/

/-- The body of the inner `for` of `allocate` for one record, without the running
`total`: the record after the step and the new `remove_stretch`. -/
def allocate_elem (extra max_stretch : Flt) (info : layout_info) (remove_stretch : Flt) :
    layout_info × Flt :=
  if Flt.lt info.alloc info.max then
    let alloc := info.alloc + extra * info.stretch / max_stretch
    if Flt.ge alloc info.max then
      ({ info with alloc := info.max }, remove_stretch - info.stretch)
    else
      ({ info with alloc := alloc }, remove_stretch)
  else
    (info, remove_stretch)

/-- The inner `for (auto& info : info)` of `allocate`: the records after the pass, the
final `remove_stretch` and the final `total`. -/
def allocate_pass (extra max_stretch : Flt) :
    List layout_info → Flt → Flt → List layout_info × Flt × Flt
  | [], remove_stretch, total => ([], remove_stretch, total)
  | info :: rest, remove_stretch, total =>
    let step := allocate_elem extra max_stretch info remove_stretch
    let tail := allocate_pass extra max_stretch rest step.2 (total + step.1.alloc)
    (step.1 :: tail.1, tail.2.1, tail.2.2)

/-- What `allocate` leaves behind: the records, the number of rounds of the outer loop
that were executed, and the last values of `extra` and `max_stretch`. -/
structure allocation where
  info : List layout_info
  rounds : Nat
  extra : Flt
  max_stretch : Flt
  deriving DecidableEq

/-- The outer `for (int i = 1; i < 10; ++i)` of `allocate`; `n` is the number of values
of `i` that are still to come and `rounds` the number of rounds already executed. -/
def allocate_loop (size : Flt) :
    Nat → Flt → Flt → List layout_info → Nat → allocation
  | 0, extra, max_stretch, info, rounds =>
    { info := info, rounds := rounds, extra := extra, max_stretch := max_stretch }
  | n + 1, extra, max_stretch, info, rounds =>
    let pass := allocate_pass extra max_stretch info 0 0
    let extra1 := size - pass.2.2
    let max_stretch1 := max_stretch - pass.2.1
    if Flt.lt max_stretch1 1 || Flt.lt extra1 Flt.half then
      { info := pass.1, rounds := rounds + 1, extra := extra1, max_stretch := max_stretch1 }
    else
      allocate_loop size n extra1 max_stretch1 pass.1 (rounds + 1)

/-- The function `allocate` of `tile.cpp`: `i` takes the nine values 1 .. 9. -/
def allocate (size max_stretch total : Flt) (info : List layout_info) : allocation :=
  allocate_loop size 9 (size - total) max_stretch info 0

/-! ## Layout and the bounds cache -/

/-- The record that `vtile_element::layout` builds for one child. -/
def vtile_element.info_of (elem : element) : layout_info :=
  { stretch := elem.stretch.y, alloc := elem.limits.min.y,
    min := elem.limits.min.y, max := elem.limits.max.y }

/-- The collecting `for` of `vtile_element::layout`, from the running `max_stretch` and
`total`: the final `max_stretch`, the final `total` and the records. -/
def vtile_element.collect : List element → Flt → Flt → Flt × Flt × List layout_info
  | [], max_stretch, total => (max_stretch, total, [])
  | elem :: rest, max_stretch, total =>
    let info := vtile_element.info_of elem
    let tail := vtile_element.collect rest
      (if Flt.lt info.alloc info.max then max_stretch + info.stretch else max_stretch)
      (total + info.min)
    (tail.1, tail.2.1, info :: tail.2.2)

/-- The allocation step of `vtile_element::layout`: collect, then `allocate`. -/
def vtile_element.allocation (children : List element) (height : Flt) : allocation :=
  let c := vtile_element.collect children 0 0
  allocate height c.1 c.2.1 c.2.2

/-- The final `for` of `vtile_element::layout` from offset `curr`: the offsets written
to the cache, the last one included, and the bounds handed to each child in order. -/
def vtile_element.walk (left right : Flt) : Flt → List layout_info → List Flt × List rect
  | curr, [] => ([curr], [])
  | curr, info :: rest =>
    let prev := curr
    let curr1 := curr + info.alloc
    let tail := vtile_element.walk left right curr1 rest
    (prev :: tail.1,
      { left := left, top := prev, right := right, bottom := curr1 } :: tail.2)

/-- The function `vtile_element::layout` on the bounds of the context: the tile
afterwards and the bounds with which each child's `layout` was called, in order. -/
def vtile_element.layout (self : vtile_element) (bounds : rect) : vtile_element × List rect :=
  let a := vtile_element.allocation self.children bounds.height
  let w := vtile_element.walk bounds.left bounds.right bounds.top a.info
  ({ children := self.children, _left := bounds.left, _right := bounds.right, _tiles := w.1 },
    w.2)

/-- The function `vtile_element::bounds_of`; `none` is a read outside `_tiles`. -/
def vtile_element.bounds_of (self : vtile_element) (index : Nat) : Option rect :=
  if index ≥ self._tiles.length then some rect.empty
  else
    match self._tiles.get? index, self._tiles.get? (index + 1) with
    | some a, some b => some { left := self._left, top := a, right := self._right, bottom := b }
    | _, _ => none

/-- The record that `htile_element::layout` builds for one child. -/
def htile_element.info_of (elem : element) : layout_info :=
  { stretch := elem.stretch.x, alloc := elem.limits.min.x,
    min := elem.limits.min.x, max := elem.limits.max.x }

/-- The collecting `for` of `htile_element::layout`, from the running `max_stretch` and
`total`: the final `max_stretch`, the final `total` and the records. -/
def htile_element.collect : List element → Flt → Flt → Flt × Flt × List layout_info
  | [], max_stretch, total => (max_stretch, total, [])
  | elem :: rest, max_stretch, total =>
    let info := htile_element.info_of elem
    let tail := htile_element.collect rest
      (if Flt.lt info.alloc info.max then max_stretch + info.stretch else max_stretch)
      (total + info.min)
    (tail.1, tail.2.1, info :: tail.2.2)

/-- The allocation step of `htile_element::layout`: collect, then `allocate`. -/
def htile_element.allocation (children : List element) (width : Flt) : allocation :=
  let c := htile_element.collect children 0 0
  allocate width c.1 c.2.1 c.2.2

/-- The final `for` of `htile_element::layout` from offset `curr`: the offsets written
to the cache, the last one included, and the bounds handed to each child in order. -/
def htile_element.walk (top bottom : Flt) : Flt → List layout_info → List Flt × List rect
  | curr, [] => ([curr], [])
  | curr, info :: rest =>
    let prev := curr
    let curr1 := curr + info.alloc
    let tail := htile_element.walk top bottom curr1 rest
    (prev :: tail.1,
      { left := prev, top := top, right := curr1, bottom := bottom } :: tail.2)

/-- The function `htile_element::layout` on the bounds of the context: the tile
afterwards and the bounds with which each child's `layout` was called, in order. -/
def htile_element.layout (self : htile_element) (bounds : rect) : htile_element × List rect :=
  let a := htile_element.allocation self.children bounds.width
  let w := htile_element.walk bounds.top bounds.bottom bounds.left a.info
  ({ children := self.children, _top := bounds.top, _bottom := bounds.bottom, _tiles := w.1 },
    w.2)

/-- The function `htile_element::bounds_of`; `none` is a read outside `_tiles`. -/
def htile_element.bounds_of (self : htile_element) (index : Nat) : Option rect :=
  if index ≥ self._tiles.length then some rect.empty
  else
    match self._tiles.get? index, self._tiles.get? (index + 1) with
    | some a, some b => some { left := a, top := self._top, right := b, bottom := self._bottom }
    | _, _ => none

/-! ## Vocabulary of the statements -/

/-- The primary axis of a tile: `y` for a vertical tile, `x` for a horizontal one. -/
inductive axis where
  | x
  | y
  deriving DecidableEq

/-- The cross axis of a tile with the given primary axis. -/
def axis.cross : axis → axis
  | axis.x => axis.y
  | axis.y => axis.x

/-- The coordinate of a point along an axis. -/
def point.along (p : point) : axis → Flt
  | axis.x => p.x
  | axis.y => p.y

/-- A child whose limits and stretch factors are finite numbers. -/
structure child where
  min_x : ℚ
  min_y : ℚ
  max_x : ℚ
  max_y : ℚ
  stretch_x : ℚ
  stretch_y : ℚ

/-- The element a tile sees for a child with finite limits and stretch. -/
def child.elem (c : child) : element :=
  { limits := { min := { x := Flt.fin c.min_x, y := Flt.fin c.min_y },
                max := { x := Flt.fin c.max_x, y := Flt.fin c.max_y } },
    stretch := { x := Flt.fin c.stretch_x, y := Flt.fin c.stretch_y } }

/-- The minimum extent of a child along an axis. -/
def child.lo (c : child) : axis → ℚ
  | axis.x => c.min_x
  | axis.y => c.min_y

/-- The maximum extent of a child along an axis. -/
def child.hi (c : child) : axis → ℚ
  | axis.x => c.max_x
  | axis.y => c.max_y

/-- The stretch factor of a child along an axis. -/
def child.str (c : child) : axis → ℚ
  | axis.x => c.stretch_x
  | axis.y => c.stretch_y

/-- The sum of the stretch factors of the children that can grow along axis `a`
(`min < max`): the `max_stretch` that `layout` hands to `allocate`. -/
def growable_stretch (a : axis) (cs : List child) : ℚ :=
  ((cs.filter (fun c => c.lo a < c.hi a)).map (fun c => c.str a)).sum

/-- The limits of the tile whose primary axis is `a`: `vtile_element::limits` for `y`,
`htile_element::limits` for `x`.  The recorded edges and the cache play no part. -/
def tile_limits (a : axis) (full_extent : Flt) (children : List element) : view_limits :=
  match a with
  | axis.y => vtile_element.limits full_extent
      { children := children, _left := 0, _right := 0, _tiles := [] }
  | axis.x => htile_element.limits full_extent
      { children := children, _top := 0, _bottom := 0, _tiles := [] }

/-- The allocation step of the tile whose primary axis is `a`, for primary length `size`. -/
def tile_allocation (a : axis) (children : List element) (size : Flt) : allocation :=
  match a with
  | axis.y => vtile_element.allocation children size
  | axis.x => htile_element.allocation children size

/-! ## Rounds of the allocation loop on finite records

The loop of `allocate` restricted to records whose fields are finite and to rounds that do
not divide by zero, written over `ℚ`; the theorems below show that `allocate` agrees with it
on such inputs. -/

/-- A `layout_info` record with finite fields. -/
structure qinfo where
  min : ℚ
  max : ℚ
  stretch : ℚ
  alloc : ℚ

/-- The `layout_info` record of a finite record. -/
def qinfo.lift (i : qinfo) : layout_info :=
  { min := Flt.fin i.min, max := Flt.fin i.max, stretch := Flt.fin i.stretch,
    alloc := Flt.fin i.alloc }

/-- The record after the body of the inner loop, for a non-zero `max_stretch`. -/
def qinfo.step (e m : ℚ) (i : qinfo) : qinfo :=
  if i.alloc < i.max then
    if i.max ≤ i.alloc + e * i.stretch / m then { i with alloc := i.max }
    else { i with alloc := i.alloc + e * i.stretch / m }
  else i

/-- The stretch that the body of the inner loop subtracts from `remove_stretch`. -/
def qinfo.removed (e m : ℚ) (i : qinfo) : ℚ :=
  if i.alloc < i.max ∧ i.max ≤ i.alloc + e * i.stretch / m then i.stretch else 0

/-- The stretch with which a record takes part in the distribution: its stretch factor when
it can still grow, zero otherwise. -/
def qinfo.pool (i : qinfo) : ℚ := if i.alloc < i.max then i.stretch else 0

/-- The sum of the allocations. -/
def qtotal (is : List qinfo) : ℚ := (is.map (fun i => i.alloc)).sum

/-- The sum of the stretch factors of the records that can still grow. -/
def qpool (is : List qinfo) : ℚ := (is.map qinfo.pool).sum

/-- The record with which `layout` starts for a child, along axis `a`. -/
def child.info (a : axis) (c : child) : qinfo :=
  { min := c.lo a, max := c.hi a, stretch := c.str a, alloc := c.lo a }

/-- The state that `allocate` leaves behind, on finite records. -/
structure qallocation where
  info : List qinfo
  rounds : Nat
  extra : ℚ
  max_stretch : ℚ

/-- The `allocation` of a finite state. -/
def qallocation.lift (q : qallocation) : allocation :=
  { info := q.info.map qinfo.lift, rounds := q.rounds, extra := Flt.fin q.extra,
    max_stretch := Flt.fin q.max_stretch }

/-- The outer loop of `allocate` on finite records. -/
def qloop (size : ℚ) : Nat → ℚ → ℚ → List qinfo → Nat → qallocation
  | 0, e, m, is, rounds => { info := is, rounds := rounds, extra := e, max_stretch := m }
  | n + 1, e, m, is, rounds =>
    let is1 := is.map (qinfo.step e m)
    let e1 := size - qtotal is1
    let m1 := m - (0 - (is.map (qinfo.removed e m)).sum)
    if m1 < 1 ∨ e1 < 1 / 2 then
      { info := is1, rounds := rounds + 1, extra := e1, max_stretch := m1 }
    else qloop size n e1 m1 is1 (rounds + 1)

/-- The invariant of the outer loop of `allocate` for target length `size`: the records are
within their limits with non-negative stretch, `extra` is the non-negative rest of `size`,
and `max_stretch` covers the stretch of the records that can still grow. -/
def qinv (size e m : ℚ) (is : List qinfo) : Prop :=
  (∀ i ∈ is, i.min ≤ i.alloc ∧ i.alloc ≤ i.max ∧ 0 ≤ i.stretch) ∧
  e = size - qtotal is ∧ 0 ≤ e ∧ qpool is ≤ m ∧ ((∃ i ∈ is, i.alloc < i.max) → 0 < m)

/-- Record `j` is record `i` after some rounds: same limits and stretch, an allocation that
did not shrink and is at most the maximum. -/
def qgrown (i j : qinfo) : Prop :=
  j.min = i.min ∧ j.max = i.max ∧ j.stretch = i.stretch ∧ i.alloc ≤ j.alloc ∧ j.alloc ≤ j.max

/-! ## The calls made by the layout walk -/

/-- The calls `elem.layout(context{ ctx, &elem, ebounds })` of the final `for` of
`vtile_element::layout`, in the order in which they are made: the index `i` of the child
`at(i++)` and the bounds `ebounds` it is given; `i` and `curr` are the running index and
offset. -/
def vtile_element.walk_calls (left right : Flt) :
    Nat → Flt → List layout_info → List (Nat × rect)
  | _, _, [] => []
  | i, curr, info :: rest =>
    let prev := curr
    let curr1 := curr + info.alloc
    (i, { left := left, top := prev, right := right, bottom := curr1 }) ::
      vtile_element.walk_calls left right (i + 1) curr1 rest

/-- The calls of the children's `layout` made by `vtile_element::layout`, in order. -/
def vtile_element.layout_calls (self : vtile_element) (bounds : rect) : List (Nat × rect) :=
  vtile_element.walk_calls bounds.left bounds.right 0 bounds.top
    (vtile_element.allocation self.children bounds.height).info

/-- The calls `elem.layout(context{ ctx, &elem, ebounds })` of the final `for` of
`htile_element::layout`, in the order in which they are made: the index `i` of the child
`at(i++)` and the bounds `ebounds` it is given; `i` and `curr` are the running index and
offset. -/
def htile_element.walk_calls (top bottom : Flt) :
    Nat → Flt → List layout_info → List (Nat × rect)
  | _, _, [] => []
  | i, curr, info :: rest =>
    let prev := curr
    let curr1 := curr + info.alloc
    (i, { left := prev, top := top, right := curr1, bottom := bottom }) ::
      htile_element.walk_calls top bottom (i + 1) curr1 rest

/-- The calls of the children's `layout` made by `htile_element::layout`, in order. -/
def htile_element.layout_calls (self : htile_element) (bounds : rect) : List (Nat × rect) :=
  htile_element.walk_calls bounds.top bounds.bottom 0 bounds.left
    (htile_element.allocation self.children bounds.width).info

/-! ## Vocabulary for the bounds cache -/

/-- The bounds cache that `layout` writes for the tile whose primary axis is `a`:
`_tiles` after `vtile_element::layout` for `y`, after `htile_element::layout` for `x`. -/
def tile_offsets (a : axis) (children : List element) (bounds : rect) : List Flt :=
  match a with
  | axis.y => (vtile_element.layout
      { children := children, _left := 0, _right := 0, _tiles := [] } bounds).1._tiles
  | axis.x => (htile_element.layout
      { children := children, _top := 0, _bottom := 0, _tiles := [] } bounds).1._tiles

/-- The rectangle with edges `lead`, `trail` along the primary axis `a` and edges `side1`,
`side2` across it. -/
def rect.of_axis (a : axis) (lead trail side1 side2 : Flt) : rect :=
  match a with
  | axis.y => { left := side1, top := lead, right := side2, bottom := trail }
  | axis.x => { left := lead, top := side1, right := trail, bottom := side2 }

/-- The offsets that the layout walk writes from offset `curr` for finite allocations. -/
def qoffsets : ℚ → List ℚ → List ℚ
  | curr, [] => [curr]
  | curr, alloc :: rest => curr :: qoffsets (curr + alloc) rest

/-! ## Options of the Windows file dialogs (`host/windows/window.cpp`) -/

/-- The `FOS_*` constants of the Windows SDK that `apply_dialog_options` uses; they are
not defined in the repository and are taken as parameters. -/
structure fos_flags where
  FOS_FORCEFILESYSTEM : Nat
  FOS_FORCEPREVIEWPANEON : Nat
  FOS_FORCESHOWHIDDEN : Nat
  FOS_OVERWRITEPROMPT : Nat
  FOS_ALLOWMULTISELECT : Nat
  FOS_NODEREFERENCELINKS : Nat
  FOS_FILEMUSTEXIST : Nat
  FOS_PICKFOLDERS : Nat

/-- The fields of `filesystem_modal_settings` that decide dialog options. -/
structure filesystem_modal_settings where
  allow_external_filesystem : Bool
  file_preview : Bool
  show_hidden_files : Bool

/-- What `apply_dialog_options` needs of an `IFileDialog`: its option word (a 32-bit
`FILEOPENDIALOGOPTIONS`) and whether `GetOptions` / `SetOptions` report failure. -/
structure file_dialog where
  options : Nat
  get_options_failed : Bool
  set_options_failed : Bool

/-- The two `throw_windows_error` exits of `apply_dialog_options` around the option word. -/
inductive dialog_error where
  | get_options
  | set_options
  deriving DecidableEq

/-- The operator `~` on a 32-bit word. -/
def bit_not (x : Nat) : Nat := 2 ^ 32 - (x % 2 ^ 32 + 1)

/-- The function `apply_dialog_options` up to and including `dialog.SetOptions(options)`;
the calls after it (title, folder, places) do not touch the option word. -/
def apply_dialog_options (F : fos_flags) (dialog : file_dialog)
    (fs_modal_st : filesystem_modal_settings)
    (confirm_overwrite multiple_selection follow_symlinks path_must_exist pick_folders : Bool) :
    Except dialog_error file_dialog :=
  if dialog.get_options_failed then Except.error dialog_error.get_options
  else
    let options := dialog.options
    let options :=
      if fs_modal_st.allow_external_filesystem then options &&& bit_not F.FOS_FORCEFILESYSTEM
      else options ||| F.FOS_FORCEFILESYSTEM
    let options :=
      if fs_modal_st.file_preview then options ||| F.FOS_FORCEPREVIEWPANEON
      else options &&& bit_not F.FOS_FORCEPREVIEWPANEON
    let options :=
      if fs_modal_st.show_hidden_files then options ||| F.FOS_FORCESHOWHIDDEN
      else options &&& bit_not F.FOS_FORCESHOWHIDDEN
    let options :=
      if confirm_overwrite then options ||| F.FOS_OVERWRITEPROMPT
      else options &&& bit_not F.FOS_OVERWRITEPROMPT
    let options :=
      if multiple_selection then options ||| F.FOS_ALLOWMULTISELECT
      else options &&& bit_not F.FOS_ALLOWMULTISELECT
    let options :=
      if follow_symlinks then options &&& bit_not F.FOS_NODEREFERENCELINKS
      else options ||| F.FOS_NODEREFERENCELINKS
    let options :=
      if path_must_exist then options ||| F.FOS_FILEMUSTEXIST
      else options &&& bit_not F.FOS_FILEMUSTEXIST
    let options :=
      if pick_folders then options ||| F.FOS_PICKFOLDERS
      else options &&& bit_not F.FOS_PICKFOLDERS
    if dialog.set_options_failed then Except.error dialog_error.set_options
    else Except.ok { dialog with options := options }

/-- The `FOS_*` constants as single bits at the given positions. -/
def fos_flags.of_bits (ffs fpp fsh owp ams ndl fme pf : Nat) : fos_flags :=
  { FOS_FORCEFILESYSTEM := 2 ^ ffs, FOS_FORCEPREVIEWPANEON := 2 ^ fpp,
    FOS_FORCESHOWHIDDEN := 2 ^ fsh, FOS_OVERWRITEPROMPT := 2 ^ owp,
    FOS_ALLOWMULTISELECT := 2 ^ ams, FOS_NODEREFERENCELINKS := 2 ^ ndl,
    FOS_FILEMUSTEXIST := 2 ^ fme, FOS_PICKFOLDERS := 2 ^ pf }

/-! ## Radio buttons (`element/gallery/radio_button.cpp`, `element/selectable.hpp`) -/

/-- The point with `x` and `y` exchanged. -/
def point.swap (p : point) : point := { x := p.y, y := p.x }

/-- The limits with `x` and `y` exchanged. -/
def view_limits.swap (l : view_limits) : view_limits := { min := l.min.swap, max := l.max.swap }

/-- The stretch with `x` and `y` exchanged. -/
def view_stretch.swap (s : view_stretch) : view_stretch := { x := s.y, y := s.x }

/-- The element with `x` and `y` exchanged. -/
def element.swap (e : element) : element :=
  { limits := e.limits.swap, stretch := e.stretch.swap }

/-- The rectangle with `x` and `y` exchanged. -/
def rect.swap (r : rect) : rect :=
  { left := r.top, top := r.left, right := r.bottom, bottom := r.right }

/-- The horizontal tile that is the vertical tile with `x` and `y` exchanged. -/
def vtile_element.swap (v : vtile_element) : htile_element :=
  { children := v.children.map element.swap, _top := v._left, _bottom := v._right,
    _tiles := v._tiles }

/-! ## The allocation step, round by round -/

/-- The allocation step of the tile whose primary axis is `a` with the outer loop of
`allocate` stopped after at most `k` rounds: the working state after round `k`, or the final
one when `allocate` has returned before.  For `k = 9` it is the allocation step itself. -/
def tile_allocation_after (a : axis) (children : List element) (size : Flt) (k : Nat) :
    allocation :=
  match a with
  | axis.y =>
    allocate_loop size k (size - (vtile_element.collect children 0 0).2.1)
      (vtile_element.collect children 0 0).1 (vtile_element.collect children 0 0).2.2 0
  | axis.x =>
    allocate_loop size k (size - (htile_element.collect children 0 0).2.1)
      (htile_element.collect children 0 0).1 (htile_element.collect children 0 0).2.2 0

/-! ## Rounding to binary32 and binary64

The C++ types `float` and `double` are the IEEE-754 formats binary32 and binary64; every
operation returns the exact result rounded to the nearest value of its format, ties to the
even significand, and overflows to an infinity.  Signed zeros are not distinguished. -/

namespace Flt

/-- The number of halvings that take `n` below 2, at most `fuel` of them: `⌊log2 n⌋` for
`1 <= n <= fuel`. -/
def log2_fuel : ℕ → ℕ → ℕ
  | 0, _ => 0
  | fuel + 1, n => if n < 2 then 0 else log2_fuel fuel (n / 2) + 1

/-- The binary exponent of a non-zero rational: the integer `e` with
`2 ^ e <= |x| < 2 ^ (e + 1)`. -/
def ilog2 (x : ℚ) : ℤ :=
  let d : ℤ := (log2_fuel x.num.natAbs x.num.natAbs : ℤ) - (log2_fuel x.den x.den : ℤ)
  if (2 : ℚ) ^ d ≤ |x| then d else d - 1

/-- The integer nearest to a rational, a tie going to the even one. -/
def rne (x : ℚ) : ℤ :=
  let k := Rat.floor x
  let f := x - k
  if f < 1 / 2 then k else if 1 / 2 < f then k + 1 else if k % 2 = 0 then k else k + 1

/-- The value nearest to a rational among the multiples of the unit in the last place that
belongs to its exponent, for a binary format with `p` significand bits whose least exponent
is `emin` (subnormal values included), a tie going to the even significand; the exponent is
not bounded above. -/
def nearest (p : ℕ) (emin : ℤ) (x : ℚ) : ℚ :=
  if x = 0 then 0
  else
    let e := max (ilog2 x) emin
    let u : ℚ := 2 ^ (e - ((p : ℤ) - 1))
    rne (x / u) * u

/-- IEEE-754 rounding to nearest, ties to even, to the binary format with `p` significand
bits and exponents `emin .. emax`: the nearest value, or an infinity when that is beyond the
largest finite value of the format. -/
def ieee_round (p : ℕ) (emin emax : ℤ) (x : ℚ) : Flt :=
  let y := nearest p emin x
  if (2 : ℚ) ^ (emax + 1) ≤ |y| then (if 0 < x then pinf else ninf) else fin y

/-- A rational rounded to binary32, the format of `float`. -/
def binary32 (x : ℚ) : Flt := ieee_round 24 (-126) 127 x

/-- A rational rounded to binary64, the format of `double`. -/
def binary64 (x : ℚ) : Flt := ieee_round 53 (-1022) 1023 x

/-- The value as a `float`: a finite number is rounded to binary32. -/
def to_float : Flt → Flt
  | fin q => binary32 q
  | x => x

/-- The value as a `double`: a finite number is rounded to binary64. -/
def to_double : Flt → Flt
  | fin q => binary64 q
  | x => x

end Flt

/-! ## The tiles in binary floating point

The functions of `tile.cpp` once more, with the result of every arithmetic operation rounded
to the type the C++ code computes it in: `float` for the fields of `layout_info`, the limits,
the rectangles, the cache `_tiles` and the `total` of `vtile_element::layout`; `double` for
the parameters and locals of `allocate`, for `max_stretch`, the `total` of
`htile_element::layout` and the offset `curr` of the layout walk.  A `float` operand of a
`double` operation is converted exactly. -/

/-- Modelled from the spec: `rect::height()` of `support/rect.hpp`, computed in `float`. -/
def fp.rect.height (r : rect) : Flt := (r.bottom - r.top).to_float

/-- Modelled from the spec: `rect::width()` of `support/rect.hpp`, computed in `float`. -/
def fp.rect.width (r : rect) : Flt := (r.right - r.left).to_float

/-- The body of the `for` of `vtile_element::limits` for one child, in `float`. -/
def fp.vtile_element.limits_step (limits : view_limits) (elem : element) : view_limits :=
  let el := elem.limits
  { min := { x := clamp_min limits.min.x el.min.x, y := (limits.min.y + el.min.y).to_float },
    max := { x := clamp_max limits.max.x el.max.x, y := (limits.max.y + el.max.y).to_float } }

/-- The function `vtile_element::limits`, in `float`. -/
def fp.vtile_element.limits (full_extent : Flt) (self : vtile_element) : view_limits :=
  let limits := self.children.foldl fp.vtile_element.limits_step
    { min := { x := 0, y := 0 }, max := { x := full_extent, y := 0 } }
  { min := limits.min,
    max := { x := clamp_min limits.max.x limits.min.x,
             y := clamp_max limits.max.y full_extent } }

/-- The body of the `for` of `htile_element::limits` for one child, in `float`. -/
def fp.htile_element.limits_step (limits : view_limits) (elem : element) : view_limits :=
  let el := elem.limits
  { min := { x := (limits.min.x + el.min.x).to_float, y := clamp_min limits.min.y el.min.y },
    max := { x := (limits.max.x + el.max.x).to_float, y := clamp_max limits.max.y el.max.y } }

/-- The function `htile_element::limits`, in `float`. -/
def fp.htile_element.limits (full_extent : Flt) (self : htile_element) : view_limits :=
  let limits := self.children.foldl fp.htile_element.limits_step
    { min := { x := 0, y := 0 }, max := { x := 0, y := full_extent } }
  { min := limits.min,
    max := { x := clamp_max limits.max.x full_extent,
             y := clamp_min limits.max.y limits.min.y } }

/-- The body of the inner `for` of `allocate` for one record, without the running `total`:
`extra * info.stretch / max_stretch` and the sum with `info.alloc` are computed in `double`,
the sum is stored in the `float` field `alloc`. -/
def fp.allocate_elem (extra max_stretch : Flt) (info : layout_info) (remove_stretch : Flt) :
    layout_info × Flt :=
  if Flt.lt info.alloc info.max then
    let alloc :=
      (info.alloc + ((extra * info.stretch).to_double / max_stretch).to_double).to_double.to_float
    if Flt.ge alloc info.max then
      ({ info with alloc := info.max }, (remove_stretch - info.stretch).to_double)
    else
      ({ info with alloc := alloc }, remove_stretch)
  else
    (info, remove_stretch)

/-- The inner `for (auto& info : info)` of `allocate`, with the `double` accumulator
`total`. -/
def fp.allocate_pass (extra max_stretch : Flt) :
    List layout_info → Flt → Flt → List layout_info × Flt × Flt
  | [], remove_stretch, total => ([], remove_stretch, total)
  | info :: rest, remove_stretch, total =>
    let step := fp.allocate_elem extra max_stretch info remove_stretch
    let tail := fp.allocate_pass extra max_stretch rest step.2
      (total + step.1.alloc).to_double
    (step.1 :: tail.1, tail.2.1, tail.2.2)

/-- The outer `for (int i = 1; i < 10; ++i)` of `allocate`, in `double`. -/
def fp.allocate_loop (size : Flt) :
    Nat → Flt → Flt → List layout_info → Nat → allocation
  | 0, extra, max_stretch, info, rounds =>
    { info := info, rounds := rounds, extra := extra, max_stretch := max_stretch }
  | n + 1, extra, max_stretch, info, rounds =>
    let pass := fp.allocate_pass extra max_stretch info 0 0
    let extra1 := (size - pass.2.2).to_double
    let max_stretch1 := (max_stretch - pass.2.1).to_double
    if Flt.lt max_stretch1 1 || Flt.lt extra1 Flt.half then
      { info := pass.1, rounds := rounds + 1, extra := extra1, max_stretch := max_stretch1 }
    else
      fp.allocate_loop size n extra1 max_stretch1 pass.1 (rounds + 1)

/-- The function `allocate` of `tile.cpp`, in `double`. -/
def fp.allocate (size max_stretch total : Flt) (info : List layout_info) : allocation :=
  fp.allocate_loop size 9 (size - total).to_double max_stretch info 0

/-- The collecting `for` of `vtile_element::layout`: `max_stretch` is a `double`, `total` a
`float`. -/
def fp.vtile_element.collect : List element → Flt → Flt → Flt × Flt × List layout_info
  | [], max_stretch, total => (max_stretch, total, [])
  | elem :: rest, max_stretch, total =>
    let info := vtile_element.info_of elem
    let tail := fp.vtile_element.collect rest
      (if Flt.lt info.alloc info.max then (max_stretch + info.stretch).to_double
       else max_stretch)
      (total + info.min).to_float
    (tail.1, tail.2.1, info :: tail.2.2)

/-- The allocation step of `vtile_element::layout`: collect, then `allocate`. -/
def fp.vtile_element.allocation (children : List element) (height : Flt) : allocation :=
  let c := fp.vtile_element.collect children 0 0
  fp.allocate height c.1 c.2.1 c.2.2

/-- The final `for` of `vtile_element::layout` from the `double` offset `curr`: the offsets
written to the `float` cache, the last one included, and the bounds handed to each child. -/
def fp.vtile_element.walk (left right : Flt) : Flt → List layout_info → List Flt × List rect
  | curr, [] => ([curr.to_float], [])
  | curr, info :: rest =>
    let prev := curr
    let curr1 := (curr + info.alloc).to_double
    let tail := fp.vtile_element.walk left right curr1 rest
    (prev.to_float :: tail.1,
      { left := left, top := prev.to_float, right := right, bottom := curr1.to_float } ::
        tail.2)

/-- The function `vtile_element::layout` on the bounds of the context, in floating point. -/
def fp.vtile_element.layout (self : vtile_element) (bounds : rect) :
    vtile_element × List rect :=
  let a := fp.vtile_element.allocation self.children (fp.rect.height bounds)
  let w := fp.vtile_element.walk bounds.left bounds.right bounds.top a.info
  ({ children := self.children, _left := bounds.left, _right := bounds.right, _tiles := w.1 },
    w.2)

/-- The collecting `for` of `htile_element::layout`: `max_stretch` and `total` are
`double`s. -/
def fp.htile_element.collect : List element → Flt → Flt → Flt × Flt × List layout_info
  | [], max_stretch, total => (max_stretch, total, [])
  | elem :: rest, max_stretch, total =>
    let info := htile_element.info_of elem
    let tail := fp.htile_element.collect rest
      (if Flt.lt info.alloc info.max then (max_stretch + info.stretch).to_double
       else max_stretch)
      (total + info.min).to_double
    (tail.1, tail.2.1, info :: tail.2.2)

/-- The allocation step of `htile_element::layout`: collect, then `allocate`. -/
def fp.htile_element.allocation (children : List element) (width : Flt) : allocation :=
  let c := fp.htile_element.collect children 0 0
  fp.allocate width c.1 c.2.1 c.2.2

/-- The final `for` of `htile_element::layout` from the `double` offset `curr`. -/
def fp.htile_element.walk (top bottom : Flt) : Flt → List layout_info → List Flt × List rect
  | curr, [] => ([curr.to_float], [])
  | curr, info :: rest =>
    let prev := curr
    let curr1 := (curr + info.alloc).to_double
    let tail := fp.htile_element.walk top bottom curr1 rest
    (prev.to_float :: tail.1,
      { left := prev.to_float, top := top, right := curr1.to_float, bottom := bottom } ::
        tail.2)

/-- The function `htile_element::layout` on the bounds of the context, in floating point. -/
def fp.htile_element.layout (self : htile_element) (bounds : rect) :
    htile_element × List rect :=
  let a := fp.htile_element.allocation self.children (fp.rect.width bounds)
  let w := fp.htile_element.walk bounds.top bounds.bottom bounds.left a.info
  ({ children := self.children, _top := bounds.top, _bottom := bounds.bottom, _tiles := w.1 },
    w.2)

/-- The limits of the tile whose primary axis is `a`, in floating point. -/
def fp.tile_limits (a : axis) (full_extent : Flt) (children : List element) : view_limits :=
  match a with
  | axis.y => fp.vtile_element.limits full_extent
      { children := children, _left := 0, _right := 0, _tiles := [] }
  | axis.x => fp.htile_element.limits full_extent
      { children := children, _top := 0, _bottom := 0, _tiles := [] }

/-- The `total` that `layout` hands to `allocate` for the tile whose primary axis is `a`: the
minima of the children added up in `float` by `vtile_element::layout`, in `double` by
`htile_element::layout`. -/
def fp.tile_total (a : axis) (children : List element) : Flt :=
  match a with
  | axis.y => (fp.vtile_element.collect children 0 0).2.1
  | axis.x => (fp.htile_element.collect children 0 0).2.1

/-- The allocation step of the tile whose primary axis is `a`, in floating point. -/
def fp.tile_allocation (a : axis) (children : List element) (size : Flt) : allocation :=
  match a with
  | axis.y => fp.vtile_element.allocation children size
  | axis.x => fp.htile_element.allocation children size

/-- The allocation step in floating point with the outer loop of `allocate` stopped after at
most `k` rounds; for `k = 9` it is the allocation step itself. -/
def fp.tile_allocation_after (a : axis) (children : List element) (size : Flt) (k : Nat) :
    allocation :=
  match a with
  | axis.y =>
    fp.allocate_loop size k (size - (fp.vtile_element.collect children 0 0).2.1).to_double
      (fp.vtile_element.collect children 0 0).1 (fp.vtile_element.collect children 0 0).2.2 0
  | axis.x =>
    fp.allocate_loop size k (size - (fp.htile_element.collect children 0 0).2.1).to_double
      (fp.htile_element.collect children 0 0).1 (fp.htile_element.collect children 0 0).2.2 0

/-- The bounds cache that `layout` writes in floating point for the tile whose primary axis
is `a`. -/
def fp.tile_offsets (a : axis) (children : List element) (bounds : rect) : List Flt :=
  match a with
  | axis.y => (fp.vtile_element.layout
      { children := children, _left := 0, _right := 0, _tiles := [] } bounds).1._tiles
  | axis.x => (fp.htile_element.layout
      { children := children, _top := 0, _bottom := 0, _tiles := [] } bounds).1._tiles

/-- The `max_stretch` that `layout` hands to `allocate` for the tile whose primary axis is
`a`: the stretch factors of the children that can grow, added up in `double`. -/
def fp.tile_stretch (a : axis) (children : List element) : Flt :=
  match a with
  | axis.y => (fp.vtile_element.collect children 0 0).1
  | axis.x => (fp.htile_element.collect children 0 0).1

namespace Flt

/-- The value is a `float`: the conversion to binary32 leaves it unchanged. -/
def is_float (x : Flt) : Bool := decide (x.to_float = x)

/-- The value is a `double`: the conversion to binary64 leaves it unchanged. -/
def is_double (x : Flt) : Bool := decide (x.to_double = x)

end Flt

/-! ## Invariants of the allocation loop in floating point -/

/-- A record of the loop in floating point that is within its limits: `0 <= min <= alloc <=
max`, a non-negative stretch factor, and `max`, `stretch` and `alloc` are `float`s. -/
def fp.valid (i : qinfo) : Prop :=
  0 ≤ i.min ∧ i.min ≤ i.alloc ∧ i.alloc ≤ i.max ∧ 0 ≤ i.stretch ∧
  Flt.binary32 i.max = Flt.fin i.max ∧ Flt.binary32 i.stretch = Flt.fin i.stretch ∧
  Flt.binary32 i.alloc = Flt.fin i.alloc

/-- A non-negative `double`, or `+inf`: the shape of `max_stretch` and of the running
`total`. -/
def fp.nonneg (x : Flt) : Prop :=
  (∃ q : ℚ, x = Flt.fin q ∧ 0 ≤ q ∧ Flt.binary64 q = Flt.fin q) ∨ x = Flt.pinf

/-- A `double` that is not positive, or `-inf`: the shape of `remove_stretch`. -/
def fp.nonpos (x : Flt) : Prop :=
  (∃ q : ℚ, x = Flt.fin q ∧ q ≤ 0 ∧ Flt.binary64 q = Flt.fin q) ∨ x = Flt.ninf

/-- The invariant of the outer loop of `allocate` in floating point, for a target length `L`:
the records are within their limits, `extra` is a finite number between 0 and `L`, and
`max_stretch` is a non-negative `double` or `+inf` that is not zero while a record can grow. -/
def fp.inv (L : ℚ) (e m : Flt) (is : List qinfo) : Prop :=
  (∀ i ∈ is, fp.valid i) ∧ (∃ q : ℚ, e = Flt.fin q ∧ 0 ≤ q ∧ q ≤ L) ∧
  fp.nonneg m ∧ ((∃ i ∈ is, i.alloc < i.max) → m ≠ Flt.fin 0)

/-! ## Runs without rounding

A run of the code in which no operation rounds: every intermediate result, followed in exact
arithmetic, is a value of the type the code computes it in. -/

/-- No operation of the body of the inner loop of `allocate` rounds, for one record. -/
def fp.allocate_elem_exact (extra max_stretch : Flt) (info : layout_info)
    (remove_stretch : Flt) : Bool :=
  if Flt.lt info.alloc info.max then
    (extra * info.stretch).is_double &&
    (extra * info.stretch / max_stretch).is_double &&
    (info.alloc + extra * info.stretch / max_stretch).is_double &&
    (info.alloc + extra * info.stretch / max_stretch).is_float &&
    (if Flt.ge (info.alloc + extra * info.stretch / max_stretch) info.max then
      (remove_stretch - info.stretch).is_double
    else true)
  else true

/-- No operation of one pass of the inner loop of `allocate` rounds. -/
def fp.allocate_pass_exact (extra max_stretch : Flt) : List layout_info → Flt → Flt → Bool
  | [], _, _ => true
  | info :: rest, remove_stretch, total =>
    let step := Elements.allocate_elem extra max_stretch info remove_stretch
    fp.allocate_elem_exact extra max_stretch info remove_stretch &&
      (total + step.1.alloc).is_double &&
      fp.allocate_pass_exact extra max_stretch rest step.2 (total + step.1.alloc)

/-- No operation of the first `n` rounds of the outer loop of `allocate` rounds. -/
def fp.allocate_loop_exact (size : Flt) : Nat → Flt → Flt → List layout_info → Bool
  | 0, _, _, _ => true
  | n + 1, extra, max_stretch, info =>
    let pass := Elements.allocate_pass extra max_stretch info 0 0
    let extra1 := size - pass.2.2
    let max_stretch1 := max_stretch - pass.2.1
    fp.allocate_pass_exact extra max_stretch info 0 0 && extra1.is_double &&
      max_stretch1.is_double &&
      (if Flt.lt max_stretch1 1 || Flt.lt extra1 Flt.half then true
       else fp.allocate_loop_exact size n extra1 max_stretch1 pass.1)

/-- No addition of the collecting `for` of `vtile_element::layout` rounds. -/
def fp.vtile_element.collect_exact : List element → Flt → Flt → Bool
  | [], _, _ => true
  | elem :: rest, max_stretch, total =>
    let info := vtile_element.info_of elem
    (if Flt.lt info.alloc info.max then (max_stretch + info.stretch).is_double else true) &&
      (total + info.min).is_float &&
      fp.vtile_element.collect_exact rest
        (if Flt.lt info.alloc info.max then max_stretch + info.stretch else max_stretch)
        (total + info.min)

/-- No addition of the collecting `for` of `htile_element::layout` rounds. -/
def fp.htile_element.collect_exact : List element → Flt → Flt → Bool
  | [], _, _ => true
  | elem :: rest, max_stretch, total =>
    let info := htile_element.info_of elem
    (if Flt.lt info.alloc info.max then (max_stretch + info.stretch).is_double else true) &&
      (total + info.min).is_double &&
      fp.htile_element.collect_exact rest
        (if Flt.lt info.alloc info.max then max_stretch + info.stretch else max_stretch)
        (total + info.min)

/-- No operation of the allocation step of the tile whose primary axis is `a` rounds, up to
round `k` of `allocate`. -/
def fp.tile_allocation_exact (a : axis) (children : List element) (size : Flt) (k : Nat) :
    Bool :=
  match a with
  | axis.y =>
    fp.vtile_element.collect_exact children 0 0 &&
      (size - (Elements.vtile_element.collect children 0 0).2.1).is_double &&
      fp.allocate_loop_exact size k (size - (Elements.vtile_element.collect children 0 0).2.1)
        (Elements.vtile_element.collect children 0 0).1
        (Elements.vtile_element.collect children 0 0).2.2
  | axis.x =>
    fp.htile_element.collect_exact children 0 0 &&
      (size - (Elements.htile_element.collect children 0 0).2.1).is_double &&
      fp.allocate_loop_exact size k (size - (Elements.htile_element.collect children 0 0).2.1)
        (Elements.htile_element.collect children 0 0).1
        (Elements.htile_element.collect children 0 0).2.2

/-- No step of the layout walk from offset `curr` rounds: every offset is a `float`. -/
def fp.walk_exact : Flt → List layout_info → Bool
  | curr, [] => curr.is_float
  | curr, info :: rest =>
    curr.is_float && (curr + info.alloc).is_double && fp.walk_exact (curr + info.alloc) rest

/-- No operation of `layout` rounds, for the tile whose primary axis is `a` in bounds from
`lead` to `trail` along that axis. -/
def fp.tile_layout_exact (a : axis) (children : List element) (lead trail : Flt) : Bool :=
  (trail - lead).is_float && fp.tile_allocation_exact a children (trail - lead) 9 &&
    fp.walk_exact lead (Elements.tile_allocation a children (trail - lead)).info

/-- Every partial sum of `acc + x1 + x2 + ...`, taken from the left, is a `float`. -/
def fp.sums_exact : Flt → List Flt → Bool
  | _, [] => true
  | acc, x :: rest => (acc + x).is_float && fp.sums_exact (acc + x) rest

/-- The sum `acc + x1 + x2 + ...` as `limits` computes it: from the left, every partial sum
rounded to `float`. -/
def fp.float_sum : Flt → List Flt → Flt
  | acc, [] => acc
  | acc, x :: rest => fp.float_sum (acc + x).to_float rest

/-- The `double` offset `curr` of the final `for` of `layout` after the given allocations have
been added to it, one `curr += info.alloc` at a time. -/
def fp.running_offset (curr : Flt) (allocs : List Flt) : Flt :=
  allocs.foldl (fun x y => (x + y).to_double) curr

end Elements

namespace Elements

/-! ## Arithmetic on finite values -/

namespace Flt

@[simp] theorem fin_add_fin (a b : ℚ) : fin a + fin b = fin (a + b) := rfl

@[simp] theorem fin_sub_fin (a b : ℚ) : fin a - fin b = fin (a - b) := by
  show add (fin a) (neg (fin b)) = _
  simp [add, neg, sub_eq_add_neg]

@[simp] theorem fin_mul_fin (a b : ℚ) : fin a * fin b = fin (a * b) := rfl

theorem fin_div_fin (a b : ℚ) :
    fin a / fin b = if b = 0 then signed_inf a else fin (a / b) := rfl

@[simp] theorem fin_div_fin_of_ne (a b : ℚ) (h : b ≠ 0) : fin a / fin b = fin (a / b) := by
  rw [fin_div_fin, if_neg h]

@[simp] theorem lt_fin_fin (a b : ℚ) : lt (fin a) (fin b) = decide (a < b) := rfl

@[simp] theorem gt_fin_fin (a b : ℚ) : gt (fin a) (fin b) = decide (b < a) := rfl

@[simp] theorem ge_fin_fin (a b : ℚ) : ge (fin a) (fin b) = decide (b ≤ a) := rfl

@[simp] theorem zero_eq : (0 : Flt) = fin 0 := rfl

@[simp] theorem one_eq : (1 : Flt) = fin 1 := rfl

end Flt

theorem clamp_min_fin (a b : ℚ) : clamp_min (Flt.fin a) (Flt.fin b) = Flt.fin (max a b) := by
  unfold clamp_min
  by_cases h : a < b
  · simp [h, max_eq_right (le_of_lt h)]
  · simp [h, max_eq_left (not_lt.mp h)]

theorem clamp_max_fin (a b : ℚ) : clamp_max (Flt.fin a) (Flt.fin b) = Flt.fin (min a b) := by
  unfold clamp_max
  by_cases h : b < a
  · simp [h, min_eq_right (le_of_lt h)]
  · simp [h, min_eq_left (not_lt.mp h)]

/-! ## The round counter -/

theorem allocate_loop_rounds (size : Flt) (n : Nat) :
    ∀ (extra max_stretch : Flt) (info : List layout_info) (rounds : Nat),
      (allocate_loop size n extra max_stretch info rounds).rounds ≤ rounds + n := by
  induction n with
  | zero => intro extra max_stretch info rounds; simp [allocate_loop]
  | succ n ih =>
    intro extra max_stretch info rounds
    unfold allocate_loop
    dsimp only
    split
    · simp
    · have h := ih (size - (allocate_pass extra max_stretch info 0 0).2.2)
        (max_stretch - (allocate_pass extra max_stretch info 0 0).2.1)
        (allocate_pass extra max_stretch info 0 0).1 (rounds + 1)
      omega

/-- C3: for every target length, every initial `max_stretch` and `total`, and every list of
records (any size, any min / max / stretch / alloc, special values included), `allocate`
returns after at most 10 rounds of its outer loop (in fact at most 9). -/
theorem C3_allocate_rounds (size max_stretch total : Flt) (info : List layout_info) :
    (allocate size max_stretch total info).rounds ≤ 10 ∧
    (allocate size max_stretch total info).rounds ≤ 9 := by
  have h := allocate_loop_rounds size 9 (size - total) max_stretch info 0
  unfold allocate
  omega

/-! ## Limits: closed form of the loop -/

theorem foldl_max_ge_init (xs : List ℚ) : ∀ a : ℚ, a ≤ xs.foldl max a := by
  induction xs with
  | nil => intro a; simp
  | cons x xs ih => intro a; exact le_trans (le_max_left a x) (ih (max a x))

theorem foldl_max_ge_mem (xs : List ℚ) : ∀ a : ℚ, ∀ x ∈ xs, x ≤ xs.foldl max a := by
  induction xs with
  | nil => intro a x hx; simp at hx
  | cons y ys ih =>
    intro a x hx
    rcases List.mem_cons.mp hx with h | h
    · subst h
      exact le_trans (le_max_right a x) (foldl_max_ge_init ys (max a x))
    · exact ih (max a y) x h

theorem foldl_max_mem (xs : List ℚ) : ∀ a : ℚ, xs.foldl max a = a ∨ xs.foldl max a ∈ xs := by
  induction xs with
  | nil => intro a; simp
  | cons y ys ih =>
    intro a
    rcases ih (max a y) with h | h
    · rcases le_total a y with hay | hay
      · right; simp [List.foldl, max_eq_right hay] at h ⊢; left; exact h
      · left; simp [List.foldl, max_eq_left hay] at h ⊢; exact h
    · right; exact List.mem_cons_of_mem y h

theorem foldl_min_le_init (xs : List ℚ) : ∀ a : ℚ, xs.foldl min a ≤ a := by
  induction xs with
  | nil => intro a; simp
  | cons x xs ih => intro a; exact le_trans (ih (min a x)) (min_le_left a x)

theorem foldl_min_le_mem (xs : List ℚ) : ∀ a : ℚ, ∀ x ∈ xs, xs.foldl min a ≤ x := by
  induction xs with
  | nil => intro a x hx; simp at hx
  | cons y ys ih =>
    intro a x hx
    rcases List.mem_cons.mp hx with h | h
    · subst h
      exact le_trans (foldl_min_le_init ys (min a x)) (min_le_right a x)
    · exact ih (min a y) x h

theorem foldl_min_mem (xs : List ℚ) : ∀ a : ℚ, xs.foldl min a = a ∨ xs.foldl min a ∈ xs := by
  induction xs with
  | nil => intro a; simp
  | cons y ys ih =>
    intro a
    rcases ih (min a y) with h | h
    · rcases le_total a y with hay | hay
      · left; simp [List.foldl, min_eq_left hay] at h ⊢; exact h
      · right; simp [List.foldl, min_eq_right hay] at h ⊢; left; exact h
    · right; exact List.mem_cons_of_mem y h

theorem vtile_limits_fold (cs : List child) : ∀ a b c d : ℚ,
    (cs.map child.elem).foldl vtile_element.limits_step
      { min := { x := Flt.fin a, y := Flt.fin b }, max := { x := Flt.fin c, y := Flt.fin d } }
    = { min := { x := Flt.fin ((cs.map (fun k => k.lo axis.x)).foldl max a),
                 y := Flt.fin (b + (cs.map (fun k => k.lo axis.y)).sum) },
        max := { x := Flt.fin ((cs.map (fun k => k.hi axis.x)).foldl min c),
                 y := Flt.fin (d + (cs.map (fun k => k.hi axis.y)).sum) } } := by
  induction cs with
  | nil => intro a b c d; simp
  | cons k ks ih =>
    intro a b c d
    simp only [List.map_cons, List.foldl_cons, List.sum_cons]
    have hstep : vtile_element.limits_step
        { min := { x := Flt.fin a, y := Flt.fin b }, max := { x := Flt.fin c, y := Flt.fin d } }
        k.elem
        = { min := { x := Flt.fin (max a k.min_x), y := Flt.fin (b + k.min_y) },
            max := { x := Flt.fin (min c k.max_x), y := Flt.fin (d + k.max_y) } } := by
      simp [vtile_element.limits_step, child.elem, clamp_min_fin, clamp_max_fin]
    rw [hstep, ih]
    simp [child.lo, child.hi, add_assoc]

theorem htile_limits_fold (cs : List child) : ∀ a b c d : ℚ,
    (cs.map child.elem).foldl htile_element.limits_step
      { min := { x := Flt.fin a, y := Flt.fin b }, max := { x := Flt.fin c, y := Flt.fin d } }
    = { min := { x := Flt.fin (a + (cs.map (fun k => k.lo axis.x)).sum),
                 y := Flt.fin ((cs.map (fun k => k.lo axis.y)).foldl max b) },
        max := { x := Flt.fin (c + (cs.map (fun k => k.hi axis.x)).sum),
                 y := Flt.fin ((cs.map (fun k => k.hi axis.y)).foldl min d) } } := by
  induction cs with
  | nil => intro a b c d; simp
  | cons k ks ih =>
    intro a b c d
    simp only [List.map_cons, List.foldl_cons, List.sum_cons]
    have hstep : htile_element.limits_step
        { min := { x := Flt.fin a, y := Flt.fin b }, max := { x := Flt.fin c, y := Flt.fin d } }
        k.elem
        = { min := { x := Flt.fin (a + k.min_x), y := Flt.fin (max b k.min_y) },
            max := { x := Flt.fin (c + k.max_x), y := Flt.fin (min d k.max_y) } } := by
      simp [htile_element.limits_step, child.elem, clamp_min_fin, clamp_max_fin]
    rw [hstep, ih]
    simp [child.lo, child.hi, add_assoc]

/-- Closed form of the limits of a tile with primary axis `a` over finite children. -/
theorem tile_limits_closed (a : axis) (F : ℚ) (cs : List child) :
    ((tile_limits a (Flt.fin F) (cs.map child.elem)).min.along a
        = Flt.fin (cs.map (fun k => k.lo a)).sum) ∧
    ((tile_limits a (Flt.fin F) (cs.map child.elem)).max.along a
        = Flt.fin (min (cs.map (fun k => k.hi a)).sum F)) ∧
    ((tile_limits a (Flt.fin F) (cs.map child.elem)).min.along a.cross
        = Flt.fin ((cs.map (fun k => k.lo a.cross)).foldl max 0)) ∧
    ((tile_limits a (Flt.fin F) (cs.map child.elem)).max.along a.cross
        = Flt.fin (max ((cs.map (fun k => k.hi a.cross)).foldl min F)
            ((cs.map (fun k => k.lo a.cross)).foldl max 0))) := by
  cases a
  · simp [tile_limits, htile_element.limits, htile_limits_fold, point.along, axis.cross,
      clamp_min_fin, clamp_max_fin]
  · simp [tile_limits, vtile_element.limits, vtile_limits_fold, point.along, axis.cross,
      clamp_min_fin, clamp_max_fin]

/-! ## Limits: the claims -/

/-- C6: for children with non-negative cross-axis minima the cross-axis minimum returned by
`limits` (`min.x` for a vertical tile, `min.y` for a horizontal one) is the maximum of the
children's cross-axis minima: it bounds each of them and is attained by one of them (it is 0
for a tile without children). -/
theorem C6_cross_min_is_max (a : axis) (F : ℚ) (cs : List child)
    (hnonneg : ∀ c ∈ cs, 0 ≤ c.lo a.cross) :
    ∃ m : ℚ, (tile_limits a (Flt.fin F) (cs.map child.elem)).min.along a.cross = Flt.fin m ∧
      (∀ c ∈ cs, c.lo a.cross ≤ m) ∧
      (cs ≠ [] → ∃ c ∈ cs, c.lo a.cross = m) ∧
      (cs = [] → m = 0) := by
  refine ⟨(cs.map (fun k => k.lo a.cross)).foldl max 0, (tile_limits_closed a F cs).2.2.1,
    ?_, ?_, ?_⟩
  · intro c hc
    exact foldl_max_ge_mem _ 0 _ (List.mem_map.mpr ⟨c, hc, rfl⟩)
  · intro hne
    rcases foldl_max_mem (cs.map (fun k => k.lo a.cross)) 0 with h | h
    · cases cs with
      | nil => exact absurd rfl hne
      | cons k ks =>
        refine ⟨k, List.mem_cons_self k ks, ?_⟩
        have h1 : k.lo a.cross ≤ ((k :: ks).map (fun k => k.lo a.cross)).foldl max 0 :=
          foldl_max_ge_mem _ 0 _ (List.mem_map.mpr ⟨k, List.mem_cons_self k ks, rfl⟩)
        have h2 := hnonneg k (List.mem_cons_self k ks)
        rw [h] at h1 ⊢
        exact le_antisymm h1 h2
    · rcases List.mem_map.mp h with ⟨k, hk, hkm⟩
      exact ⟨k, hk, hkm⟩
  · intro hnil
    subst hnil
    simp

/-- C6 at the three children of a vertical tile with minimum widths 10, 30 and 20: the
container's minimum width is 30. -/
theorem C6_cross_min_is_max_witness :
    (tile_limits axis.y (Flt.fin 1000000)
        ([⟨10, 0, 50, 5, 1, 1⟩, ⟨30, 0, 50, 5, 1, 1⟩, ⟨20, 0, 50, 5, 1, 1⟩].map
          child.elem)).min.x = Flt.fin 30 := by
  obtain ⟨m, hm, hub, hatt, _⟩ := C6_cross_min_is_max axis.y 1000000
    [⟨10, 0, 50, 5, 1, 1⟩, ⟨30, 0, 50, 5, 1, 1⟩, ⟨20, 0, 50, 5, 1, 1⟩]
    (by intro c hc; simp at hc; rcases hc with h | h | h <;> subst h <;>
          norm_num [child.lo, axis.cross])
  have hm2 : (tile_limits axis.y (Flt.fin 1000000)
      ([⟨10, 0, 50, 5, 1, 1⟩, ⟨30, 0, 50, 5, 1, 1⟩, ⟨20, 0, 50, 5, 1, 1⟩].map
        child.elem)).min.x = Flt.fin m := hm
  rw [hm2]
  have h30 : (30 : ℚ) ≤ m := hub ⟨30, 0, 50, 5, 1, 1⟩ (by simp)
  obtain ⟨c, hc, hcm⟩ := hatt (by simp)
  simp at hc
  rcases hc with h | h | h <;> subst h <;> simp [child.lo, axis.cross] at hcm <;>
    subst hcm <;> norm_num at h30 ⊢

/-- C7: for a non-empty list of children whose cross-axis maxima are at most `full_extent`,
the cross-axis maximum returned by `limits` is the least of the children's cross-axis maxima
(`lo`), raised to the computed cross-axis minimum (`m`) when that is larger; hence the
returned cross-axis maximum is at least the returned cross-axis minimum. -/
theorem C7_cross_max_is_min_raised (a : axis) (F : ℚ) (cs : List child)
    (hne : cs ≠ []) (hcap : ∀ c ∈ cs, c.hi a.cross ≤ F) :
    ∃ lo m : ℚ,
      (∀ c ∈ cs, lo ≤ c.hi a.cross) ∧ (∃ c ∈ cs, c.hi a.cross = lo) ∧
      (tile_limits a (Flt.fin F) (cs.map child.elem)).min.along a.cross = Flt.fin m ∧
      (tile_limits a (Flt.fin F) (cs.map child.elem)).max.along a.cross = Flt.fin (max lo m) ∧
      Flt.ge ((tile_limits a (Flt.fin F) (cs.map child.elem)).max.along a.cross)
        ((tile_limits a (Flt.fin F) (cs.map child.elem)).min.along a.cross) = true := by
  refine ⟨(cs.map (fun k => k.hi a.cross)).foldl min F,
    (cs.map (fun k => k.lo a.cross)).foldl max 0, ?_, ?_, (tile_limits_closed a F cs).2.2.1,
    (tile_limits_closed a F cs).2.2.2, ?_⟩
  · intro c hc
    exact foldl_min_le_mem _ F _ (List.mem_map.mpr ⟨c, hc, rfl⟩)
  · rcases foldl_min_mem (cs.map (fun k => k.hi a.cross)) F with h | h
    · cases cs with
      | nil => exact absurd rfl hne
      | cons k ks =>
        refine ⟨k, List.mem_cons_self k ks, ?_⟩
        have h1 : ((k :: ks).map (fun k => k.hi a.cross)).foldl min F ≤ k.hi a.cross :=
          foldl_min_le_mem _ F _ (List.mem_map.mpr ⟨k, List.mem_cons_self k ks, rfl⟩)
        have h2 := hcap k (List.mem_cons_self k ks)
        rw [h] at h1 ⊢
        exact le_antisymm h2 h1
    · rcases List.mem_map.mp h with ⟨k, hk, hkm⟩
      exact ⟨k, hk, hkm⟩
  · rw [(tile_limits_closed a F cs).2.2.1, (tile_limits_closed a F cs).2.2.2]
    simp

/-- C7 at two vertical children of widths 10..50 and 30..40: the maximum width is 40. -/
theorem C7_cross_max_is_min_raised_witness :
    ∃ lo m : ℚ,
      (∀ c ∈ ([⟨10, 0, 50, 5, 1, 1⟩, ⟨30, 0, 40, 5, 1, 1⟩] : List child),
        lo ≤ c.hi axis.y.cross) ∧
      (∃ c ∈ ([⟨10, 0, 50, 5, 1, 1⟩, ⟨30, 0, 40, 5, 1, 1⟩] : List child),
        c.hi axis.y.cross = lo) ∧
      (tile_limits axis.y (Flt.fin 1000000)
        ([⟨10, 0, 50, 5, 1, 1⟩, ⟨30, 0, 40, 5, 1, 1⟩].map child.elem)).min.along axis.y.cross
          = Flt.fin m ∧
      (tile_limits axis.y (Flt.fin 1000000)
        ([⟨10, 0, 50, 5, 1, 1⟩, ⟨30, 0, 40, 5, 1, 1⟩].map child.elem)).max.along axis.y.cross
          = Flt.fin (max lo m) ∧
      Flt.ge ((tile_limits axis.y (Flt.fin 1000000)
        ([⟨10, 0, 50, 5, 1, 1⟩, ⟨30, 0, 40, 5, 1, 1⟩].map child.elem)).max.along axis.y.cross)
        ((tile_limits axis.y (Flt.fin 1000000)
        ([⟨10, 0, 50, 5, 1, 1⟩, ⟨30, 0, 40, 5, 1, 1⟩].map child.elem)).min.along axis.y.cross)
          = true :=
  C7_cross_max_is_min_raised axis.y 1000000 [⟨10, 0, 50, 5, 1, 1⟩, ⟨30, 0, 40, 5, 1, 1⟩]
    (by simp)
    (by intro c hc; simp at hc; rcases hc with h | h <;> subst h <;>
          norm_num [child.hi, axis.cross])

/-- C9, as stated, fails: one child of a vertical tile with fixed width 2000000 gives, for
`full_extent = 1000000`, the cross-axis maximum `max.x = 2000000`, above `full_extent`. -/
theorem C9_counterexample :
    (vtile_element.limits (Flt.fin 1000000)
      { children := [child.elem ⟨2000000, 0, 2000000, 10, 1, 1⟩],
        _left := 0, _right := 0, _tiles := [] }).max.x = Flt.fin 2000000 ∧
    Flt.gt
      (vtile_element.limits (Flt.fin 1000000)
        { children := [child.elem ⟨2000000, 0, 2000000, 10, 1, 1⟩],
          _left := 0, _right := 0, _tiles := [] }).max.x
      (Flt.fin 1000000) = true := by
  constructor
  · simp [vtile_element.limits, vtile_element.limits_step, child.elem, clamp_max_fin,
      clamp_min_fin]
  · simp [vtile_element.limits, vtile_element.limits_step, child.elem, clamp_max_fin,
      clamp_min_fin]
    norm_num

/-- C9, amended: when `full_extent` is non-negative and every child's cross-axis minimum is at
most `full_extent`, the cross-axis maximum returned by `limits` (`max.x` for a vertical tile,
`max.y` for a horizontal tile) does not exceed `full_extent`. -/
theorem C9_cross_max_le_full_extent (a : axis) (F : ℚ) (cs : List child)
    (hF : 0 ≤ F) (hmin : ∀ c ∈ cs, c.lo a.cross ≤ F) :
    Flt.gt ((tile_limits a (Flt.fin F) (cs.map child.elem)).max.along a.cross) (Flt.fin F)
      = false := by
  rw [(tile_limits_closed a F cs).2.2.2]
  have h1 : (cs.map (fun k => k.hi a.cross)).foldl min F ≤ F := foldl_min_le_init _ F
  have h2 : (cs.map (fun k => k.lo a.cross)).foldl max 0 ≤ F := by
    rcases foldl_max_mem (cs.map (fun k => k.lo a.cross)) 0 with h | h
    · rw [h]; exact hF
    · rcases List.mem_map.mp h with ⟨k, hk, hkm⟩
      rw [← hkm]
      exact hmin k hk
  simp [h1, h2]

/-- C9 amended, at one vertical child of width 30..2000000. -/
theorem C9_cross_max_le_full_extent_witness :
    Flt.gt ((tile_limits axis.y (Flt.fin 1000000)
        ([⟨30, 0, 2000000, 5, 1, 1⟩].map child.elem)).max.along axis.y.cross)
      (Flt.fin 1000000) = false :=
  C9_cross_max_le_full_extent axis.y 1000000 [⟨30, 0, 2000000, 5, 1, 1⟩]
    (by norm_num)
    (by intro c hc; simp at hc; subst hc; norm_num [child.lo, axis.cross])

/-! ## Shape of the records and of the bounds cache -/

theorem allocate_pass_length (extra max_stretch : Flt) (info : List layout_info) :
    ∀ remove_stretch total : Flt,
      (allocate_pass extra max_stretch info remove_stretch total).1.length = info.length := by
  induction info with
  | nil => intro r t; simp [allocate_pass]
  | cons i rest ih => intro r t; simp [allocate_pass, ih]

theorem allocate_loop_length (size : Flt) (n : Nat) :
    ∀ (extra max_stretch : Flt) (info : List layout_info) (rounds : Nat),
      (allocate_loop size n extra max_stretch info rounds).info.length = info.length := by
  induction n with
  | zero => intro extra max_stretch info rounds; simp [allocate_loop]
  | succ n ih =>
    intro extra max_stretch info rounds
    unfold allocate_loop
    dsimp only
    split
    · simp [allocate_pass_length]
    · rw [ih, allocate_pass_length]

theorem vtile_collect_length (children : List element) :
    ∀ max_stretch total : Flt,
      (vtile_element.collect children max_stretch total).2.2.length = children.length := by
  induction children with
  | nil => intro m t; simp [vtile_element.collect]
  | cons e rest ih => intro m t; simp [vtile_element.collect, ih]

theorem htile_collect_length (children : List element) :
    ∀ max_stretch total : Flt,
      (htile_element.collect children max_stretch total).2.2.length = children.length := by
  induction children with
  | nil => intro m t; simp [htile_element.collect]
  | cons e rest ih => intro m t; simp [htile_element.collect, ih]

theorem vtile_walk_length (left right : Flt) (info : List layout_info) :
    ∀ curr : Flt, (vtile_element.walk left right curr info).1.length = info.length + 1 := by
  induction info with
  | nil => intro curr; simp [vtile_element.walk]
  | cons i rest ih => intro curr; simp [vtile_element.walk, ih]

theorem htile_walk_length (top bottom : Flt) (info : List layout_info) :
    ∀ curr : Flt, (htile_element.walk top bottom curr info).1.length = info.length + 1 := by
  induction info with
  | nil => intro curr; simp [htile_element.walk]
  | cons i rest ih => intro curr; simp [htile_element.walk, ih]

/-- After `vtile_element::layout` the cache holds one offset more than there are children. -/
theorem vtile_layout_tiles_length (self : vtile_element) (bounds : rect) :
    (self.layout bounds).1._tiles.length = self.children.length + 1 := by
  simp [vtile_element.layout, vtile_walk_length, vtile_element.allocation, allocate,
    allocate_loop_length, vtile_collect_length]

/-- After `htile_element::layout` the cache holds one offset more than there are children. -/
theorem htile_layout_tiles_length (self : htile_element) (bounds : rect) :
    (self.layout bounds).1._tiles.length = self.children.length + 1 := by
  simp [htile_element.layout, htile_walk_length, htile_element.allocation, allocate,
    allocate_loop_length, htile_collect_length]

/-- The query `vtile_element::bounds_of` at the last offset of the cache reads behind it. -/
theorem vtile_bounds_of_last (self : vtile_element) (n : Nat)
    (h : self._tiles.length = n + 1) : self.bounds_of n = none := by
  unfold vtile_element.bounds_of
  have h1 : ¬ n ≥ self._tiles.length := by omega
  have h2 : self._tiles.get? (n + 1) = none := List.get?_eq_none.mpr (by omega)
  rw [if_neg h1, h2]
  cases self._tiles.get? n <;> rfl

/-- The query `htile_element::bounds_of` at the last offset of the cache reads behind it. -/
theorem htile_bounds_of_last (self : htile_element) (n : Nat)
    (h : self._tiles.length = n + 1) : self.bounds_of n = none := by
  unfold htile_element.bounds_of
  have h1 : ¬ n ≥ self._tiles.length := by omega
  have h2 : self._tiles.get? (n + 1) = none := List.get?_eq_none.mpr (by omega)
  rw [if_neg h1, h2]
  cases self._tiles.get? n <;> rfl

/-- C10, where the code departs from it: after `layout` on a tile with `n` children,
`bounds_of(n)` passes the guard `index >= _tiles.size()` (the cache has `n + 1` offsets) and
reads `_tiles[n + 1]`, outside the cache, instead of returning the empty rectangle; so for the
vertical and for the horizontal tile, with any children and any bounds. -/
theorem C10_bounds_of_size_reads_outside
    (v : vtile_element) (h : htile_element) (bounds : rect) :
    (v.layout bounds).1.bounds_of v.children.length = none ∧
    (h.layout bounds).1.bounds_of h.children.length = none := by
  constructor
  · exact vtile_bounds_of_last _ _ (vtile_layout_tiles_length v bounds)
  · exact htile_bounds_of_last _ _ (htile_layout_tiles_length h bounds)

/-! ## The allocation loop on finite records -/

theorem allocate_elem_lift (e m r : ℚ) (i : qinfo) (h : i.alloc < i.max → m ≠ 0) :
    allocate_elem (Flt.fin e) (Flt.fin m) i.lift (Flt.fin r)
      = ((i.step e m).lift, Flt.fin (r - i.removed e m)) := by
  unfold allocate_elem qinfo.step qinfo.removed
  by_cases hg : i.alloc < i.max
  · have hm := h hg
    by_cases hc : i.max ≤ i.alloc + e * i.stretch / m
    · simp [qinfo.lift, hg, hc, hm]
    · simp [qinfo.lift, hg, hc, hm]
  · simp [qinfo.lift, hg]

theorem allocate_pass_lift (e m : ℚ) (is : List qinfo) :
    (∀ i ∈ is, i.alloc < i.max → m ≠ 0) → ∀ r t : ℚ,
    allocate_pass (Flt.fin e) (Flt.fin m) (is.map qinfo.lift) (Flt.fin r) (Flt.fin t)
      = ((is.map (qinfo.step e m)).map qinfo.lift,
         Flt.fin (r - (is.map (qinfo.removed e m)).sum),
         Flt.fin (t + qtotal (is.map (qinfo.step e m)))) := by
  induction is with
  | nil => intro _ r t; simp [allocate_pass, qtotal]
  | cons i rest ih =>
    intro h r t
    have hi := allocate_elem_lift e m r i (h i (List.mem_cons_self i rest))
    have hrest := ih (fun k hk => h k (List.mem_cons_of_mem i hk))
    simp only [List.map_cons, allocate_pass, hi]
    have halloc : (i.step e m).lift.alloc = Flt.fin (i.step e m).alloc := rfl
    rw [halloc, Flt.fin_add_fin, hrest]
    simp [qtotal, sub_sub, add_assoc]

theorem qstep_min (e m : ℚ) (i : qinfo) : (i.step e m).min = i.min := by
  unfold qinfo.step; split_ifs <;> rfl

theorem qstep_max (e m : ℚ) (i : qinfo) : (i.step e m).max = i.max := by
  unfold qinfo.step; split_ifs <;> rfl

theorem qstep_stretch (e m : ℚ) (i : qinfo) : (i.step e m).stretch = i.stretch := by
  unfold qinfo.step; split_ifs <;> rfl

theorem qstep_alloc_le_max (e m : ℚ) (i : qinfo) (h : i.alloc ≤ i.max) :
    (i.step e m).alloc ≤ i.max := by
  unfold qinfo.step
  split_ifs with h1 h2
  · exact le_refl _
  · exact le_of_lt (not_le.mp h2)
  · exact h

theorem qstep_alloc_ge (e m : ℚ) (i : qinfo) (he : 0 ≤ e) (hs : 0 ≤ i.stretch)
    (hm : i.alloc < i.max → 0 < m) : i.alloc ≤ (i.step e m).alloc := by
  unfold qinfo.step
  split_ifs with h1 h2
  · exact le_of_lt h1
  · have : 0 ≤ e * i.stretch / m := div_nonneg (mul_nonneg he hs) (le_of_lt (hm h1))
    show i.alloc ≤ i.alloc + e * i.stretch / m
    linarith
  · exact le_refl _

theorem qstep_alloc_le (e m : ℚ) (i : qinfo) :
    (i.step e m).alloc ≤ i.alloc + e * i.pool / m := by
  unfold qinfo.step qinfo.pool
  split_ifs with h1 h2
  · exact h2
  · exact le_refl _
  · simp

theorem qstep_alloc_eq (e m : ℚ) (i : qinfo)
    (h : i.alloc < i.max → i.alloc + e * i.stretch / m < i.max) :
    (i.step e m).alloc = i.alloc + e * i.pool / m ∧ i.removed e m = 0 := by
  unfold qinfo.step qinfo.pool qinfo.removed
  by_cases h1 : i.alloc < i.max
  · have h2 : ¬ i.max ≤ i.alloc + e * i.stretch / m := not_le.mpr (h h1)
    simp [h1, h2]
  · simp [h1]

theorem qremoved_nonneg (e m : ℚ) (i : qinfo) (hs : 0 ≤ i.stretch) : 0 ≤ i.removed e m := by
  unfold qinfo.removed
  split_ifs
  · exact hs
  · exact le_refl _

theorem qstep_pool (e m : ℚ) (i : qinfo) : (i.step e m).pool = i.pool - i.removed e m := by
  unfold qinfo.step qinfo.pool qinfo.removed
  by_cases h1 : i.alloc < i.max
  · by_cases h2 : i.max ≤ i.alloc + e * i.stretch / m
    · simp [h1, h2]
    · simp [h1, h2, not_le.mp h2]
  · simp [h1]

theorem qstep_grows (e m : ℚ) (i : qinfo) (h : (i.step e m).alloc < (i.step e m).max) :
    i.alloc < i.max := by
  by_contra hn
  have : i.step e m = i := by unfold qinfo.step; simp [hn]
  rw [this] at h
  exact hn h

theorem qtotal_cons (i : qinfo) (is : List qinfo) : qtotal (i :: is) = i.alloc + qtotal is := by
  simp [qtotal]

theorem qpool_cons (i : qinfo) (is : List qinfo) : qpool (i :: is) = i.pool + qpool is := by
  simp [qpool]

theorem qtotal_step_le (e m : ℚ) (is : List qinfo) :
    qtotal (is.map (qinfo.step e m)) ≤ qtotal is + e * qpool is / m := by
  induction is with
  | nil => simp [qtotal, qpool]
  | cons i rest ih =>
    rw [List.map_cons, qtotal_cons, qtotal_cons, qpool_cons]
    have h := qstep_alloc_le e m i
    have hsplit : e * (i.pool + qpool rest) / m = e * i.pool / m + e * qpool rest / m := by
      rw [mul_add, add_div]
    linarith

theorem qtotal_step_eq (e m : ℚ) (is : List qinfo)
    (h : ∀ i ∈ is, i.alloc < i.max → i.alloc + e * i.stretch / m < i.max) :
    qtotal (is.map (qinfo.step e m)) = qtotal is + e * qpool is / m ∧
    (is.map (qinfo.removed e m)).sum = 0 := by
  induction is with
  | nil => simp [qtotal, qpool]
  | cons i rest ih =>
    rw [List.map_cons, qtotal_cons, qtotal_cons, qpool_cons]
    have hi := qstep_alloc_eq e m i (h i (List.mem_cons_self i rest))
    have hr := ih (fun k hk => h k (List.mem_cons_of_mem i hk))
    have hsplit : e * (i.pool + qpool rest) / m = e * i.pool / m + e * qpool rest / m := by
      rw [mul_add, add_div]
    constructor
    · linarith [hi.1, hr.1]
    · simp [hi.2, hr.2]

theorem qpool_step (e m : ℚ) (is : List qinfo) :
    qpool (is.map (qinfo.step e m)) = qpool is - (is.map (qinfo.removed e m)).sum := by
  induction is with
  | nil => simp [qpool]
  | cons i rest ih =>
    rw [List.map_cons, qpool_cons, qpool_cons, List.map_cons, List.sum_cons, ih, qstep_pool]
    ring

theorem qremoved_sum_nonneg (e m : ℚ) (is : List qinfo) (h : ∀ i ∈ is, 0 ≤ i.stretch) :
    0 ≤ (is.map (qinfo.removed e m)).sum := by
  apply List.sum_nonneg
  intro x hx
  rcases List.mem_map.mp hx with ⟨i, hi, rfl⟩
  exact qremoved_nonneg e m i (h i hi)

theorem qpool_nonneg (is : List qinfo) (h : ∀ i ∈ is, 0 ≤ i.stretch) : 0 ≤ qpool is := by
  apply List.sum_nonneg
  intro x hx
  rcases List.mem_map.mp hx with ⟨i, hi, rfl⟩
  unfold qinfo.pool
  split_ifs
  · exact h i hi
  · exact le_refl _

/-- One round of the outer loop keeps the invariant and only lets the records grow. -/
theorem qinv_step (size e m : ℚ) (is : List qinfo) (h : qinv size e m is) :
    qinv size (size - qtotal (is.map (qinfo.step e m)))
      (m - (0 - (is.map (qinfo.removed e m)).sum)) (is.map (qinfo.step e m)) ∧
    List.Forall₂ qgrown is (is.map (qinfo.step e m)) := by
  obtain ⟨hv, he, he0, hp, hm⟩ := h
  have hrem := qremoved_sum_nonneg e m is (fun i hi => (hv i hi).2.2)
  have hpool := qpool_nonneg is (fun i hi => (hv i hi).2.2)
  have hfrac : e * qpool is / m ≤ e := by
    rcases lt_or_eq_of_le (le_trans hpool hp) with hpos | hzero
    · rw [div_le_iff₀ hpos]
      exact mul_le_mul_of_nonneg_left hp he0
    · rw [← hzero]; simpa using he0
  have htot := qtotal_step_le e m is
  refine ⟨⟨?_, rfl, ?_, ?_, ?_⟩, ?_⟩
  · intro j hj
    rcases List.mem_map.mp hj with ⟨i, hi, rfl⟩
    obtain ⟨h1, h2, h3⟩ := hv i hi
    have hmi : i.alloc < i.max → 0 < m := fun hg => hm ⟨i, hi, hg⟩
    rw [qstep_min, qstep_max, qstep_stretch]
    exact ⟨le_trans h1 (qstep_alloc_ge e m i he0 h3 hmi), qstep_alloc_le_max e m i h2, h3⟩
  · linarith
  · rw [qpool_step]; linarith
  · rintro ⟨j, hj, hg⟩
    rcases List.mem_map.mp hj with ⟨i, hi, rfl⟩
    have := hm ⟨i, hi, qstep_grows e m i hg⟩
    linarith
  · rw [List.forall₂_map_right_iff, List.forall₂_same]
    intro i hi
    obtain ⟨h1, h2, h3⟩ := hv i hi
    have hmi : i.alloc < i.max → 0 < m := fun hg => hm ⟨i, hi, hg⟩
    refine ⟨qstep_min e m i, qstep_max e m i, qstep_stretch e m i,
      qstep_alloc_ge e m i he0 h3 hmi, ?_⟩
    rw [qstep_max]
    exact qstep_alloc_le_max e m i h2

theorem qgrown_trans {i j k : qinfo} (h1 : qgrown i j) (h2 : qgrown j k) : qgrown i k := by
  obtain ⟨a1, a2, a3, a4, _⟩ := h1
  obtain ⟨b1, b2, b3, b4, b5⟩ := h2
  exact ⟨b1.trans a1, b2.trans a2, b3.trans a3, le_trans a4 b4, b5⟩

theorem qgrown_list_trans {xs ys zs : List qinfo} (h1 : List.Forall₂ qgrown xs ys) :
    List.Forall₂ qgrown ys zs → List.Forall₂ qgrown xs zs := by
  induction h1 generalizing zs with
  | nil => intro h2; cases h2; exact List.Forall₂.nil
  | cons hab _ ih =>
    intro h2
    cases h2 with
    | cons hbc hrest => exact List.Forall₂.cons (qgrown_trans hab hbc) (ih hrest)

theorem qgrown_list_refl (is : List qinfo) (h : ∀ i ∈ is, i.alloc ≤ i.max) :
    List.Forall₂ qgrown is is := by
  rw [List.forall₂_same]
  intro i hi
  exact ⟨rfl, rfl, rfl, le_refl _, h i hi⟩

/-- The loop on finite records keeps the invariant and only lets the records grow. -/
theorem qloop_inv (size : ℚ) (n : Nat) : ∀ (e m : ℚ) (is : List qinfo) (rounds : Nat),
    qinv size e m is →
    qinv size (qloop size n e m is rounds).extra (qloop size n e m is rounds).max_stretch
        (qloop size n e m is rounds).info ∧
      List.Forall₂ qgrown is (qloop size n e m is rounds).info := by
  induction n with
  | zero =>
    intro e m is rounds h
    exact ⟨h, qgrown_list_refl is (fun i hi => (h.1 i hi).2.1)⟩
  | succ n ih =>
    intro e m is rounds h
    obtain ⟨hinv, hgrown⟩ := qinv_step size e m is h
    unfold qloop
    dsimp only
    split_ifs with hexit
    · exact ⟨hinv, hgrown⟩
    · obtain ⟨h1, h2⟩ := ih _ _ _ (rounds + 1) hinv
      exact ⟨h1, qgrown_list_trans hgrown h2⟩

/-- Under the invariant `allocate` runs without dividing by zero and agrees with the loop on
finite records. -/
theorem allocate_loop_lift (size : ℚ) (n : Nat) :
    ∀ (e m : ℚ) (is : List qinfo) (rounds : Nat), qinv size e m is →
    allocate_loop (Flt.fin size) n (Flt.fin e) (Flt.fin m) (is.map qinfo.lift) rounds
      = (qloop size n e m is rounds).lift := by
  induction n with
  | zero => intro e m is rounds _; rfl
  | succ n ih =>
    intro e m is rounds h
    have hdiv : ∀ i ∈ is, i.alloc < i.max → m ≠ 0 :=
      fun i hi hg => ne_of_gt (h.2.2.2.2 ⟨i, hi, hg⟩)
    have hpass := allocate_pass_lift e m is hdiv 0 0
    have hinv := (qinv_step size e m is h).1
    unfold allocate_loop qloop
    simp only [Flt.zero_eq, Flt.one_eq, Flt.half, hpass, Flt.fin_sub_fin, Flt.lt_fin_fin,
      zero_add]
    by_cases hexit : m - (0 - (is.map (qinfo.removed e m)).sum) < 1 ∨
        size - qtotal (is.map (qinfo.step e m)) < 1 / 2
    · rw [if_pos hexit]
      have hb : (decide (m - (0 - (is.map (qinfo.removed e m)).sum) < 1) ||
          decide (size - qtotal (is.map (qinfo.step e m)) < 1 / 2)) = true := by
        simpa using hexit
      rw [if_pos hb]
      rfl
    · rw [if_neg hexit]
      have hb : ¬ (decide (m - (0 - (is.map (qinfo.removed e m)).sum) < 1) ||
          decide (size - qtotal (is.map (qinfo.step e m)) < 1 / 2)) = true := by
        simpa using hexit
      rw [if_neg hb]
      exact ih _ _ _ (rounds + 1) hinv

theorem vtile_collect_lift (cs : List child) : ∀ m t : ℚ,
    vtile_element.collect (cs.map child.elem) (Flt.fin m) (Flt.fin t)
      = (Flt.fin (m + qpool (cs.map (child.info axis.y))),
         Flt.fin (t + qtotal (cs.map (child.info axis.y))),
         (cs.map (child.info axis.y)).map qinfo.lift) := by
  induction cs with
  | nil => intro m t; simp [vtile_element.collect, qpool, qtotal]
  | cons c rest ih =>
    intro m t
    simp only [List.map_cons, vtile_element.collect, qpool_cons, qtotal_cons]
    by_cases hg : c.min_y < c.max_y
    · simp [vtile_element.info_of, child.elem, hg, ih, child.info, child.lo, child.hi,
        child.str, qinfo.pool, qinfo.lift, add_assoc]
    · simp [vtile_element.info_of, child.elem, hg, ih, child.info, child.lo, child.hi,
        child.str, qinfo.pool, qinfo.lift, add_assoc]

theorem htile_collect_lift (cs : List child) : ∀ m t : ℚ,
    htile_element.collect (cs.map child.elem) (Flt.fin m) (Flt.fin t)
      = (Flt.fin (m + qpool (cs.map (child.info axis.x))),
         Flt.fin (t + qtotal (cs.map (child.info axis.x))),
         (cs.map (child.info axis.x)).map qinfo.lift) := by
  induction cs with
  | nil => intro m t; simp [htile_element.collect, qpool, qtotal]
  | cons c rest ih =>
    intro m t
    simp only [List.map_cons, htile_element.collect, qpool_cons, qtotal_cons]
    by_cases hg : c.min_x < c.max_x
    · simp [htile_element.info_of, child.elem, hg, ih, child.info, child.lo, child.hi,
        child.str, qinfo.pool, qinfo.lift, add_assoc]
    · simp [htile_element.info_of, child.elem, hg, ih, child.info, child.lo, child.hi,
        child.str, qinfo.pool, qinfo.lift, add_assoc]

theorem qpool_init (a : axis) (cs : List child) :
    qpool (cs.map (child.info a)) = growable_stretch a cs := by
  induction cs with
  | nil => simp [qpool, growable_stretch]
  | cons c rest ih =>
    rw [List.map_cons, qpool_cons, ih]
    unfold growable_stretch
    by_cases hg : c.lo a < c.hi a
    · simp [List.filter_cons, hg, qinfo.pool, child.info]
    · simp [List.filter_cons, hg, qinfo.pool, child.info]

theorem qtotal_init (a : axis) (cs : List child) :
    qtotal (cs.map (child.info a)) = (cs.map (fun c => c.lo a)).sum := by
  induction cs with
  | nil => simp [qtotal]
  | cons c rest ih => rw [List.map_cons, qtotal_cons, ih]; simp [child.info]

/-- What `layout` hands to `allocate` for finite children, and with which records. -/
theorem tile_allocation_start (a : axis) (cs : List child) (L : ℚ) :
    tile_allocation a (cs.map child.elem) (Flt.fin L)
      = allocate_loop (Flt.fin L) 9 (Flt.fin (L - (cs.map (fun c => c.lo a)).sum))
          (Flt.fin (growable_stretch a cs)) ((cs.map (child.info a)).map qinfo.lift) 0 := by
  cases a
  · simp [tile_allocation, htile_element.allocation, htile_collect_lift, allocate,
      qpool_init, qtotal_init]
  · simp [tile_allocation, vtile_element.allocation, vtile_collect_lift, allocate,
      qpool_init, qtotal_init]

/-- The invariant holds when `allocate` is entered from `layout`. -/
theorem qinv_init (a : axis) (cs : List child) (L : ℚ)
    (hvalid : ∀ c ∈ cs, c.lo a ≤ c.hi a ∧ 0 ≤ c.str a)
    (hL : (cs.map (fun c => c.lo a)).sum ≤ L)
    (hpool : (∃ c ∈ cs, c.lo a < c.hi a) → 0 < growable_stretch a cs) :
    qinv L (L - (cs.map (fun c => c.lo a)).sum) (growable_stretch a cs)
      (cs.map (child.info a)) := by
  refine ⟨?_, ?_, ?_, ?_, ?_⟩
  · intro i hi
    rcases List.mem_map.mp hi with ⟨c, hc, rfl⟩
    exact ⟨le_refl _, (hvalid c hc).1, (hvalid c hc).2⟩
  · rw [qtotal_init]
  · linarith
  · rw [qpool_init]
  · rintro ⟨i, hi, hg⟩
    rcases List.mem_map.mp hi with ⟨c, hc, rfl⟩
    exact hpool ⟨c, hc, hg⟩

/-- For valid children and a target length of at least the sum of the minima, the
allocation step of `layout` is the loop on finite records. -/
theorem tile_allocation_lift (a : axis) (cs : List child) (L : ℚ)
    (hvalid : ∀ c ∈ cs, c.lo a ≤ c.hi a ∧ 0 ≤ c.str a)
    (hL : (cs.map (fun c => c.lo a)).sum ≤ L)
    (hpool : (∃ c ∈ cs, c.lo a < c.hi a) → 0 < growable_stretch a cs) :
    tile_allocation a (cs.map child.elem) (Flt.fin L)
      = (qloop L 9 (L - (cs.map (fun c => c.lo a)).sum) (growable_stretch a cs)
          (cs.map (child.info a)) 0).lift := by
  rw [tile_allocation_start]
  exact allocate_loop_lift L 9 _ _ _ 0 (qinv_init a cs L hvalid hL hpool)

/-! ## The sum of the allocations in exact arithmetic -/

/-- In exact arithmetic, for valid children (`0 <= min_i <= max_i`, `stretch_i >= 0`) and a
target length `L` with `sum min_i <= L <= sum max_i`, when the stretch factors of the children
that can grow have a positive sum `S` (if any child can grow), the allocations computed by
`layout` are finite numbers with `sum alloc_i <= L`; and `sum alloc_i = L` whenever no child
that can grow reaches its maximum in the first round, i.e. `min_i + (L - sum min) * stretch_i
/ S < max_i` for each of them. -/
theorem allocation_sum_exact (a : axis) (cs : List child) (L : ℚ)
    (hvalid : ∀ c ∈ cs, 0 ≤ c.lo a ∧ c.lo a ≤ c.hi a ∧ 0 ≤ c.str a)
    (hlo : (cs.map (fun c => c.lo a)).sum ≤ L)
    (hhi : L ≤ (cs.map (fun c => c.hi a)).sum)
    (hpool : (∃ c ∈ cs, c.lo a < c.hi a) → 0 < growable_stretch a cs) :
    ∃ allocs : List ℚ,
      (tile_allocation a (cs.map child.elem) (Flt.fin L)).info.map (fun i => i.alloc)
        = allocs.map Flt.fin ∧
      allocs.sum ≤ L ∧
      ((∀ c ∈ cs, c.lo a < c.hi a →
          c.lo a + (L - (cs.map (fun k => k.lo a)).sum) * c.str a / growable_stretch a cs
            < c.hi a) →
        allocs.sum = L) := by
  have hv : ∀ c ∈ cs, c.lo a ≤ c.hi a ∧ 0 ≤ c.str a := fun c hc => (hvalid c hc).2
  have hinit := qinv_init a cs L hv hlo hpool
  rw [tile_allocation_lift a cs L hv hlo hpool]
  obtain ⟨hinv, _⟩ := qloop_inv L 9 _ _ _ 0 hinit
  refine ⟨(qloop L 9 (L - (cs.map (fun c => c.lo a)).sum) (growable_stretch a cs)
      (cs.map (child.info a)) 0).info.map (fun i => i.alloc), ?_, ?_, ?_⟩
  · simp [qallocation.lift, qinfo.lift, Function.comp_def]
  · have h1 := hinv.2.1
    have h2 := hinv.2.2.1
    unfold qtotal at h1
    linarith
  · intro hfree
    have hfree2 : ∀ i ∈ cs.map (child.info a), i.alloc < i.max →
        i.alloc + (L - (cs.map (fun c => c.lo a)).sum) * i.stretch / growable_stretch a cs
          < i.max := by
      intro i hi hg
      rcases List.mem_map.mp hi with ⟨c, hc, rfl⟩
      exact hfree c hc hg
    obtain ⟨htot, hrem⟩ := qtotal_step_eq _ _ _ hfree2
    have hfull : qtotal ((cs.map (child.info a)).map
        (qinfo.step (L - (cs.map (fun c => c.lo a)).sum) (growable_stretch a cs))) = L := by
      rw [htot, qpool_init, qtotal_init]
      by_cases hex : ∃ c ∈ cs, c.lo a < c.hi a
      · have hS := ne_of_gt (hpool hex)
        rw [mul_div_assoc, div_self hS]
        ring
      · have hall : ∀ c ∈ cs, c.hi a ≤ c.lo a := by
          intro c hc
          by_contra hn
          exact hex ⟨c, hc, not_le.mp hn⟩
        have hsum : (cs.map (fun c => c.hi a)).sum ≤ (cs.map (fun c => c.lo a)).sum :=
          List.sum_le_sum hall
        have hzero : growable_stretch a cs = 0 := by
          unfold growable_stretch
          have : cs.filter (fun c => decide (c.lo a < c.hi a)) = [] := by
            rw [List.filter_eq_nil_iff]
            intro c hc
            simpa using hall c hc
          rw [this]; rfl
        rw [hzero]
        simp
        linarith
    have hq : (qloop L 9 (L - (cs.map (fun c => c.lo a)).sum) (growable_stretch a cs)
        (cs.map (child.info a)) 0).info
        = (cs.map (child.info a)).map
            (qinfo.step (L - (cs.map (fun c => c.lo a)).sum) (growable_stretch a cs)) := by
      unfold qloop
      dsimp only
      rw [if_pos (Or.inr (by rw [hfull]; norm_num))]
    rw [hq]
    exact hfull

/-! ## The layout walk -/

/-- Offsets and child bounds written by the walk of `vtile_element::layout` at position `i`. -/
theorem vtile_walk_get (left right : Flt) (info : List layout_info) :
    ∀ (curr : Flt) (i : Nat), i < info.length →
      ∃ (a : Flt) (k : layout_info),
        (vtile_element.walk left right curr info).1.get? i = some a ∧
        info.get? i = some k ∧
        (vtile_element.walk left right curr info).1.get? (i + 1) = some (a + k.alloc) ∧
        (vtile_element.walk left right curr info).2.get? i
          = some { left := left, top := a, right := right, bottom := a + k.alloc } := by
  induction info with
  | nil => intro curr i hi; simp at hi
  | cons k rest ih =>
    intro curr i hi
    cases i with
    | zero =>
      refine ⟨curr, k, ?_, ?_, ?_, ?_⟩
      · simp [vtile_element.walk]
      · simp
      · cases rest <;> simp [vtile_element.walk]
      · simp [vtile_element.walk]
    | succ j =>
      have hj : j < rest.length := by simpa using hi
      obtain ⟨a, k2, h1, h2, h3, h4⟩ := ih (curr + k.alloc) j hj
      refine ⟨a, k2, ?_, ?_, ?_, ?_⟩
      · simpa [vtile_element.walk] using h1
      · simpa using h2
      · simpa [vtile_element.walk] using h3
      · simpa [vtile_element.walk] using h4

/-- Offsets and child bounds written by the walk of `htile_element::layout` at position `i`. -/
theorem htile_walk_get (top bottom : Flt) (info : List layout_info) :
    ∀ (curr : Flt) (i : Nat), i < info.length →
      ∃ (a : Flt) (k : layout_info),
        (htile_element.walk top bottom curr info).1.get? i = some a ∧
        info.get? i = some k ∧
        (htile_element.walk top bottom curr info).1.get? (i + 1) = some (a + k.alloc) ∧
        (htile_element.walk top bottom curr info).2.get? i
          = some { left := a, top := top, right := a + k.alloc, bottom := bottom } := by
  induction info with
  | nil => intro curr i hi; simp at hi
  | cons k rest ih =>
    intro curr i hi
    cases i with
    | zero =>
      refine ⟨curr, k, ?_, ?_, ?_, ?_⟩
      · simp [htile_element.walk]
      · simp
      · cases rest <;> simp [htile_element.walk]
      · simp [htile_element.walk]
    | succ j =>
      have hj : j < rest.length := by simpa using hi
      obtain ⟨a, k2, h1, h2, h3, h4⟩ := ih (curr + k.alloc) j hj
      refine ⟨a, k2, ?_, ?_, ?_, ?_⟩
      · simpa [htile_element.walk] using h1
      · simpa using h2
      · simpa [htile_element.walk] using h3
      · simpa [htile_element.walk] using h4

theorem vtile_allocation_length (children : List element) (height : Flt) :
    (vtile_element.allocation children height).info.length = children.length := by
  simp [vtile_element.allocation, allocate, allocate_loop_length, vtile_collect_length]

theorem htile_allocation_length (children : List element) (width : Flt) :
    (htile_element.allocation children width).info.length = children.length := by
  simp [htile_element.allocation, allocate, allocate_loop_length, htile_collect_length]

theorem vtile_walk_head (left right : Flt) (info : List layout_info) (curr : Flt) :
    (vtile_element.walk left right curr info).1.get? 0 = some curr := by
  cases info <;> simp [vtile_element.walk]

theorem htile_walk_head (top bottom : Flt) (info : List layout_info) (curr : Flt) :
    (htile_element.walk top bottom curr info).1.get? 0 = some curr := by
  cases info <;> simp [htile_element.walk]

theorem vtile_walk_last (left right : Flt) (info : List layout_info) :
    ∀ curr : Flt, (vtile_element.walk left right curr info).1.get? info.length
      = some ((info.map (fun k => k.alloc)).foldl (fun x y => x + y) curr) := by
  induction info with
  | nil => intro curr; simp [vtile_element.walk]
  | cons k rest ih => intro curr; simpa [vtile_element.walk] using ih (curr + k.alloc)

theorem htile_walk_last (top bottom : Flt) (info : List layout_info) :
    ∀ curr : Flt, (htile_element.walk top bottom curr info).1.get? info.length
      = some ((info.map (fun k => k.alloc)).foldl (fun x y => x + y) curr) := by
  induction info with
  | nil => intro curr; simp [htile_element.walk]
  | cons k rest ih => intro curr; simpa [htile_element.walk] using ih (curr + k.alloc)

/-- What `vtile_element::layout` leaves at position `index` of a tile with more than `index`
children: the two offsets, the answer of `bounds_of` and the bounds handed to the child. -/
theorem vtile_layout_at (v : vtile_element) (bounds : rect) (index : Nat)
    (hv : index < v.children.length) :
    ∃ (a : Flt) (k : layout_info),
      (vtile_element.allocation v.children bounds.height).info.get? index = some k ∧
      (v.layout bounds).1._tiles.get? index = some a ∧
      (v.layout bounds).1._tiles.get? (index + 1) = some (a + k.alloc) ∧
      (v.layout bounds).1.bounds_of index
        = some { left := bounds.left, top := a, right := bounds.right, bottom := a + k.alloc } ∧
      (v.layout bounds).2.get? index
        = some { left := bounds.left, top := a, right := bounds.right,
                 bottom := a + k.alloc } := by
  have hlen : index < (vtile_element.allocation v.children bounds.height).info.length := by
    rw [vtile_allocation_length]; exact hv
  obtain ⟨a, k, h1, h2, h3, h4⟩ := vtile_walk_get bounds.left bounds.right
    (vtile_element.allocation v.children bounds.height).info bounds.top index hlen
  have ht : (v.layout bounds).1._tiles = (vtile_element.walk bounds.left bounds.right bounds.top
      (vtile_element.allocation v.children bounds.height).info).1 := rfl
  refine ⟨a, k, h2, ?_, ?_, ?_, h4⟩
  · rw [ht]; exact h1
  · rw [ht]; exact h3
  · have hguard : ¬ index ≥ (v.layout bounds).1._tiles.length := by
      rw [vtile_layout_tiles_length]; omega
    unfold vtile_element.bounds_of
    rw [if_neg hguard, ht, h1, h3]
    rfl

/-- What `htile_element::layout` leaves at position `index` of a tile with more than `index`
children: the two offsets, the answer of `bounds_of` and the bounds handed to the child. -/
theorem htile_layout_at (h : htile_element) (bounds : rect) (index : Nat)
    (hh : index < h.children.length) :
    ∃ (a : Flt) (k : layout_info),
      (htile_element.allocation h.children bounds.width).info.get? index = some k ∧
      (h.layout bounds).1._tiles.get? index = some a ∧
      (h.layout bounds).1._tiles.get? (index + 1) = some (a + k.alloc) ∧
      (h.layout bounds).1.bounds_of index
        = some { left := a, top := bounds.top, right := a + k.alloc, bottom := bounds.bottom } ∧
      (h.layout bounds).2.get? index
        = some { left := a, top := bounds.top, right := a + k.alloc,
                 bottom := bounds.bottom } := by
  have hlen : index < (htile_element.allocation h.children bounds.width).info.length := by
    rw [htile_allocation_length]; exact hh
  obtain ⟨a, k, h1, h2, h3, h4⟩ := htile_walk_get bounds.top bounds.bottom
    (htile_element.allocation h.children bounds.width).info bounds.left index hlen
  have ht : (h.layout bounds).1._tiles = (htile_element.walk bounds.top bounds.bottom bounds.left
      (htile_element.allocation h.children bounds.width).info).1 := rfl
  refine ⟨a, k, h2, ?_, ?_, ?_, h4⟩
  · rw [ht]; exact h1
  · rw [ht]; exact h3
  · have hguard : ¬ index ≥ (h.layout bounds).1._tiles.length := by
      rw [htile_layout_tiles_length]; omega
    unfold htile_element.bounds_of
    rw [if_neg hguard, ht, h1, h3]
    rfl

/-! ## Layout and queries: the claims -/

/-- C11: after `layout` on a tile with `n` children, for every `index < n` the query
`bounds_of(index)` returns the rectangle whose primary-axis edges are `_tiles[index]` and
`_tiles[index+1]` and whose cross-axis edges are those of the bounds of the context (left and
right for a vertical tile, top and bottom for a horizontal tile); it is the rectangle that
`layout` handed to child `index`. -/
theorem C11_bounds_of_in_range (v : vtile_element) (h : htile_element) (bounds : rect)
    (index : Nat) (hv : index < v.children.length) (hh : index < h.children.length) :
    (∃ a b : Flt,
      (v.layout bounds).1._tiles.get? index = some a ∧
      (v.layout bounds).1._tiles.get? (index + 1) = some b ∧
      (v.layout bounds).1.bounds_of index
        = some { left := bounds.left, top := a, right := bounds.right, bottom := b } ∧
      (v.layout bounds).2.get? index = (v.layout bounds).1.bounds_of index) ∧
    (∃ a b : Flt,
      (h.layout bounds).1._tiles.get? index = some a ∧
      (h.layout bounds).1._tiles.get? (index + 1) = some b ∧
      (h.layout bounds).1.bounds_of index
        = some { left := a, top := bounds.top, right := b, bottom := bounds.bottom } ∧
      (h.layout bounds).2.get? index = (h.layout bounds).1.bounds_of index) := by
  constructor
  · obtain ⟨a, k, _, h1, h2, h3, h4⟩ := vtile_layout_at v bounds index hv
    exact ⟨a, a + k.alloc, h1, h2, h3, h4.trans h3.symm⟩
  · obtain ⟨a, k, _, h1, h2, h3, h4⟩ := htile_layout_at h bounds index hh
    exact ⟨a, a + k.alloc, h1, h2, h3, h4.trans h3.symm⟩

/-- C11 at index 1 of a vertical and of a horizontal tile with two children. -/
theorem C11_bounds_of_in_range_witness :
    ∃ a b : Flt,
      ((vtile_element.layout
          { children := [child.elem ⟨0, 20, 0, 100, 1, 1⟩, child.elem ⟨0, 20, 0, 50, 1, 1⟩],
            _left := 0, _right := 0, _tiles := [] }
          { left := 0, top := 0, right := Flt.fin 100, bottom := Flt.fin 90 }).1.bounds_of 1
        = some { left := 0, top := a, right := Flt.fin 100, bottom := b }) :=
  match (C11_bounds_of_in_range
      { children := [child.elem ⟨0, 20, 0, 100, 1, 1⟩, child.elem ⟨0, 20, 0, 50, 1, 1⟩],
        _left := 0, _right := 0, _tiles := [] }
      { children := [child.elem ⟨20, 0, 100, 0, 1, 1⟩, child.elem ⟨20, 0, 50, 0, 1, 1⟩],
        _top := 0, _bottom := 0, _tiles := [] }
      { left := 0, top := 0, right := Flt.fin 100, bottom := Flt.fin 90 } 1
      (by decide) (by decide)).1 with
  | ⟨a, b, _, _, h3, _⟩ => ⟨a, b, h3⟩

/-- C13: after `layout` of a vertical tile, for every adjacent pair of children `i`, `i + 1`
the bottom edge of the bounds handed to child `i` is the top edge of the bounds handed to child
`i + 1`; for a horizontal tile the right edge of child `i` is the left edge of child `i + 1`. -/
theorem C13_contiguity (v : vtile_element) (h : htile_element) (bounds : rect) (i : Nat)
    (hv : i + 1 < v.children.length) (hh : i + 1 < h.children.length) :
    (∃ r1 r2 : rect, (v.layout bounds).2.get? i = some r1 ∧
      (v.layout bounds).2.get? (i + 1) = some r2 ∧ r1.bottom = r2.top) ∧
    (∃ r1 r2 : rect, (h.layout bounds).2.get? i = some r1 ∧
      (h.layout bounds).2.get? (i + 1) = some r2 ∧ r1.right = r2.left) := by
  constructor
  · obtain ⟨a, k, _, _, h2, _, h4⟩ := vtile_layout_at v bounds i (by omega)
    obtain ⟨b, j, _, g1, _, _, g4⟩ := vtile_layout_at v bounds (i + 1) hv
    refine ⟨_, _, h4, g4, ?_⟩
    rw [h2] at g1
    exact Option.some.inj g1
  · obtain ⟨a, k, _, _, h2, _, h4⟩ := htile_layout_at h bounds i (by omega)
    obtain ⟨b, j, _, g1, _, _, g4⟩ := htile_layout_at h bounds (i + 1) hh
    refine ⟨_, _, h4, g4, ?_⟩
    rw [h2] at g1
    exact Option.some.inj g1

/-- C13 at the first two of three children of a vertical and of a horizontal tile. -/
theorem C13_contiguity_witness :
    ∃ r1 r2 : rect,
      (vtile_element.layout
          { children := [child.elem ⟨0, 20, 0, 100, 1, 1⟩, child.elem ⟨0, 20, 0, 50, 1, 1⟩,
                         child.elem ⟨0, 5, 0, 5, 1, 1⟩],
            _left := 0, _right := 0, _tiles := [] }
          { left := 0, top := 0, right := Flt.fin 100, bottom := Flt.fin 90 }).2.get? 0
        = some r1 ∧
      (vtile_element.layout
          { children := [child.elem ⟨0, 20, 0, 100, 1, 1⟩, child.elem ⟨0, 20, 0, 50, 1, 1⟩,
                         child.elem ⟨0, 5, 0, 5, 1, 1⟩],
            _left := 0, _right := 0, _tiles := [] }
          { left := 0, top := 0, right := Flt.fin 100, bottom := Flt.fin 90 }).2.get? (0 + 1)
        = some r2 ∧
      r1.bottom = r2.top :=
  (C13_contiguity
    { children := [child.elem ⟨0, 20, 0, 100, 1, 1⟩, child.elem ⟨0, 20, 0, 50, 1, 1⟩,
                   child.elem ⟨0, 5, 0, 5, 1, 1⟩],
      _left := 0, _right := 0, _tiles := [] }
    { children := [child.elem ⟨20, 0, 100, 0, 1, 1⟩, child.elem ⟨20, 0, 50, 0, 1, 1⟩,
                   child.elem ⟨5, 0, 5, 0, 1, 1⟩],
      _top := 0, _bottom := 0, _tiles := [] }
    { left := 0, top := 0, right := Flt.fin 100, bottom := Flt.fin 90 } 0
    (by decide) (by decide)).1

theorem vtile_walk_calls_fst (left right : Flt) (info : List layout_info) :
    ∀ (i : Nat) (curr : Flt),
      (vtile_element.walk_calls left right i curr info).map Prod.fst
        = List.range' i info.length := by
  induction info with
  | nil => intro i curr; simp [vtile_element.walk_calls]
  | cons k rest ih =>
    intro i curr
    simp [vtile_element.walk_calls, ih, List.range'_succ]

theorem vtile_walk_calls_snd (left right : Flt) (info : List layout_info) :
    ∀ (i : Nat) (curr : Flt),
      (vtile_element.walk_calls left right i curr info).map Prod.snd
        = (vtile_element.walk left right curr info).2 := by
  induction info with
  | nil => intro i curr; simp [vtile_element.walk_calls, vtile_element.walk]
  | cons k rest ih =>
    intro i curr
    simp [vtile_element.walk_calls, vtile_element.walk, ih]

theorem htile_walk_calls_fst (top bottom : Flt) (info : List layout_info) :
    ∀ (i : Nat) (curr : Flt),
      (htile_element.walk_calls top bottom i curr info).map Prod.fst
        = List.range' i info.length := by
  induction info with
  | nil => intro i curr; simp [htile_element.walk_calls]
  | cons k rest ih =>
    intro i curr
    simp [htile_element.walk_calls, ih, List.range'_succ]

theorem htile_walk_calls_snd (top bottom : Flt) (info : List layout_info) :
    ∀ (i : Nat) (curr : Flt),
      (htile_element.walk_calls top bottom i curr info).map Prod.snd
        = (htile_element.walk top bottom curr info).2 := by
  induction info with
  | nil => intro i curr; simp [htile_element.walk_calls, htile_element.walk]
  | cons k rest ih =>
    intro i curr
    simp [htile_element.walk_calls, htile_element.walk, ih]

/-- A list of calls with indices `0, 1, ..` and given bounds has, at each position `i`, the
call on child `i` with the bounds at position `i`. -/
theorem calls_get (calls : List (Nat × rect)) (rects : List rect) (n : Nat)
    (hfst : calls.map Prod.fst = List.range n) (hsnd : calls.map Prod.snd = rects)
    (i : Nat) (r : rect) (hr : rects.get? i = some r) : calls.get? i = some (i, r) := by
  have hlen : calls.length = n := by
    have := congrArg List.length hfst
    simpa using this
  have hi : i < calls.length := by
    have h1 : i < rects.length := by
      by_contra hn
      rw [List.get?_eq_none.mpr (by omega)] at hr
      cases hr
    rw [← hsnd] at h1
    simpa using h1
  have h1 : (calls.map Prod.fst)[i]? = some i := by
    rw [hfst, List.getElem?_range (by omega)]
  have h2 : (calls.map Prod.snd)[i]? = some r := by
    rw [hsnd, ← List.get?_eq_getElem?]; exact hr
  rw [List.getElem?_map] at h1 h2
  rw [List.get?_eq_getElem?]
  cases hc : calls[i]? with
  | none => rw [hc] at h1; cases h1
  | some c =>
    rw [hc] at h1 h2
    simp only [Option.map_some'] at h1 h2
    obtain ⟨c1, c2⟩ := c
    simp only [Option.some.injEq] at h1 h2
    subst h1
    subst h2
    rfl

/-- C15: `layout` calls the `layout` of each child `at(i)`, `i = 0 .. size() - 1`, exactly once
and in increasing index order (the indices of the calls are `0, 1, .., n - 1`), handing the
`i`-th call the slice of the primary axis between `_tiles[i]` and `_tiles[i+1]` together with
the full cross-axis span of the bounds of the context (left..right for a vertical tile,
top..bottom for a horizontal tile). -/
theorem C15_layout_calls_in_order (v : vtile_element) (h : htile_element) (bounds : rect) :
    ((v.layout_calls bounds).map Prod.fst = List.range v.children.length ∧
      (v.layout_calls bounds).map Prod.snd = (v.layout bounds).2 ∧
      (∀ i : Nat, i < v.children.length → ∃ a b : Flt,
        (v.layout bounds).1._tiles.get? i = some a ∧
        (v.layout bounds).1._tiles.get? (i + 1) = some b ∧
        (v.layout_calls bounds).get? i
          = some (i, { left := bounds.left, top := a, right := bounds.right, bottom := b }))) ∧
    ((h.layout_calls bounds).map Prod.fst = List.range h.children.length ∧
      (h.layout_calls bounds).map Prod.snd = (h.layout bounds).2 ∧
      (∀ i : Nat, i < h.children.length → ∃ a b : Flt,
        (h.layout bounds).1._tiles.get? i = some a ∧
        (h.layout bounds).1._tiles.get? (i + 1) = some b ∧
        (h.layout_calls bounds).get? i
          = some (i, { left := a, top := bounds.top, right := b, bottom := bounds.bottom }))) := by
  have hvf : (v.layout_calls bounds).map Prod.fst = List.range v.children.length := by
    unfold vtile_element.layout_calls
    rw [vtile_walk_calls_fst, vtile_allocation_length, List.range_eq_range']
  have hvs : (v.layout_calls bounds).map Prod.snd = (v.layout bounds).2 :=
    vtile_walk_calls_snd _ _ _ _ _
  have hhf : (h.layout_calls bounds).map Prod.fst = List.range h.children.length := by
    unfold htile_element.layout_calls
    rw [htile_walk_calls_fst, htile_allocation_length, List.range_eq_range']
  have hhs : (h.layout_calls bounds).map Prod.snd = (h.layout bounds).2 :=
    htile_walk_calls_snd _ _ _ _ _
  refine ⟨⟨hvf, hvs, ?_⟩, ⟨hhf, hhs, ?_⟩⟩
  · intro i hi
    obtain ⟨a, k, _, h1, h2, _, h4⟩ := vtile_layout_at v bounds i hi
    exact ⟨a, a + k.alloc, h1, h2, calls_get _ _ _ hvf hvs i _ h4⟩
  · intro i hi
    obtain ⟨a, k, _, h1, h2, _, h4⟩ := htile_layout_at h bounds i hi
    exact ⟨a, a + k.alloc, h1, h2, calls_get _ _ _ hhf hhs i _ h4⟩

/-- C16: for a tile whose children report the same limits and stretch on each query, a second
`layout` with the same bounds leaves what the first left, whatever the tile recorded before:
the same recorded cross-axis edges and bounds cache, the same bounds handed to the children
and the same calls. -/
theorem C16_layout_idempotent (v : vtile_element) (h : htile_element) (bounds : rect) :
    ((v.layout bounds).1.layout bounds = v.layout bounds ∧
      (v.layout bounds).1.layout_calls bounds = v.layout_calls bounds ∧
      (∀ (l r : Flt) (tiles : List Flt),
        vtile_element.layout
          { children := v.children, _left := l, _right := r, _tiles := tiles } bounds
          = v.layout bounds)) ∧
    ((h.layout bounds).1.layout bounds = h.layout bounds ∧
      (h.layout bounds).1.layout_calls bounds = h.layout_calls bounds ∧
      (∀ (t b : Flt) (tiles : List Flt),
        htile_element.layout
          { children := h.children, _top := t, _bottom := b, _tiles := tiles } bounds
          = h.layout bounds)) :=
  ⟨⟨rfl, rfl, fun _ _ _ => rfl⟩, ⟨rfl, rfl, fun _ _ _ => rfl⟩⟩

/-! ## Offsets of finite allocations -/

theorem vtile_walk_lift (left right : Flt) (is : List qinfo) : ∀ curr : ℚ,
    (vtile_element.walk left right (Flt.fin curr) (is.map qinfo.lift)).1
      = (qoffsets curr (is.map (fun i => i.alloc))).map Flt.fin := by
  induction is with
  | nil => intro curr; simp [vtile_element.walk, qoffsets]
  | cons i rest ih =>
    intro curr
    simp [vtile_element.walk, qoffsets, qinfo.lift]
    simpa [qinfo.lift] using ih (curr + i.alloc)

theorem htile_walk_lift (top bottom : Flt) (is : List qinfo) : ∀ curr : ℚ,
    (htile_element.walk top bottom (Flt.fin curr) (is.map qinfo.lift)).1
      = (qoffsets curr (is.map (fun i => i.alloc))).map Flt.fin := by
  induction is with
  | nil => intro curr; simp [htile_element.walk, qoffsets]
  | cons i rest ih =>
    intro curr
    simp [htile_element.walk, qoffsets, qinfo.lift]
    simpa [qinfo.lift] using ih (curr + i.alloc)

theorem qoffsets_length (allocs : List ℚ) : ∀ curr : ℚ,
    (qoffsets curr allocs).length = allocs.length + 1 := by
  induction allocs with
  | nil => intro curr; simp [qoffsets]
  | cons x rest ih => intro curr; simp [qoffsets, ih]

theorem qoffsets_chain (allocs : List ℚ) (h : ∀ x ∈ allocs, 0 ≤ x) : ∀ curr : ℚ,
    List.Chain (fun x y => x ≤ y) curr (qoffsets curr allocs).tail := by
  induction allocs with
  | nil => intro curr; simp [qoffsets]
  | cons x rest ih =>
    intro curr
    have hx : 0 ≤ x := h x (List.mem_cons_self x rest)
    have hrest := ih (fun y hy => h y (List.mem_cons_of_mem x hy)) (curr + x)
    cases rest with
    | nil =>
      simp only [qoffsets, List.tail_cons]
      exact List.Chain.cons (by linarith) List.Chain.nil
    | cons y ys =>
      simp only [qoffsets, List.tail_cons] at hrest ⊢
      exact List.Chain.cons (by linarith) hrest

theorem qoffsets_nondecreasing (allocs : List ℚ) (h : ∀ x ∈ allocs, 0 ≤ x) (curr : ℚ) :
    List.Chain' (fun x y => x ≤ y) (qoffsets curr allocs) := by
  have hc := qoffsets_chain allocs h curr
  cases allocs with
  | nil => simp [qoffsets]
  | cons x rest =>
    simp only [qoffsets, List.tail_cons] at hc
    simp only [qoffsets]
    exact hc

theorem forall₂_right_mem {α β : Type} {R : α → β → Prop} {xs : List α} {ys : List β}
    (h : List.Forall₂ R xs ys) : ∀ y ∈ ys, ∃ x ∈ xs, R x y := by
  induction h with
  | nil => intro y hy; simp at hy
  | cons hab _ ih =>
    intro y hy
    rcases List.mem_cons.mp hy with hh | hh
    · subst hh
      exact ⟨_, List.mem_cons_self _ _, hab⟩
    · obtain ⟨x, hx, hr⟩ := ih y hh
      exact ⟨x, List.mem_cons_of_mem _ hx, hr⟩

/-- The cache of a tile over finite children in finite bounds, from the allocation step. -/
theorem tile_offsets_start (a : axis) (children : List element) (lead trail : ℚ)
    (side1 side2 : Flt) :
    tile_offsets a children (rect.of_axis a (Flt.fin lead) (Flt.fin trail) side1 side2)
      = match a with
        | axis.y => (vtile_element.walk side1 side2 (Flt.fin lead)
            (tile_allocation axis.y children (Flt.fin (trail - lead))).info).1
        | axis.x => (htile_element.walk side1 side2 (Flt.fin lead)
            (tile_allocation axis.x children (Flt.fin (trail - lead))).info).1 := by
  cases a
  · simp [tile_offsets, rect.of_axis, htile_element.layout, rect.width, tile_allocation]
  · simp [tile_offsets, rect.of_axis, vtile_element.layout, rect.height, tile_allocation]

/-! ## Tiles without children and two scenarios -/

/-- C17: `vtile_element::limits` on a tile without children returns exactly
`{ min: {0, 0}, max: {full_extent, 0} }`, for every `full_extent` that is not negative. -/
theorem C17_empty_vtile_limits (full_extent l r : Flt) (tiles : List Flt)
    (hfe : Flt.lt full_extent 0 = false) :
    vtile_element.limits full_extent
        { children := [], _left := l, _right := r, _tiles := tiles }
      = { min := { x := 0, y := 0 }, max := { x := full_extent, y := 0 } } := by
  have hfe0 : Flt.lt full_extent (Flt.fin 0) = false := hfe
  simp [vtile_element.limits, clamp_min, clamp_max, Flt.gt, hfe0]

/-- C17 at `full_extent = 1000000`. -/
theorem C17_empty_vtile_limits_witness :
    vtile_element.limits (Flt.fin 1000000)
        { children := [], _left := 0, _right := 0, _tiles := [] }
      = { min := { x := 0, y := 0 }, max := { x := Flt.fin 1000000, y := 0 } } :=
  C17_empty_vtile_limits (Flt.fin 1000000) 0 0 [] (by simp)

/-- C18, as stated, fails: for `full_extent = 1000000` the limits of a vertical tile without
children have primary-axis maximum `max.y = 0`, not `full_extent`, and cross-axis maximum
`max.x = full_extent`, not 0; the limits of a horizontal tile without children have
primary-axis maximum `max.x = 0` and cross-axis maximum `max.y = full_extent`. -/
theorem C18_counterexample :
    (vtile_element.limits (Flt.fin 1000000)
        { children := [], _left := 0, _right := 0, _tiles := [] }).max.y = Flt.fin 0 ∧
    (vtile_element.limits (Flt.fin 1000000)
        { children := [], _left := 0, _right := 0, _tiles := [] }).max.x = Flt.fin 1000000 ∧
    (htile_element.limits (Flt.fin 1000000)
        { children := [], _top := 0, _bottom := 0, _tiles := [] }).max.x = Flt.fin 0 ∧
    (htile_element.limits (Flt.fin 1000000)
        { children := [], _top := 0, _bottom := 0, _tiles := [] }).max.y = Flt.fin 1000000 ∧
    Flt.fin 0 ≠ Flt.fin 1000000 := by
  refine ⟨?_, ?_, ?_, ?_, ?_⟩
  · simp [vtile_element.limits, clamp_max_fin]
  · simp [vtile_element.limits, clamp_min_fin]
  · simp [htile_element.limits, clamp_max_fin]
  · simp [htile_element.limits, clamp_min_fin]
  · intro hh
    injection hh with hq
    norm_num at hq

/-- C18, amended: for a tile without children (vertical: primary axis `y`, cross axis `x`;
horizontal: primary axis `x`, cross axis `y`) and a `full_extent` that is not negative,
`limits` returns the minimum `{0, 0}`, the primary-axis maximum 0 (the axis is collapsed) and
the cross-axis maximum `full_extent` (the axis is unconstrained). -/
theorem C18_empty_tile_limits (a : axis) (full_extent : Flt)
    (hfe : Flt.lt full_extent 0 = false) :
    (tile_limits a full_extent []).min = { x := 0, y := 0 } ∧
    (tile_limits a full_extent []).max.along a = 0 ∧
    (tile_limits a full_extent []).max.along a.cross = full_extent := by
  have hfe0 : Flt.lt full_extent (Flt.fin 0) = false := hfe
  cases a
  · simp [tile_limits, htile_element.limits, clamp_min, clamp_max, Flt.gt, hfe0, point.along,
      axis.cross]
  · simp [tile_limits, vtile_element.limits, clamp_min, clamp_max, Flt.gt, hfe0, point.along,
      axis.cross]

/-- C18 amended, at a horizontal tile and `full_extent = 1000000`. -/
theorem C18_empty_tile_limits_witness :
    (tile_limits axis.x (Flt.fin 1000000) []).min = { x := 0, y := 0 } ∧
    (tile_limits axis.x (Flt.fin 1000000) []).max.along axis.x = 0 ∧
    (tile_limits axis.x (Flt.fin 1000000) []).max.along axis.x.cross = Flt.fin 1000000 :=
  C18_empty_tile_limits axis.x (Flt.fin 1000000) (by simp)

/-- C19, as stated, fails: for the two children with heights (20, 100, 1) and (20, 50, 1) in
bounds of height 90 the allocations are not 65 and 25. -/
theorem C19_counterexample :
    (vtile_element.allocation
        [child.elem ⟨0, 20, 0, 100, 1, 1⟩, child.elem ⟨0, 20, 0, 50, 1, 1⟩]
        (rect.height { left := Flt.fin 0, top := Flt.fin 0, right := Flt.fin 100,
                       bottom := Flt.fin 90 })).info.map (fun i => i.alloc)
      ≠ [Flt.fin 65, Flt.fin 25] := by
  simp [vtile_element.allocation, vtile_element.collect, vtile_element.info_of, child.elem,
    rect.height, allocate, allocate_loop, allocate_pass, allocate_elem, Flt.half]
  norm_num

/-- C19, amended: laying out a vertical tile with two children whose heights (min, max,
stretch) are (20, 100, 1) and (20, 50, 1) in bounds of height 90 takes one round of `allocate`
(`extra = 50`, `max_stretch = 2`, no child reaches its maximum) and allocates 45 to each child;
the cache is `[0, 45, 90]`. -/
theorem C19_scenario :
    (vtile_element.allocation
        [child.elem ⟨0, 20, 0, 100, 1, 1⟩, child.elem ⟨0, 20, 0, 50, 1, 1⟩]
        (rect.height { left := Flt.fin 0, top := Flt.fin 0, right := Flt.fin 100,
                       bottom := Flt.fin 90 })).info.map (fun i => i.alloc)
      = [Flt.fin 45, Flt.fin 45] ∧
    (vtile_element.allocation
        [child.elem ⟨0, 20, 0, 100, 1, 1⟩, child.elem ⟨0, 20, 0, 50, 1, 1⟩]
        (rect.height { left := Flt.fin 0, top := Flt.fin 0, right := Flt.fin 100,
                       bottom := Flt.fin 90 })).rounds = 1 ∧
    (vtile_element.layout
        { children := [child.elem ⟨0, 20, 0, 100, 1, 1⟩, child.elem ⟨0, 20, 0, 50, 1, 1⟩],
          _left := 0, _right := 0, _tiles := [] }
        { left := Flt.fin 0, top := Flt.fin 0, right := Flt.fin 100,
          bottom := Flt.fin 90 }).1._tiles
      = [Flt.fin 0, Flt.fin 45, Flt.fin 90] := by
  have h : vtile_element.allocation
        [child.elem ⟨0, 20, 0, 100, 1, 1⟩, child.elem ⟨0, 20, 0, 50, 1, 1⟩]
        (rect.height { left := Flt.fin 0, top := Flt.fin 0, right := Flt.fin 100,
                       bottom := Flt.fin 90 })
      = { info := [⟨Flt.fin 20, Flt.fin 100, Flt.fin 1, Flt.fin 45⟩,
                   ⟨Flt.fin 20, Flt.fin 50, Flt.fin 1, Flt.fin 45⟩],
          rounds := 1, extra := Flt.fin 0, max_stretch := Flt.fin 2 } := by
    simp [vtile_element.allocation, vtile_element.collect, vtile_element.info_of, child.elem,
      rect.height, allocate, allocate_loop, allocate_pass, allocate_elem, Flt.half]
    norm_num
  refine ⟨?_, ?_, ?_⟩
  · rw [h]; rfl
  · rw [h]
  · simp only [vtile_element.layout, h]
    simp [vtile_element.walk]
    norm_num

/-! ## Zero stretch -/

theorem fin_add_nan (a : ℚ) : Flt.fin a + Flt.nan = Flt.nan := rfl

theorem fin_sub_nan (a : ℚ) : Flt.fin a - Flt.nan = Flt.nan := rfl

theorem fin_zero_div_zero : Flt.fin 0 / Flt.fin 0 = Flt.nan := by
  rw [Flt.fin_div_fin]
  simp [Flt.signed_inf]

theorem nan_ge (x : Flt) : Flt.ge Flt.nan x = false := by cases x <;> rfl

theorem nan_lt (x : Flt) : Flt.lt Flt.nan x = false := by cases x <;> rfl

/-- C20, where the code departs from it: a vertical tile of height 50 over one child with
height 10..100 and stretch 0 enters `allocate` with `max_stretch = 0` and `extra = 40`; the
first round adds `40 * 0 / 0`, a NaN, to the child's allocation, which ends as NaN instead of
the minimum 10, and the cache is `[0, NaN]`. -/
theorem C20_zero_stretch_nan :
    (vtile_element.allocation [child.elem ⟨0, 10, 0, 100, 1, 0⟩] (Flt.fin 50)).info
      = [{ min := Flt.fin 10, max := Flt.fin 100, stretch := Flt.fin 0, alloc := Flt.nan }] ∧
    (vtile_element.layout
        { children := [child.elem ⟨0, 10, 0, 100, 1, 0⟩], _left := 0, _right := 0,
          _tiles := [] }
        { left := Flt.fin 0, top := Flt.fin 0, right := Flt.fin 100,
          bottom := Flt.fin 50 }).1._tiles
      = [Flt.fin 0, Flt.nan] := by
  have h : (vtile_element.allocation [child.elem ⟨0, 10, 0, 100, 1, 0⟩] (Flt.fin 50)).info
      = [{ min := Flt.fin 10, max := Flt.fin 100, stretch := Flt.fin 0,
           alloc := Flt.nan }] := by
    simp [vtile_element.allocation, vtile_element.collect, vtile_element.info_of,
      child.elem, allocate, allocate_loop, allocate_pass, allocate_elem, Flt.half,
      fin_zero_div_zero, fin_add_nan, fin_sub_nan, nan_ge, nan_lt]
    norm_num [allocate_loop, allocate_pass, allocate_elem, Flt.half,
      fin_zero_div_zero, fin_add_nan, fin_sub_nan, nan_ge, nan_lt]
  refine ⟨h, ?_⟩
  simp only [vtile_element.layout, rect.height, Flt.fin_sub_fin, sub_zero, h]
  simp [vtile_element.walk, fin_add_nan]

/-- As long as the first round does not divide by zero, `allocate` on finite records is the
loop on finite records: a later round is only entered with `max_stretch >= 1`. -/
theorem allocate_loop_lift_of_ne (size : ℚ) (n : Nat) :
    ∀ (e m : ℚ) (is : List qinfo) (rounds : Nat),
    ((∃ i ∈ is, i.alloc < i.max) → m ≠ 0) →
    allocate_loop (Flt.fin size) n (Flt.fin e) (Flt.fin m) (is.map qinfo.lift) rounds
      = (qloop size n e m is rounds).lift := by
  induction n with
  | zero => intro e m is rounds _; rfl
  | succ n ih =>
    intro e m is rounds h
    have hdiv : ∀ i ∈ is, i.alloc < i.max → m ≠ 0 := fun i hi hg => h ⟨i, hi, hg⟩
    have hpass := allocate_pass_lift e m is hdiv 0 0
    unfold allocate_loop qloop
    simp only [Flt.zero_eq, Flt.one_eq, Flt.half, hpass, Flt.fin_sub_fin, Flt.lt_fin_fin,
      zero_add]
    by_cases hexit : m - (0 - (is.map (qinfo.removed e m)).sum) < 1 ∨
        size - qtotal (is.map (qinfo.step e m)) < 1 / 2
    · rw [if_pos hexit]
      have hb : (decide (m - (0 - (is.map (qinfo.removed e m)).sum) < 1) ||
          decide (size - qtotal (is.map (qinfo.step e m)) < 1 / 2)) = true := by
        simpa using hexit
      rw [if_pos hb]
      rfl
    · rw [if_neg hexit]
      have hb : ¬ (decide (m - (0 - (is.map (qinfo.removed e m)).sum) < 1) ||
          decide (size - qtotal (is.map (qinfo.step e m)) < 1 / 2)) = true := by
        simpa using hexit
      rw [if_neg hb]
      apply ih
      intro _
      have h1 : ¬ m - (0 - (is.map (qinfo.removed e m)).sum) < 1 := fun hh => hexit (Or.inl hh)
      have h2 : (1 : ℚ) ≤ m - (0 - (is.map (qinfo.removed e m)).sum) := not_lt.mp h1
      intro h0
      rw [h0] at h2
      norm_num at h2

theorem qstep_zero_stretch (e m : ℚ) (i : qinfo) (h : i.stretch = 0) : i.step e m = i := by
  obtain ⟨lo, hi, s, al⟩ := i
  simp only at h
  subst h
  unfold qinfo.step
  by_cases hg : al < hi
  · simp [hg]
  · simp [hg]

theorem forall₂_trans_of {α : Type} {R : α → α → Prop}
    (htrans : ∀ a b c, R a b → R b c → R a c) {xs ys zs : List α}
    (h1 : List.Forall₂ R xs ys) : List.Forall₂ R ys zs → List.Forall₂ R xs zs := by
  induction h1 generalizing zs with
  | nil => intro h2; cases h2; exact List.Forall₂.nil
  | cons hab _ ih =>
    intro h2
    cases h2 with
    | cons hbc hrest => exact List.Forall₂.cons (htrans _ _ _ hab hbc) (ih hrest)

/-- The loop on finite records never changes a record whose stretch factor is zero. -/
theorem qloop_zero_stretch (size : ℚ) (n : Nat) :
    ∀ (e m : ℚ) (is : List qinfo) (rounds : Nat),
    List.Forall₂ (fun i j => i.stretch = 0 → j = i) is (qloop size n e m is rounds).info := by
  induction n with
  | zero =>
    intro e m is rounds
    unfold qloop
    rw [List.forall₂_same]
    intro i _ _
    rfl
  | succ n ih =>
    intro e m is rounds
    have hstep : List.Forall₂ (fun i j => i.stretch = 0 → j = i) is
        (is.map (qinfo.step e m)) := by
      rw [List.forall₂_map_right_iff, List.forall₂_same]
      intro i _ hs
      exact qstep_zero_stretch e m i hs
    unfold qloop
    dsimp only
    split_ifs with hexit
    · exact hstep
    · refine forall₂_trans_of ?_ hstep (ih _ _ _ (rounds + 1))
      intro a b c hab hbc ha
      have hb : b = a := hab ha
      subst hb
      exact hbc ha

/-- Zero stretch, where the code keeps it: for finite children of any limits and stretch and
every finite target length, when the stretch factors of the children that can grow do not sum
to zero (or no child can grow), a child whose stretch factor is 0 ends the allocation step of
`layout` with `alloc` equal to its minimum. -/
theorem zero_stretch_keeps_min (a : axis) (cs : List child) (L : ℚ)
    (hS : (∃ c ∈ cs, c.lo a < c.hi a) → growable_stretch a cs ≠ 0) :
    List.Forall₂ (fun c info => c.str a = 0 → info.alloc = Flt.fin (c.lo a))
      cs (tile_allocation a (cs.map child.elem) (Flt.fin L)).info := by
  rw [tile_allocation_start]
  have hne : (∃ i ∈ cs.map (child.info a), i.alloc < i.max) → growable_stretch a cs ≠ 0 := by
    rintro ⟨i, hi, hg⟩
    rcases List.mem_map.mp hi with ⟨c, hc, rfl⟩
    exact hS ⟨c, hc, hg⟩
  rw [allocate_loop_lift_of_ne L 9 _ _ _ 0 hne]
  have hz := qloop_zero_stretch L 9 (L - (cs.map (fun c => c.lo a)).sum)
    (growable_stretch a cs) (cs.map (child.info a)) 0
  rw [List.forall₂_map_left_iff] at hz
  show List.Forall₂ _ cs (List.map qinfo.lift _)
  rw [List.forall₂_map_right_iff]
  refine List.Forall₂.imp ?_ hz
  intro c j h hs
  rw [h hs]
  rfl

/-! ## Options of the Windows file dialogs -/

theorem testBit_bit_not_two_pow (b k : Nat) (hk : k < 32) :
    (bit_not (2 ^ b)).testBit k = !decide (b = k) := by
  unfold bit_not
  have hlt : 2 ^ b % 2 ^ 32 < 2 ^ 32 := Nat.mod_lt _ (Nat.two_pow_pos 32)
  rw [Nat.testBit_two_pow_sub_succ hlt, Nat.testBit_mod_two_pow, Nat.testBit_two_pow]
  simp [hk]

/-- Setting a flag when `c` holds and clearing it otherwise writes `c` into its bit. -/
theorem testBit_set_if (c : Bool) (o b k : Nat) (hk : k < 32) :
    (if c = true then o ||| 2 ^ b else o &&& bit_not (2 ^ b)).testBit k
      = if b = k then c else o.testBit k := by
  cases c
  · simp only [Bool.false_eq_true, if_false, Nat.testBit_and, testBit_bit_not_two_pow b k hk]
    by_cases h : b = k <;> simp [h]
  · simp only [if_true, Nat.testBit_or, Nat.testBit_two_pow]
    by_cases h : b = k <;> simp [h]

/-- Clearing a flag when `c` holds and setting it otherwise writes `!c` into its bit. -/
theorem testBit_clear_if (c : Bool) (o b k : Nat) (hk : k < 32) :
    (if c = true then o &&& bit_not (2 ^ b) else o ||| 2 ^ b).testBit k
      = if b = k then !c else o.testBit k := by
  cases c
  · simp only [Bool.false_eq_true, if_false, Nat.testBit_or, Nat.testBit_two_pow]
    by_cases h : b = k <;> simp [h]
  · simp only [if_true, Nat.testBit_and, testBit_bit_not_two_pow b k hk]
    by_cases h : b = k <;> simp [h]

/-- The option word that `apply_dialog_options` sets, bit by bit. -/
theorem apply_dialog_options_bits (ffs fpp fsh owp ams ndl fme pf : Nat)
    (dialog : file_dialog) (fs_modal_st : filesystem_modal_settings)
    (confirm_overwrite multiple_selection follow_symlinks path_must_exist pick_folders : Bool)
    (hget : dialog.get_options_failed = false) (hset : dialog.set_options_failed = false) :
    ∃ d : file_dialog,
      apply_dialog_options (fos_flags.of_bits ffs fpp fsh owp ams ndl fme pf) dialog
        fs_modal_st confirm_overwrite multiple_selection follow_symlinks path_must_exist
        pick_folders = Except.ok d ∧
      ∀ k : Nat, k < 32 → d.options.testBit k =
        if pf = k then pick_folders
        else if fme = k then path_must_exist
        else if ndl = k then !follow_symlinks
        else if ams = k then multiple_selection
        else if owp = k then confirm_overwrite
        else if fsh = k then fs_modal_st.show_hidden_files
        else if fpp = k then fs_modal_st.file_preview
        else if ffs = k then !fs_modal_st.allow_external_filesystem
        else dialog.options.testBit k := by
  unfold apply_dialog_options fos_flags.of_bits
  simp only [hget, hset, Bool.false_eq_true, if_false]
  refine ⟨_, rfl, ?_⟩
  intro k hk
  simp only
  rw [testBit_set_if _ _ _ _ hk, testBit_set_if _ _ _ _ hk,
    testBit_clear_if _ _ _ _ hk, testBit_set_if _ _ _ _ hk,
    testBit_set_if _ _ _ _ hk, testBit_set_if _ _ _ _ hk,
    testBit_set_if _ _ _ _ hk, testBit_clear_if _ _ _ _ hk]

/-- C22: `apply_dialog_options` starts from the dialog's current option word and, when
`GetOptions` and `SetOptions` succeed, sets an option word in which `FOS_FORCEFILESYSTEM` is
set iff `allow_external_filesystem` is false, `FOS_FORCEPREVIEWPANEON` iff `file_preview`,
`FOS_FORCESHOWHIDDEN` iff `show_hidden_files`, `FOS_OVERWRITEPROMPT` iff `confirm_overwrite`,
`FOS_ALLOWMULTISELECT` iff `multiple_selection`, `FOS_NODEREFERENCELINKS` iff `follow_symlinks`
is false, `FOS_FILEMUSTEXIST` iff `path_must_exist`, `FOS_PICKFOLDERS` iff `pick_folders`, and
every other bit of the word is left unchanged; the eight flags are distinct bits of the
32-bit word. -/
theorem C22_dialog_options (ffs fpp fsh owp ams ndl fme pf : Nat)
    (dialog : file_dialog) (fs_modal_st : filesystem_modal_settings)
    (confirm_overwrite multiple_selection follow_symlinks path_must_exist pick_folders : Bool)
    (hbits : ∀ b ∈ [ffs, fpp, fsh, owp, ams, ndl, fme, pf], b < 32)
    (hnodup : [ffs, fpp, fsh, owp, ams, ndl, fme, pf].Nodup)
    (hget : dialog.get_options_failed = false) (hset : dialog.set_options_failed = false) :
    ∃ d : file_dialog,
      apply_dialog_options (fos_flags.of_bits ffs fpp fsh owp ams ndl fme pf) dialog
        fs_modal_st confirm_overwrite multiple_selection follow_symlinks path_must_exist
        pick_folders = Except.ok d ∧
      d.options.testBit ffs = !fs_modal_st.allow_external_filesystem ∧
      d.options.testBit fpp = fs_modal_st.file_preview ∧
      d.options.testBit fsh = fs_modal_st.show_hidden_files ∧
      d.options.testBit owp = confirm_overwrite ∧
      d.options.testBit ams = multiple_selection ∧
      d.options.testBit ndl = !follow_symlinks ∧
      d.options.testBit fme = path_must_exist ∧
      d.options.testBit pf = pick_folders ∧
      ∀ k : Nat, k < 32 → k ∉ [ffs, fpp, fsh, owp, ams, ndl, fme, pf] →
        d.options.testBit k = dialog.options.testBit k := by
  obtain ⟨d, hd, hk⟩ := apply_dialog_options_bits ffs fpp fsh owp ams ndl fme pf dialog
    fs_modal_st confirm_overwrite multiple_selection follow_symlinks path_must_exist
    pick_folders hget hset
  have h1 : ffs < 32 := hbits ffs (by simp)
  have h2 : fpp < 32 := hbits fpp (by simp)
  have h3 : fsh < 32 := hbits fsh (by simp)
  have h4 : owp < 32 := hbits owp (by simp)
  have h5 : ams < 32 := hbits ams (by simp)
  have h6 : ndl < 32 := hbits ndl (by simp)
  have h7 : fme < 32 := hbits fme (by simp)
  have h8 : pf < 32 := hbits pf (by simp)
  simp only [List.nodup_cons, List.mem_cons, List.mem_singleton, not_or, List.not_mem_nil,
    not_false_eq_true, List.nodup_nil, and_true] at hnodup
  obtain ⟨⟨a12, a13, a14, a15, a16, a17, a18⟩, ⟨a23, a24, a25, a26, a27, a28⟩,
    ⟨a34, a35, a36, a37, a38⟩, ⟨a45, a46, a47, a48⟩, ⟨a56, a57, a58⟩, ⟨a67, a68⟩, a78⟩ := hnodup
  refine ⟨d, hd, ?_, ?_, ?_, ?_, ?_, ?_, ?_, ?_, ?_⟩
  · rw [hk ffs h1]
    simp [Ne.symm a12, Ne.symm a13, Ne.symm a14, Ne.symm a15, Ne.symm a16, Ne.symm a17,
      Ne.symm a18]
  · rw [hk fpp h2]
    simp [Ne.symm a23, Ne.symm a24, Ne.symm a25, Ne.symm a26, Ne.symm a27, Ne.symm a28]
  · rw [hk fsh h3]
    simp [Ne.symm a34, Ne.symm a35, Ne.symm a36, Ne.symm a37, Ne.symm a38]
  · rw [hk owp h4]
    simp [Ne.symm a45, Ne.symm a46, Ne.symm a47, Ne.symm a48]
  · rw [hk ams h5]
    simp [Ne.symm a56, Ne.symm a57, Ne.symm a58]
  · rw [hk ndl h6]
    simp [Ne.symm a67, Ne.symm a68]
  · rw [hk fme h7]
    simp [Ne.symm a78]
  · rw [hk pf h8]
    simp
  · intro k hk32 hnot
    simp only [List.mem_cons, List.mem_singleton, not_or, List.not_mem_nil,
      not_false_eq_true, and_true] at hnot
    obtain ⟨b1, b2, b3, b4, b5, b6, b7, b8⟩ := hnot
    rw [hk k hk32]
    simp [Ne.symm b1, Ne.symm b2, Ne.symm b3, Ne.symm b4, Ne.symm b5, Ne.symm b6, Ne.symm b7,
      Ne.symm b8]

/-- C22 at the bit positions of the Windows SDK (`FOS_FORCEFILESYSTEM = 0x40`,
`FOS_FORCEPREVIEWPANEON = 0x40000000`, `FOS_FORCESHOWHIDDEN = 0x10000000`,
`FOS_OVERWRITEPROMPT = 0x2`, `FOS_ALLOWMULTISELECT = 0x200`, `FOS_NODEREFERENCELINKS =
0x100000`, `FOS_FILEMUSTEXIST = 0x1000`, `FOS_PICKFOLDERS = 0x20`), for the call of
`do_open_directory_modal` on a dialog whose option word is `0x1802`. -/
theorem C22_dialog_options_witness :
    ∃ d : file_dialog,
      apply_dialog_options (fos_flags.of_bits 6 30 28 1 9 20 12 5)
        { options := 6146, get_options_failed := false, set_options_failed := false }
        { allow_external_filesystem := false, file_preview := true,
          show_hidden_files := false }
        false false true true true = Except.ok d ∧
      d.options.testBit 6 = true ∧ d.options.testBit 1 = false ∧
      d.options.testBit 5 = true ∧ d.options.testBit 11 = true := by
  obtain ⟨d, hd, h1, _, _, h4, _, _, _, h8, hrest⟩ := C22_dialog_options 6 30 28 1 9 20 12 5
    { options := 6146, get_options_failed := false, set_options_failed := false }
    { allow_external_filesystem := false, file_preview := true, show_hidden_files := false }
    false false true true true (by decide) (by decide) rfl rfl
  refine ⟨d, hd, h1, h4, h8, ?_⟩
  rw [hrest 11 (by decide) (by decide)]
  decide

/-! ## Radio buttons -/

theorem htile_limits_step_swap (l : view_limits) (e : element) :
    htile_element.limits_step l.swap e.swap = (vtile_element.limits_step l e).swap := rfl

theorem htile_limits_fold_swap (es : List element) : ∀ l : view_limits,
    (es.map element.swap).foldl htile_element.limits_step l.swap
      = (es.foldl vtile_element.limits_step l).swap := by
  induction es with
  | nil => intro l; rfl
  | cons e rest ih =>
    intro l
    simp only [List.map_cons, List.foldl_cons, htile_limits_step_swap, ih]

theorem htile_collect_swap (es : List element) : ∀ m t : Flt,
    htile_element.collect (es.map element.swap) m t = vtile_element.collect es m t := by
  induction es with
  | nil => intro m t; rfl
  | cons e rest ih =>
    intro m t
    have hinfo : htile_element.info_of e.swap = vtile_element.info_of e := rfl
    simp only [List.map_cons, htile_element.collect, vtile_element.collect, hinfo, ih]

theorem htile_walk_swap (side1 side2 : Flt) (info : List layout_info) : ∀ curr : Flt,
    htile_element.walk side1 side2 curr info
      = ((vtile_element.walk side1 side2 curr info).1,
         (vtile_element.walk side1 side2 curr info).2.map rect.swap) := by
  induction info with
  | nil => intro curr; rfl
  | cons k rest ih =>
    intro curr
    simp only [htile_element.walk, vtile_element.walk, ih, List.map_cons]
    rfl

/-- C28: `htile_element` is the transpose of `vtile_element`: on the children and bounds with
`x` and `y` exchanged, `htile_element::limits` returns the exchanged limits of
`vtile_element::limits`, `htile_element::layout` records the same edges and the same cache and
hands every child the exchanged rectangle, and `htile_element::bounds_of` answers with the
exchanged rectangle (in exact arithmetic). -/
theorem C28_htile_is_transposed_vtile (full_extent : Flt) (v : vtile_element) (bounds : rect)
    (index : Nat) :
    htile_element.limits full_extent v.swap = (vtile_element.limits full_extent v).swap ∧
    (v.swap.layout bounds.swap).1 = (v.layout bounds).1.swap ∧
    (v.swap.layout bounds.swap).2 = (v.layout bounds).2.map rect.swap ∧
    v.swap.bounds_of index = (v.bounds_of index).map rect.swap ∧
    ((v.swap.layout bounds.swap).1.bounds_of index
      = ((v.layout bounds).1.bounds_of index).map rect.swap) := by
  have hbounds : ∀ w : vtile_element,
      w.swap.bounds_of index = (w.bounds_of index).map rect.swap := by
    intro w
    unfold htile_element.bounds_of vtile_element.bounds_of vtile_element.swap
    simp only
    split_ifs
    · rfl
    · cases w._tiles.get? index <;> cases w._tiles.get? (index + 1) <;> rfl
  have hlayout : (v.swap.layout bounds.swap).1 = (v.layout bounds).1.swap ∧
      (v.swap.layout bounds.swap).2 = (v.layout bounds).2.map rect.swap := by
    have halloc : htile_element.allocation (v.children.map element.swap) bounds.swap.width
        = vtile_element.allocation v.children bounds.height := by
      unfold htile_element.allocation vtile_element.allocation
      rw [htile_collect_swap]
      rfl
    unfold htile_element.layout vtile_element.layout vtile_element.swap
    simp only [halloc]
    have hw := htile_walk_swap bounds.left bounds.right
      (vtile_element.allocation v.children bounds.height).info bounds.top
    constructor
    · simp only [rect.swap, hw]
    · simp only [rect.swap, hw]
  refine ⟨?_, hlayout.1, hlayout.2, hbounds v, ?_⟩
  · unfold htile_element.limits vtile_element.limits vtile_element.swap
    simp only
    have hinit : ({ min := { x := 0, y := 0 }, max := { x := 0, y := full_extent } }
        : view_limits)
        = view_limits.swap { min := { x := 0, y := 0 }, max := { x := full_extent, y := 0 } } :=
      rfl
    rw [hinit, htile_limits_fold_swap]
    rfl
  · rw [hlayout.1]
    exact hbounds _

/-! ## The guard of `bounds_of` -/

/-- C29, where the code departs from it: after `layout` of a vertical tile with one child the
cache has two offsets; `bounds_of(1)` passes the guard `index >= _tiles.size()` (1 < 2), so it
does not return the empty rectangle, and its second read `_tiles[2]` is outside the cache. -/
theorem C29_bounds_of_last_reads_outside :
    (vtile_element.layout
        { children := [child.elem ⟨0, 10, 0, 100, 1, 1⟩], _left := 0, _right := 0,
          _tiles := [] }
        { left := Flt.fin 0, top := Flt.fin 0, right := Flt.fin 100,
          bottom := Flt.fin 50 }).1._tiles.length = 2 ∧
    (vtile_element.layout
        { children := [child.elem ⟨0, 10, 0, 100, 1, 1⟩], _left := 0, _right := 0,
          _tiles := [] }
        { left := Flt.fin 0, top := Flt.fin 0, right := Flt.fin 100,
          bottom := Flt.fin 50 }).1.bounds_of 1 ≠ some rect.empty ∧
    (vtile_element.layout
        { children := [child.elem ⟨0, 10, 0, 100, 1, 1⟩], _left := 0, _right := 0,
          _tiles := [] }
        { left := Flt.fin 0, top := Flt.fin 0, right := Flt.fin 100,
          bottom := Flt.fin 50 }).1._tiles.get? (1 + 1) = none := by
  have hlen := vtile_layout_tiles_length
    { children := [child.elem ⟨0, 10, 0, 100, 1, 1⟩], _left := 0, _right := 0, _tiles := [] }
    { left := Flt.fin 0, top := Flt.fin 0, right := Flt.fin 100, bottom := Flt.fin 50 }
  refine ⟨hlen, ?_, ?_⟩
  · rw [vtile_bounds_of_last _ 1 hlen]
    exact fun hh => nomatch hh
  · exact List.get?_eq_none.mpr (by rw [hlen]; exact Nat.le_refl _)

/-- The guard of `bounds_of`, where the code keeps it: `bounds_of(index)` returns the empty
rectangle whenever `index` is at least the length of the cache (`_tiles.size()`, which is
`size() + 1` after a layout), hence for every index while the cache is empty; and whenever
`index + 1` is below the length of the cache, both reads `_tiles[index]` and
`_tiles[index + 1]` are inside the cache and it returns the rectangle built from them and the
recorded cross-axis edges. -/
theorem bounds_of_guard (v : vtile_element) (h : htile_element) (bounds : rect)
    (index : Nat) :
    ((index ≥ v._tiles.length → v.bounds_of index = some rect.empty) ∧
      (v._tiles = [] → v.bounds_of index = some rect.empty) ∧
      (index + 1 < v._tiles.length → ∃ a b : Flt,
        v._tiles.get? index = some a ∧ v._tiles.get? (index + 1) = some b ∧
        v.bounds_of index
          = some { left := v._left, top := a, right := v._right, bottom := b }) ∧
      (v.layout bounds).1._tiles.length = v.children.length + 1) ∧
    ((index ≥ h._tiles.length → h.bounds_of index = some rect.empty) ∧
      (h._tiles = [] → h.bounds_of index = some rect.empty) ∧
      (index + 1 < h._tiles.length → ∃ a b : Flt,
        h._tiles.get? index = some a ∧ h._tiles.get? (index + 1) = some b ∧
        h.bounds_of index
          = some { left := a, top := h._top, right := b, bottom := h._bottom }) ∧
      (h.layout bounds).1._tiles.length = h.children.length + 1) := by
  refine ⟨⟨?_, ?_, ?_, vtile_layout_tiles_length v bounds⟩,
    ⟨?_, ?_, ?_, htile_layout_tiles_length h bounds⟩⟩
  · intro hge
    unfold vtile_element.bounds_of
    rw [if_pos hge]
  · intro hnil
    unfold vtile_element.bounds_of
    rw [if_pos (by rw [hnil]; exact Nat.zero_le _)]
  · intro hlt
    have h1 : index < v._tiles.length := by omega
    refine ⟨v._tiles.get ⟨index, h1⟩, v._tiles.get ⟨index + 1, hlt⟩,
      List.get?_eq_get h1, List.get?_eq_get hlt, ?_⟩
    unfold vtile_element.bounds_of
    rw [if_neg (by omega), List.get?_eq_get h1, List.get?_eq_get hlt]
  · intro hge
    unfold htile_element.bounds_of
    rw [if_pos hge]
  · intro hnil
    unfold htile_element.bounds_of
    rw [if_pos (by rw [hnil]; exact Nat.zero_le _)]
  · intro hlt
    have h1 : index < h._tiles.length := by omega
    refine ⟨h._tiles.get ⟨index, h1⟩, h._tiles.get ⟨index + 1, hlt⟩,
      List.get?_eq_get h1, List.get?_eq_get hlt, ?_⟩
    unfold htile_element.bounds_of
    rw [if_neg (by omega), List.get?_eq_get h1, List.get?_eq_get hlt]

/-! ## The stretch pool after a round -/

/-- C23, where the code departs from it: a vertical tile of height 50 over two children with
heights 0..100 and 0..10 and stretch 1 starts `allocate` with `max_stretch = 2`; the first
round clamps the second child (stretch 1), and `remove_stretch -= info.stretch` followed by
`max_stretch -= remove_stretch` raises `max_stretch` to 3 instead of lowering it to 1.  The
following rounds hand the first child a third of `extra` each, and after the ninth round it
holds 86200/2187 (about 39.41) instead of 40, with `max_stretch = 3`. -/
theorem C23_max_stretch_grows :
    vtile_element.allocation
        [child.elem ⟨0, 0, 0, 100, 1, 1⟩, child.elem ⟨0, 0, 0, 10, 1, 1⟩] (Flt.fin 50)
      = { info := [⟨Flt.fin 0, Flt.fin 100, Flt.fin 1, Flt.fin (86200 / 2187)⟩,
                   ⟨Flt.fin 0, Flt.fin 10, Flt.fin 1, Flt.fin 10⟩],
          rounds := 9, extra := Flt.fin (1280 / 2187), max_stretch := Flt.fin 3 } := by
  simp [vtile_element.allocation, vtile_element.collect, vtile_element.info_of, child.elem,
    allocate, allocate_loop, allocate_pass, allocate_elem, Flt.half]
  norm_num

/-! ## The degenerate pool -/

/-- C25, where the code departs from it: a horizontal tile of width 50 over a child of fixed
width 5 (stretch 1) and a child of width 10..100 with stretch 0 enters `allocate` with
`max_stretch = 0` (the only child that can grow has stretch 0) and `extra = 35`; the first
round runs before `max_stretch < 1` is tested and adds `35 * 0 / 0`, a NaN, to the second
child's allocation: the allocations end as 5 and NaN, not as the minima 5 and 10. -/
theorem C25_zero_pool_divides_by_zero :
    htile_element.allocation
        [child.elem ⟨5, 0, 5, 0, 1, 1⟩, child.elem ⟨10, 0, 100, 0, 0, 1⟩] (Flt.fin 50)
      = { info := [⟨Flt.fin 5, Flt.fin 5, Flt.fin 1, Flt.fin 5⟩,
                   ⟨Flt.fin 10, Flt.fin 100, Flt.fin 0, Flt.nan⟩],
          rounds := 1, extra := Flt.nan, max_stretch := Flt.fin 0 } := by
  simp [htile_element.allocation, htile_element.collect, htile_element.info_of, child.elem,
    allocate, allocate_loop, allocate_pass, allocate_elem, Flt.half, fin_zero_div_zero,
    fin_add_nan, fin_sub_nan, nan_ge, nan_lt]
  norm_num [allocate_loop, allocate_pass, allocate_elem, Flt.half,
    fin_zero_div_zero, fin_add_nan, fin_sub_nan, nan_ge, nan_lt]

theorem qstep_fixed (e m : ℚ) (i : qinfo) (h : ¬ i.alloc < i.max) : i.step e m = i := by
  unfold qinfo.step
  rw [if_neg h]

/-- The loop on finite records never changes a record that cannot grow. -/
theorem qloop_fixed (size : ℚ) (n : Nat) :
    ∀ (e m : ℚ) (is : List qinfo) (rounds : Nat),
    List.Forall₂ (fun i j => ¬ i.alloc < i.max → j = i) is
      (qloop size n e m is rounds).info := by
  induction n with
  | zero =>
    intro e m is rounds
    unfold qloop
    rw [List.forall₂_same]
    intro i _ _
    rfl
  | succ n ih =>
    intro e m is rounds
    have hstep : List.Forall₂ (fun i j => ¬ i.alloc < i.max → j = i) is
        (is.map (qinfo.step e m)) := by
      rw [List.forall₂_map_right_iff, List.forall₂_same]
      intro i _ hs
      exact qstep_fixed e m i hs
    unfold qloop
    dsimp only
    split_ifs with hexit
    · exact hstep
    · refine forall₂_trans_of ?_ hstep (ih _ _ _ (rounds + 1))
      intro a b c hab hbc ha
      have hb : b = a := hab ha
      subst hb
      exact hbc ha

/-- The degenerate pool, where the code keeps it: when no child can grow (`min_i >= max_i`
for every child) `allocate` never divides, and for every finite target length every child
ends the allocation step of `layout` with `alloc` equal to its minimum. -/
theorem fixed_children_keep_min (a : axis) (cs : List child) (L : ℚ)
    (hfixed : ∀ c ∈ cs, ¬ c.lo a < c.hi a) :
    List.Forall₂ (fun c info => info.alloc = Flt.fin (c.lo a))
      cs (tile_allocation a (cs.map child.elem) (Flt.fin L)).info := by
  rw [tile_allocation_start]
  have hne : (∃ i ∈ cs.map (child.info a), i.alloc < i.max) → growable_stretch a cs ≠ 0 := by
    rintro ⟨i, hi, hg⟩
    rcases List.mem_map.mp hi with ⟨c, hc, rfl⟩
    exact absurd hg (hfixed c hc)
  rw [allocate_loop_lift_of_ne L 9 _ _ _ 0 hne]
  have hz := qloop_fixed L 9 (L - (cs.map (fun c => c.lo a)).sum)
    (growable_stretch a cs) (cs.map (child.info a)) 0
  rw [List.forall₂_map_left_iff] at hz
  show List.Forall₂ _ cs (List.map qinfo.lift _)
  rw [List.forall₂_map_right_iff]
  have hall : List.Forall₂ (fun c j => (¬ (child.info a c).alloc < (child.info a c).max →
      j = child.info a c) ∧ c ∈ cs) cs
      (qloop L 9 (L - (cs.map (fun c => c.lo a)).sum) (growable_stretch a cs)
        (cs.map (child.info a)) 0).info := by
    have hmem : ∀ (xs : List child) (ys : List qinfo),
        List.Forall₂ (fun c j => ¬ (child.info a c).alloc < (child.info a c).max →
          j = child.info a c) xs ys →
        List.Forall₂ (fun c j => (¬ (child.info a c).alloc < (child.info a c).max →
          j = child.info a c) ∧ c ∈ xs) xs ys := by
      intro xs ys hf
      induction hf with
      | nil => exact List.Forall₂.nil
      | cons hab _ ih =>
        refine List.Forall₂.cons ⟨hab, List.mem_cons_self _ _⟩ ?_
        exact List.Forall₂.imp (fun c j hcj => ⟨hcj.1, List.mem_cons_of_mem _ hcj.2⟩) ih
    exact hmem _ _ hz
  refine List.Forall₂.imp ?_ hall
  intro c j h
  rw [h.1 (hfixed c h.2)]
  rfl

/-! ## Proportional distribution -/

/-- In exact arithmetic, for every target length `L` and every list of children whose
growable stretch `S` (the sum of the stretch factors of the children with `min_i < max_i`) is
positive, such that no child that can grow reaches its maximum (`min_i + (L - sum min) *
stretch_i / S < max_i` for each of them), `allocate` returns after a single round with
`alloc_i = min_i + (L - sum min) * stretch_i / S` for every child that can grow and
`alloc_i = min_i` for every child that cannot; hence `sum alloc_i = L`. -/
theorem proportional_distribution_exact (a : axis) (cs : List child) (L : ℚ)
    (hS : 0 < growable_stretch a cs)
    (hfree : ∀ c ∈ cs, c.lo a < c.hi a →
      c.lo a + (L - (cs.map (fun k => k.lo a)).sum) * c.str a / growable_stretch a cs
        < c.hi a) :
    (tile_allocation a (cs.map child.elem) (Flt.fin L)).rounds = 1 ∧
    List.Forall₂
      (fun c info => info.alloc = Flt.fin
        (if c.lo a < c.hi a then
          c.lo a + (L - (cs.map (fun k => k.lo a)).sum) * c.str a / growable_stretch a cs
        else c.lo a))
      cs (tile_allocation a (cs.map child.elem) (Flt.fin L)).info ∧
    ∃ allocs : List ℚ,
      (tile_allocation a (cs.map child.elem) (Flt.fin L)).info.map (fun i => i.alloc)
        = allocs.map Flt.fin ∧
      allocs.sum = L := by
  have hne : (∃ i ∈ cs.map (child.info a), i.alloc < i.max) → growable_stretch a cs ≠ 0 :=
    fun _ => ne_of_gt hS
  have hfree2 : ∀ i ∈ cs.map (child.info a), i.alloc < i.max →
      i.alloc + (L - (cs.map (fun c => c.lo a)).sum) * i.stretch / growable_stretch a cs
        < i.max := by
    intro i hi hg
    rcases List.mem_map.mp hi with ⟨c, hc, rfl⟩
    exact hfree c hc hg
  obtain ⟨htot, _⟩ := qtotal_step_eq _ _ _ hfree2
  have hfull : qtotal ((cs.map (child.info a)).map
      (qinfo.step (L - (cs.map (fun c => c.lo a)).sum) (growable_stretch a cs))) = L := by
    rw [htot, qpool_init, qtotal_init, mul_div_assoc, div_self (ne_of_gt hS)]
    ring
  have hq : qloop L 9 (L - (cs.map (fun c => c.lo a)).sum) (growable_stretch a cs)
      (cs.map (child.info a)) 0
      = { info := (cs.map (child.info a)).map
            (qinfo.step (L - (cs.map (fun c => c.lo a)).sum) (growable_stretch a cs)),
          rounds := 1,
          extra := L - qtotal ((cs.map (child.info a)).map
            (qinfo.step (L - (cs.map (fun c => c.lo a)).sum) (growable_stretch a cs))),
          max_stretch := growable_stretch a cs - (0 - ((cs.map (child.info a)).map
            (qinfo.removed (L - (cs.map (fun c => c.lo a)).sum)
              (growable_stretch a cs))).sum) } := by
    unfold qloop
    dsimp only
    rw [if_pos (Or.inr (by rw [hfull]; norm_num))]
  rw [tile_allocation_start, allocate_loop_lift_of_ne L 9 _ _ _ 0 hne, hq]
  refine ⟨rfl, ?_, ?_⟩
  · show List.Forall₂ _ cs (List.map qinfo.lift _)
    rw [List.forall₂_map_right_iff, List.forall₂_map_right_iff, List.forall₂_map_right_iff,
      List.forall₂_same]
    intro c hc
    have hstep := (qstep_alloc_eq (L - (cs.map (fun c => c.lo a)).sum)
      (growable_stretch a cs) (child.info a c) (hfree c hc)).1
    show Flt.fin (qinfo.step _ _ (child.info a c)).alloc = _
    rw [hstep]
    by_cases hg : c.lo a < c.hi a
    · have hp : (child.info a c).pool = c.str a := by
        simp [qinfo.pool, child.info, hg]
      rw [hp, if_pos hg]
      rfl
    · have hp : (child.info a c).pool = 0 := by
        simp [qinfo.pool, child.info, hg]
      rw [hp, if_neg hg]
      simp [child.info]
  · refine ⟨((cs.map (child.info a)).map
      (qinfo.step (L - (cs.map (fun c => c.lo a)).sum) (growable_stretch a cs))).map
        (fun (i : qinfo) => i.alloc), ?_, hfull⟩
    simp [qallocation.lift, qinfo.lift, Function.comp_def]

/-! ## The working state round by round -/

theorem tile_allocation_after_nine (a : axis) (children : List element) (size : Flt) :
    tile_allocation_after a children size 9 = tile_allocation a children size := by
  cases a <;> rfl

theorem tile_allocation_after_start (a : axis) (cs : List child) (L : ℚ) (k : Nat) :
    tile_allocation_after a (cs.map child.elem) (Flt.fin L) k
      = allocate_loop (Flt.fin L) k (Flt.fin (L - (cs.map (fun c => c.lo a)).sum))
          (Flt.fin (growable_stretch a cs)) ((cs.map (child.info a)).map qinfo.lift) 0 := by
  cases a
  · simp [tile_allocation_after, htile_collect_lift, qpool_init, qtotal_init]
  · simp [tile_allocation_after, vtile_collect_lift, qpool_init, qtotal_init]

/-- For valid children and a target length of at least the sum of the minima, the working
state after `k` rounds is the state of the loop on finite records. -/
theorem tile_allocation_after_lift (a : axis) (cs : List child) (L : ℚ) (k : Nat)
    (hvalid : ∀ c ∈ cs, c.lo a ≤ c.hi a ∧ 0 ≤ c.str a)
    (hL : (cs.map (fun c => c.lo a)).sum ≤ L)
    (hpool : (∃ c ∈ cs, c.lo a < c.hi a) → 0 < growable_stretch a cs) :
    tile_allocation_after a (cs.map child.elem) (Flt.fin L) k
      = (qloop L k (L - (cs.map (fun c => c.lo a)).sum) (growable_stretch a cs)
          (cs.map (child.info a)) 0).lift := by
  rw [tile_allocation_after_start]
  exact allocate_loop_lift L k _ _ _ 0 (qinv_init a cs L hvalid hL hpool)

/-- From one round to the next the records of the loop on finite records only grow. -/
theorem qloop_succ_grown (size : ℚ) (k : Nat) :
    ∀ (e m : ℚ) (is : List qinfo) (rounds : Nat), qinv size e m is →
    List.Forall₂ qgrown (qloop size k e m is rounds).info
      (qloop size (k + 1) e m is rounds).info := by
  induction k with
  | zero =>
    intro e m is rounds h
    obtain ⟨_, hgrown⟩ := qinv_step size e m is h
    have h1 : (qloop size (0 + 1) e m is rounds).info = is.map (qinfo.step e m) := by
      unfold qloop
      dsimp only
      split_ifs <;> rfl
    rw [h1]
    exact hgrown
  | succ k ih =>
    intro e m is rounds h
    obtain ⟨hinv, _⟩ := qinv_step size e m is h
    rw [qloop.eq_def size (k + 1), qloop.eq_def size (k + 1 + 1)]
    dsimp only
    split_ifs with hexit
    · exact qgrown_list_refl _ (fun i hi => (hinv.1 i hi).2.1)
    · exact ih _ _ _ (rounds + 1) hinv

/-- A return of the loop before its rounds are used up is a return through the test
`max_stretch < 1 || extra < 0.5`. -/
theorem qloop_exit (size : ℚ) (n : Nat) :
    ∀ (e m : ℚ) (is : List qinfo) (rounds : Nat),
    (qloop size n e m is rounds).rounds < rounds + n →
    (qloop size n e m is rounds).max_stretch < 1 ∨
      (qloop size n e m is rounds).extra < 1 / 2 := by
  induction n with
  | zero =>
    intro e m is rounds h
    unfold qloop at h
    simp at h
  | succ n ih =>
    intro e m is rounds h
    unfold qloop at h ⊢
    dsimp only at h ⊢
    split_ifs at h ⊢ with hexit
    · exact hexit
    · exact ih _ _ _ (rounds + 1) (by omega)

theorem qoffsets_getLast (allocs : List ℚ) : ∀ curr : ℚ,
    (qoffsets curr allocs).getLast? = some (curr + allocs.sum) := by
  induction allocs with
  | nil => intro curr; simp [qoffsets]
  | cons x rest ih =>
    intro curr
    have h := ih (curr + x)
    cases hrest : qoffsets (curr + x) rest with
    | nil => rw [hrest] at h; simp at h
    | cons y ys =>
      rw [hrest] at h
      simp only [qoffsets, hrest, List.getLast?_cons_cons, List.sum_cons]
      rw [h, add_assoc]

/-! ## Overshoot in exact arithmetic -/

/-- In exact arithmetic, for children with `min_i <= max_i` and `stretch_i >= 0` whose
growable stretch sum is positive, and bounds whose primary length `L` is at least `sum min_i`,
after every round of `allocate` (the state after `k` rounds, for every `k`) and on return the
allocations are finite with `sum alloc_i <= L`, the remaining `extra` is non-negative, and the
last offset of the cache written by `layout` is not past the trailing edge of the bounds. -/
theorem no_overshoot_exact (a : axis) (cs : List child) (lead trail : ℚ) (side1 side2 : Flt)
    (k : Nat)
    (hvalid : ∀ c ∈ cs, c.lo a ≤ c.hi a ∧ 0 ≤ c.str a)
    (hS : 0 < growable_stretch a cs)
    (hlo : (cs.map (fun c => c.lo a)).sum ≤ trail - lead) :
    (∃ (allocs : List ℚ) (e : ℚ),
      (tile_allocation_after a (cs.map child.elem) (Flt.fin (trail - lead)) k).info.map
        (fun i => i.alloc) = allocs.map Flt.fin ∧
      allocs.sum ≤ trail - lead ∧
      (tile_allocation_after a (cs.map child.elem) (Flt.fin (trail - lead)) k).extra
        = Flt.fin e ∧
      0 ≤ e) ∧
    (∃ allocs : List ℚ,
      (tile_allocation a (cs.map child.elem) (Flt.fin (trail - lead))).info.map
        (fun i => i.alloc) = allocs.map Flt.fin ∧
      allocs.sum ≤ trail - lead) ∧
    (∃ (ts : List ℚ) (t : ℚ),
      tile_offsets a (cs.map child.elem)
          (rect.of_axis a (Flt.fin lead) (Flt.fin trail) side1 side2) = ts.map Flt.fin ∧
      ts.getLast? = some t ∧ t ≤ trail) := by
  have hpool : (∃ c ∈ cs, c.lo a < c.hi a) → 0 < growable_stretch a cs := fun _ => hS
  have hinit := qinv_init a cs (trail - lead) hvalid hlo hpool
  have hsum : ∀ n : Nat, (((qloop (trail - lead) n
      (trail - lead - (cs.map (fun c => c.lo a)).sum) (growable_stretch a cs)
      (cs.map (child.info a)) 0).info.map (fun (i : qinfo) => i.alloc)).sum ≤ trail - lead) ∧
      0 ≤ (qloop (trail - lead) n (trail - lead - (cs.map (fun c => c.lo a)).sum)
        (growable_stretch a cs) (cs.map (child.info a)) 0).extra := by
    intro n
    obtain ⟨hinv, _⟩ := qloop_inv (trail - lead) n _ _ _ 0 hinit
    have h1 := hinv.2.1
    have h2 := hinv.2.2.1
    unfold qtotal at h1
    exact ⟨by linarith, h2⟩
  refine ⟨?_, ?_, ?_⟩
  · rw [tile_allocation_after_lift a cs (trail - lead) k hvalid hlo hpool]
    refine ⟨_, _, ?_, (hsum k).1, rfl, (hsum k).2⟩
    simp [qallocation.lift, qinfo.lift, Function.comp_def]
  · rw [tile_allocation_lift a cs (trail - lead) hvalid hlo hpool]
    refine ⟨_, ?_, (hsum 9).1⟩
    simp [qallocation.lift, qinfo.lift, Function.comp_def]
  · have hlift := tile_allocation_lift a cs (trail - lead) hvalid hlo hpool
    refine ⟨qoffsets lead ((qloop (trail - lead) 9
        (trail - lead - (cs.map (fun c => c.lo a)).sum) (growable_stretch a cs)
        (cs.map (child.info a)) 0).info.map (fun (i : qinfo) => i.alloc)), _, ?_,
      qoffsets_getLast _ lead, ?_⟩
    · rw [tile_offsets_start]
      cases a
      · simp only
        rw [hlift]
        exact htile_walk_lift _ _ _ _
      · simp only
        rw [hlift]
        exact vtile_walk_lift _ _ _ _
    · have := (hsum 9).1
      linarith

/-! ## Rounding: the exponent -/

namespace Flt

theorem log2_fuel_spec : ∀ (fuel n : ℕ), n ≤ fuel → 1 ≤ n →
    2 ^ log2_fuel fuel n ≤ n ∧ n < 2 ^ (log2_fuel fuel n + 1) := by
  intro fuel
  induction fuel with
  | zero => intro n h1 h2; omega
  | succ f ih =>
    intro n hle hpos
    unfold log2_fuel
    by_cases h : n < 2
    · rw [if_pos h]
      simp
      omega
    · rw [if_neg h]
      obtain ⟨ha, hb⟩ := ih (n / 2) (by omega) (by omega)
      constructor
      · rw [pow_succ]; omega
      · rw [pow_succ]; omega

theorem abs_eq_natAbs_div_den (x : ℚ) : |x| = (x.num.natAbs : ℚ) / (x.den : ℚ) := by
  have h : (x.num : ℚ) / (x.den : ℚ) = x := Rat.num_div_den x
  have hd : (0 : ℚ) < (x.den : ℚ) := by exact_mod_cast x.den_pos
  conv_lhs => rw [← h]
  rw [abs_div, abs_of_pos hd]
  congr 1
  rw [Nat.cast_natAbs]
  simp

theorem ilog2_spec (x : ℚ) (hx : x ≠ 0) :
    (2 : ℚ) ^ ilog2 x ≤ |x| ∧ |x| < (2 : ℚ) ^ (ilog2 x + 1) := by
  have hn : 1 ≤ x.num.natAbs := by
    have : x.num ≠ 0 := Rat.num_ne_zero.mpr hx
    omega
  have hm : 1 ≤ x.den := x.den_pos
  obtain ⟨ha1, ha2⟩ := log2_fuel_spec x.num.natAbs x.num.natAbs le_rfl hn
  obtain ⟨hb1, hb2⟩ := log2_fuel_spec x.den x.den le_rfl hm
  have ha1q : (2 : ℚ) ^ (log2_fuel x.num.natAbs x.num.natAbs) ≤ (x.num.natAbs : ℚ) := by
    exact_mod_cast ha1
  have ha2q : (x.num.natAbs : ℚ) < (2 : ℚ) ^ (log2_fuel x.num.natAbs x.num.natAbs + 1) := by
    exact_mod_cast ha2
  have hb1q : (2 : ℚ) ^ (log2_fuel x.den x.den) ≤ (x.den : ℚ) := by exact_mod_cast hb1
  have hb2q : (x.den : ℚ) < (2 : ℚ) ^ (log2_fuel x.den x.den + 1) := by exact_mod_cast hb2
  have hden : (0 : ℚ) < (x.den : ℚ) := by exact_mod_cast x.den_pos
  have habs := abs_eq_natAbs_div_den x
  set A := log2_fuel x.num.natAbs x.num.natAbs with hA
  set B := log2_fuel x.den x.den with hB
  have h2A : (0 : ℚ) < (2 : ℚ) ^ A := by positivity
  have h2B : (0 : ℚ) < (2 : ℚ) ^ B := by positivity
  have hd : (2 : ℚ) ^ ((A : ℤ) - (B : ℤ)) = (2 : ℚ) ^ A / (2 : ℚ) ^ B := by
    rw [zpow_sub₀ (by norm_num : (2 : ℚ) ≠ 0), zpow_natCast, zpow_natCast]
  unfold ilog2
  simp only
  split_ifs with hc
  · refine ⟨hc, ?_⟩
    rw [zpow_add_one₀ (by norm_num : (2 : ℚ) ≠ 0), hd, habs]
    rw [div_lt_iff₀ hden]
    have : (2 : ℚ) ^ A / (2 : ℚ) ^ B * 2 * (x.den : ℚ)
        = (2 : ℚ) ^ (A + 1) * ((x.den : ℚ) / (2 : ℚ) ^ B) := by
      field_simp
      ring
    rw [this]
    have h1 : (1 : ℚ) ≤ (x.den : ℚ) / (2 : ℚ) ^ B := by
      rw [le_div_iff₀ h2B]; linarith
    calc (x.num.natAbs : ℚ) < (2 : ℚ) ^ (A + 1) := ha2q
      _ = (2 : ℚ) ^ (A + 1) * 1 := by ring
      _ ≤ (2 : ℚ) ^ (A + 1) * ((x.den : ℚ) / (2 : ℚ) ^ B) := by
          apply mul_le_mul_of_nonneg_left h1; positivity
  · push_neg at hc
    constructor
    · rw [hd.symm.symm] at hc
      have h2 : (2 : ℚ) ^ ((A : ℤ) - (B : ℤ) - 1) = (2 : ℚ) ^ A / (2 : ℚ) ^ (B + 1) := by
        rw [zpow_sub_one₀ (by norm_num : (2 : ℚ) ≠ 0), hd, pow_succ]
        field_simp
      rw [h2, habs, div_le_div_iff₀ (by positivity) hden]
      calc (2 : ℚ) ^ A * (x.den : ℚ) ≤ (x.num.natAbs : ℚ) * (x.den : ℚ) := by
            apply mul_le_mul_of_nonneg_right ha1q (le_of_lt hden)
        _ ≤ (x.num.natAbs : ℚ) * (2 : ℚ) ^ (B + 1) := by
            apply mul_le_mul_of_nonneg_left (le_of_lt hb2q); positivity
    · have : (A : ℤ) - (B : ℤ) - 1 + 1 = (A : ℤ) - (B : ℤ) := by ring
      rw [this]
      exact hc

/-- The exponent is characterised by its two bounds. -/
theorem ilog2_unique (x : ℚ) (e : ℤ) (h1 : (2 : ℚ) ^ e ≤ |x|) (h2 : |x| < (2 : ℚ) ^ (e + 1)) :
    ilog2 x = e := by
  have hx : x ≠ 0 := by
    intro h
    rw [h, abs_zero] at h1
    have : (0 : ℚ) < (2 : ℚ) ^ e := by positivity
    linarith
  obtain ⟨g1, g2⟩ := ilog2_spec x hx
  have hlt1 : (2 : ℚ) ^ e < (2 : ℚ) ^ (ilog2 x + 1) := lt_of_le_of_lt h1 g2
  have hlt2 : (2 : ℚ) ^ ilog2 x < (2 : ℚ) ^ (e + 1) := lt_of_le_of_lt g1 h2
  have k1 := (zpow_lt_zpow_iff_right₀ (by norm_num : (1 : ℚ) < 2)).mp hlt1
  have k2 := (zpow_lt_zpow_iff_right₀ (by norm_num : (1 : ℚ) < 2)).mp hlt2
  omega

theorem ilog2_neg (x : ℚ) : ilog2 (-x) = ilog2 x := by
  unfold ilog2
  simp

theorem ilog2_mono (x y : ℚ) (hx : x ≠ 0) (hxy : |x| ≤ |y|) : ilog2 x ≤ ilog2 y := by
  have hy : y ≠ 0 := by
    intro h
    rw [h, abs_zero] at hxy
    exact hx (abs_eq_zero.mp (le_antisymm hxy (abs_nonneg x)))
  obtain ⟨g1, _⟩ := ilog2_spec x hx
  obtain ⟨_, k2⟩ := ilog2_spec y hy
  have hlt : (2 : ℚ) ^ ilog2 x < (2 : ℚ) ^ (ilog2 y + 1) :=
    lt_of_le_of_lt (le_trans g1 hxy) k2
  have := (zpow_lt_zpow_iff_right₀ (by norm_num : (1 : ℚ) < 2)).mp hlt
  omega

end Flt

/-! ## Rounding: the nearest integer -/

namespace Flt

theorem rat_floor_eq (x : ℚ) : Rat.floor x = ⌊x⌋ := rfl

theorem rne_bounds (x : ℚ) : ⌊x⌋ ≤ rne x ∧ rne x ≤ ⌊x⌋ + 1 := by
  unfold rne
  simp only [rat_floor_eq]
  split_ifs <;> constructor <;> omega

theorem rne_int (n : ℤ) : rne (n : ℚ) = n := by
  unfold rne
  simp only [rat_floor_eq, Int.floor_intCast, sub_self]
  norm_num

theorem rne_mono {x y : ℚ} (h : x ≤ y) : rne x ≤ rne y := by
  have hk : ⌊x⌋ ≤ ⌊y⌋ := Int.floor_le_floor h
  rcases lt_or_eq_of_le hk with hlt | heq
  · have h1 := (rne_bounds x).2
    have h2 := (rne_bounds y).1
    omega
  · unfold rne
    simp only [rat_floor_eq]
    rw [← heq]
    have hf : x - (⌊x⌋ : ℚ) ≤ y - (⌊x⌋ : ℚ) := by linarith
    split_ifs <;> first | omega | (exfalso; linarith)

theorem rne_neg (x : ℚ) : rne (-x) = -rne x := by
  by_cases hint : (⌊x⌋ : ℚ) = x
  · rw [← hint, ← Int.cast_neg, rne_int, rne_int]
  · have hlt : (⌊x⌋ : ℚ) < x := lt_of_le_of_ne (Int.floor_le x) hint
    have hlt2 : x < (⌊x⌋ : ℚ) + 1 := Int.lt_floor_add_one x
    have hfl : ⌊-x⌋ = -⌊x⌋ - 1 := by
      rw [Int.floor_eq_iff]
      push_cast
      constructor <;> linarith
    unfold rne
    simp only [rat_floor_eq, hfl]
    push_cast
    split_ifs <;> first | omega | (exfalso; linarith)

theorem rne_nonneg {x : ℚ} (h : 0 ≤ x) : 0 ≤ rne x := by
  have := rne_mono h
  rwa [show ((0 : ℚ) = ((0 : ℤ) : ℚ)) by norm_num, rne_int] at this

theorem rne_le_int {x : ℚ} {n : ℤ} (h : x ≤ n) : rne x ≤ n := by
  have := rne_mono h
  rwa [rne_int] at this

theorem int_le_rne {x : ℚ} {n : ℤ} (h : (n : ℚ) ≤ x) : n ≤ rne x := by
  have := rne_mono h
  rwa [rne_int] at this

end Flt

/-! ## Rounding: the nearest value of a binary format -/

namespace Flt

theorem nearest_zero (p : ℕ) (emin : ℤ) : nearest p emin 0 = 0 := by
  simp [nearest]

theorem nearest_of_ne (p : ℕ) (emin : ℤ) (x : ℚ) (hx : x ≠ 0) :
    nearest p emin x
      = rne (x / (2 : ℚ) ^ (max (ilog2 x) emin - ((p : ℤ) - 1)))
          * (2 : ℚ) ^ (max (ilog2 x) emin - ((p : ℤ) - 1)) := by
  unfold nearest
  rw [if_neg hx]

theorem nearest_neg (p : ℕ) (emin : ℤ) (x : ℚ) :
    nearest p emin (-x) = -nearest p emin x := by
  by_cases hx : x = 0
  · simp [hx, nearest_zero]
  · rw [nearest_of_ne p emin x hx, nearest_of_ne p emin (-x) (neg_ne_zero.mpr hx)]
    simp only [ilog2_neg, neg_div, rne_neg]
    push_cast
    ring

theorem two_zpow_split (p : ℕ) (E : ℤ) :
    (2 : ℚ) ^ (E + 1) = (((2 : ℤ) ^ p : ℤ) : ℚ) * (2 : ℚ) ^ (E - ((p : ℤ) - 1)) := by
  push_cast
  rw [← zpow_natCast (2 : ℚ) p, ← zpow_add₀ (by norm_num : (2 : ℚ) ≠ 0)]
  congr 1
  ring

theorem two_zpow_split_low (p : ℕ) (hp : 1 ≤ p) (E : ℤ) :
    (2 : ℚ) ^ E = (((2 : ℤ) ^ (p - 1) : ℤ) : ℚ) * (2 : ℚ) ^ (E - ((p : ℤ) - 1)) := by
  push_cast
  rw [← zpow_natCast (2 : ℚ) (p - 1), ← zpow_add₀ (by norm_num : (2 : ℚ) ≠ 0)]
  congr 1
  rw [Nat.cast_sub hp]
  push_cast
  ring

/-- The nearest value of a positive rational: a multiple `n * u` of the unit of its exponent
with `0 <= n <= 2 ^ p`, at most the next power of two and, for a normal exponent, at least the
power of two below. -/
theorem nearest_pos (p : ℕ) (hp : 1 ≤ p) (emin : ℤ) (x : ℚ) (hx : 0 < x) :
    ∃ n : ℤ, nearest p emin x = n * (2 : ℚ) ^ (max (ilog2 x) emin - ((p : ℤ) - 1)) ∧
      0 ≤ n ∧ n ≤ 2 ^ p ∧ (emin ≤ ilog2 x → 2 ^ (p - 1) ≤ n) := by
  have hx0 : x ≠ 0 := ne_of_gt hx
  obtain ⟨h1, h2⟩ := ilog2_spec x hx0
  rw [abs_of_pos hx] at h1 h2
  set E := max (ilog2 x) emin with hE
  set U := (2 : ℚ) ^ (E - ((p : ℤ) - 1)) with hU
  have hUpos : 0 < U := by positivity
  refine ⟨rne (x / U), nearest_of_ne p emin x hx0, ?_, ?_, ?_⟩
  · exact rne_nonneg (le_of_lt (div_pos hx hUpos))
  · apply rne_le_int
    rw [div_le_iff₀ hUpos]
    have h3 : (2 : ℚ) ^ (ilog2 x + 1) ≤ (2 : ℚ) ^ (E + 1) :=
      zpow_le_zpow_right₀ (by norm_num) (by have := le_max_left (ilog2 x) emin; omega)
    have h4 := two_zpow_split p E
    push_cast at h4 ⊢
    linarith
  · intro hn
    have hEe : E = ilog2 x := max_eq_left hn
    apply int_le_rne
    rw [le_div_iff₀ hUpos]
    have h4 := two_zpow_split_low p hp E
    rw [hEe] at h4
    rw [hU, hEe]
    push_cast at h4 ⊢
    linarith

theorem nearest_nonneg (p : ℕ) (hp : 1 ≤ p) (emin : ℤ) (x : ℚ) (hx : 0 ≤ x) :
    0 ≤ nearest p emin x := by
  rcases eq_or_lt_of_le hx with h | h
  · rw [← h, nearest_zero]
  · obtain ⟨n, hn, h0, _, _⟩ := nearest_pos p hp emin x h
    rw [hn]
    have : (0 : ℚ) ≤ (n : ℚ) := by exact_mod_cast h0
    positivity

theorem nearest_nonpos (p : ℕ) (hp : 1 ≤ p) (emin : ℤ) (x : ℚ) (hx : x ≤ 0) :
    nearest p emin x ≤ 0 := by
  have h := nearest_nonneg p hp emin (-x) (by linarith)
  rw [nearest_neg] at h
  linarith

theorem nearest_mono_pos (p : ℕ) (hp : 1 ≤ p) (emin : ℤ) (x y : ℚ) (hx : 0 < x)
    (hxy : x ≤ y) : nearest p emin x ≤ nearest p emin y := by
  have hy : 0 < y := lt_of_lt_of_le hx hxy
  have hlog : ilog2 x ≤ ilog2 y :=
    ilog2_mono x y (ne_of_gt hx) (by rw [abs_of_pos hx, abs_of_pos hy]; exact hxy)
  have hE : max (ilog2 x) emin ≤ max (ilog2 y) emin := max_le_max hlog le_rfl
  rcases eq_or_lt_of_le hE with heq | hlt
  · rw [nearest_of_ne p emin x (ne_of_gt hx), nearest_of_ne p emin y (ne_of_gt hy), heq]
    have hUpos : (0 : ℚ) < (2 : ℚ) ^ (max (ilog2 y) emin - ((p : ℤ) - 1)) := by positivity
    apply mul_le_mul_of_nonneg_right _ (le_of_lt hUpos)
    have : rne (x / (2 : ℚ) ^ (max (ilog2 y) emin - ((p : ℤ) - 1)))
        ≤ rne (y / (2 : ℚ) ^ (max (ilog2 y) emin - ((p : ℤ) - 1))) :=
      rne_mono (div_le_div_of_nonneg_right hxy (le_of_lt hUpos))
    exact_mod_cast this
  · obtain ⟨n, hn, _, hn2, _⟩ := nearest_pos p hp emin x hx
    obtain ⟨m, hm, _, _, hm2⟩ := nearest_pos p hp emin y hy
    have hemin : emin ≤ ilog2 y := by
      by_contra hcon
      have h1 : max (ilog2 y) emin = emin := max_eq_right (by omega)
      have h2 := le_max_right (ilog2 x) emin
      omega
    have hEy : max (ilog2 y) emin = ilog2 y := max_eq_left hemin
    have hm3 := hm2 hemin
    rw [hn, hm]
    have k1 := two_zpow_split p (max (ilog2 x) emin)
    have k2 := two_zpow_split_low p hp (max (ilog2 y) emin)
    have k3 : (2 : ℚ) ^ (max (ilog2 x) emin + 1) ≤ (2 : ℚ) ^ (max (ilog2 y) emin) :=
      zpow_le_zpow_right₀ (by norm_num) (by omega)
    have hU1 : (0 : ℚ) < (2 : ℚ) ^ (max (ilog2 x) emin - ((p : ℤ) - 1)) := by positivity
    have hU2 : (0 : ℚ) < (2 : ℚ) ^ (max (ilog2 y) emin - ((p : ℤ) - 1)) := by positivity
    have a1 : (n : ℚ) * (2 : ℚ) ^ (max (ilog2 x) emin - ((p : ℤ) - 1))
        ≤ (((2 : ℤ) ^ p : ℤ) : ℚ) * (2 : ℚ) ^ (max (ilog2 x) emin - ((p : ℤ) - 1)) := by
      apply mul_le_mul_of_nonneg_right _ (le_of_lt hU1)
      exact_mod_cast hn2
    have a2 : (((2 : ℤ) ^ (p - 1) : ℤ) : ℚ) * (2 : ℚ) ^ (max (ilog2 y) emin - ((p : ℤ) - 1))
        ≤ (m : ℚ) * (2 : ℚ) ^ (max (ilog2 y) emin - ((p : ℤ) - 1)) := by
      apply mul_le_mul_of_nonneg_right _ (le_of_lt hU2)
      exact_mod_cast hm3
    linarith

/-- Rounding to the nearest value is monotone. -/
theorem nearest_mono (p : ℕ) (hp : 1 ≤ p) (emin : ℤ) (x y : ℚ) (hxy : x ≤ y) :
    nearest p emin x ≤ nearest p emin y := by
  rcases lt_trichotomy 0 x with hx | hx | hx
  · exact nearest_mono_pos p hp emin x y hx hxy
  · rw [← hx, nearest_zero]
    exact nearest_nonneg p hp emin y (by linarith)
  · rcases le_or_lt 0 y with hy | hy
    · exact le_trans (nearest_nonpos p hp emin x (le_of_lt hx)) (nearest_nonneg p hp emin y hy)
    · have h := nearest_mono_pos p hp emin (-y) (-x) (by linarith) (by linarith)
      rw [nearest_neg, nearest_neg] at h
      linarith

end Flt

/-! ## Rounding: the values of a format -/

namespace Flt

/-- A multiple `n * 2 ^ e` of a power of two with `|n| < 2 ^ p` and `e` not below the least
unit of the format is a value of the format: rounding leaves it unchanged. -/
theorem nearest_of_form (p : ℕ) (emin : ℤ) (n e : ℤ) (hn : |n| < 2 ^ p)
    (he : emin - ((p : ℤ) - 1) ≤ e) :
    nearest p emin ((n : ℚ) * (2 : ℚ) ^ e) = (n : ℚ) * (2 : ℚ) ^ e := by
  by_cases hn0 : n = 0
  · simp [hn0, nearest_zero]
  · have h2e : (0 : ℚ) < (2 : ℚ) ^ e := by positivity
    have hy0 : (n : ℚ) * (2 : ℚ) ^ e ≠ 0 :=
      mul_ne_zero (by exact_mod_cast hn0) (ne_of_gt h2e)
    obtain ⟨h1, _⟩ := ilog2_spec _ hy0
    have habs : |(n : ℚ) * (2 : ℚ) ^ e| < (2 : ℚ) ^ ((p : ℤ) + e) := by
      rw [abs_mul, abs_of_pos h2e, zpow_add₀ (by norm_num : (2 : ℚ) ≠ 0), zpow_natCast]
      apply mul_lt_mul_of_pos_right _ h2e
      have : ((|n| : ℤ) : ℚ) < (((2 : ℤ) ^ p : ℤ) : ℚ) := by exact_mod_cast hn
      push_cast at this
      exact this
    have hlog : ilog2 ((n : ℚ) * (2 : ℚ) ^ e) < (p : ℤ) + e :=
      (zpow_lt_zpow_iff_right₀ (by norm_num : (1 : ℚ) < 2)).mp (lt_of_le_of_lt h1 habs)
    rw [nearest_of_ne p emin _ hy0]
    set E := max (ilog2 ((n : ℚ) * (2 : ℚ) ^ e)) emin with hE
    have hEle : E ≤ e + ((p : ℤ) - 1) := max_le (by omega) (by omega)
    obtain ⟨k, hk⟩ : ∃ k : ℕ, (k : ℤ) = e - (E - ((p : ℤ) - 1)) :=
      ⟨(e - (E - ((p : ℤ) - 1))).toNat, Int.toNat_of_nonneg (by omega)⟩
    have hsplit : (2 : ℚ) ^ e = (2 : ℚ) ^ k * (2 : ℚ) ^ (E - ((p : ℤ) - 1)) := by
      rw [← zpow_natCast (2 : ℚ) k, ← zpow_add₀ (by norm_num : (2 : ℚ) ≠ 0), hk]
      congr 1
      ring
    have hU : (0 : ℚ) < (2 : ℚ) ^ (E - ((p : ℤ) - 1)) := by positivity
    have hdiv : (n : ℚ) * (2 : ℚ) ^ e / (2 : ℚ) ^ (E - ((p : ℤ) - 1))
        = ((n * 2 ^ k : ℤ) : ℚ) := by
      rw [hsplit]
      push_cast
      field_simp
      ring
    rw [hdiv, rne_int, hsplit]
    push_cast
    ring

/-- The nearest value is a multiple `n * 2 ^ e` with `|n| < 2 ^ p` and `e` not below the least
unit of the format. -/
theorem nearest_form (p : ℕ) (hp : 1 ≤ p) (emin : ℤ) (x : ℚ) :
    ∃ n e : ℤ, nearest p emin x = (n : ℚ) * (2 : ℚ) ^ e ∧ |n| < 2 ^ p ∧
      emin - ((p : ℤ) - 1) ≤ e := by
  have hpos : ∀ z : ℚ, 0 < z → ∃ n e : ℤ, nearest p emin z = (n : ℚ) * (2 : ℚ) ^ e ∧
      |n| < 2 ^ p ∧ emin - ((p : ℤ) - 1) ≤ e := by
    intro z hz
    obtain ⟨n, hn, h0, h1, _⟩ := nearest_pos p hp emin z hz
    have hE : emin ≤ max (ilog2 z) emin := le_max_right _ _
    rcases lt_or_eq_of_le h1 with hlt | heq
    · exact ⟨n, _, hn, by rw [abs_of_nonneg h0]; exact hlt, by omega⟩
    · refine ⟨2 ^ (p - 1), max (ilog2 z) emin - ((p : ℤ) - 1) + 1, ?_, ?_, by omega⟩
      · rw [hn, heq, zpow_add_one₀ (by norm_num : (2 : ℚ) ≠ 0)]
        have : (2 : ℤ) ^ p = 2 ^ (p - 1) * 2 := by
          rw [← pow_succ]
          congr 1
          omega
        rw [this]
        push_cast
        ring
      · rw [abs_of_nonneg (by positivity)]
        exact pow_lt_pow_right₀ (by norm_num) (by omega)
  rcases lt_trichotomy 0 x with hx | hx | hx
  · exact hpos x hx
  · refine ⟨0, emin - ((p : ℤ) - 1), ?_, ?_, le_rfl⟩
    · rw [← hx, nearest_zero]; simp
    · simp
  · obtain ⟨n, e, hn, h1, h2⟩ := hpos (-x) (by linarith)
    refine ⟨-n, e, ?_, by rwa [abs_neg], h2⟩
    rw [nearest_neg] at hn
    push_cast
    linarith

theorem nearest_idem (p : ℕ) (hp : 1 ≤ p) (emin : ℤ) (x : ℚ) :
    nearest p emin (nearest p emin x) = nearest p emin x := by
  obtain ⟨n, e, hn, h1, h2⟩ := nearest_form p hp emin x
  rw [hn]
  exact nearest_of_form p emin n e h1 h2

theorem ieee_round_fin_iff (p : ℕ) (emin emax : ℤ) (x y : ℚ) :
    ieee_round p emin emax x = fin y ↔
      nearest p emin x = y ∧ |y| < (2 : ℚ) ^ (emax + 1) := by
  unfold ieee_round
  simp only
  constructor
  · intro h
    split_ifs at h with h1 h2
    · injection h with h
      subst h
      exact ⟨rfl, not_le.mp h1⟩
  · rintro ⟨h1, h2⟩
    rw [h1, if_neg (not_le.mpr h2)]

theorem ieee_round_ne_nan (p : ℕ) (emin emax : ℤ) (x : ℚ) :
    ieee_round p emin emax x ≠ nan := by
  unfold ieee_round
  simp only
  split_ifs <;> simp

/-- Rounding is idempotent: a value of the format rounds to itself. -/
theorem ieee_round_idem (p : ℕ) (hp : 1 ≤ p) (emin emax : ℤ) (x y : ℚ)
    (h : ieee_round p emin emax x = fin y) : ieee_round p emin emax y = fin y := by
  obtain ⟨h1, h2⟩ := (ieee_round_fin_iff p emin emax x y).mp h
  refine (ieee_round_fin_iff p emin emax y y).mpr ⟨?_, h2⟩
  rw [← h1]
  exact nearest_idem p hp emin x

/-- Rounding is monotone, the infinities taken as the least and the greatest value. -/
theorem ieee_round_mono (p : ℕ) (hp : 1 ≤ p) (emin emax : ℤ) (x y : ℚ) (hxy : x ≤ y) :
    ge (ieee_round p emin emax y) (ieee_round p emin emax x) = true := by
  have hm := nearest_mono p hp emin x y hxy
  have hT : (0 : ℚ) < (2 : ℚ) ^ (emax + 1) := by positivity
  unfold ieee_round
  simp only
  by_cases hx : (2 : ℚ) ^ (emax + 1) ≤ |nearest p emin x|
  · rw [if_pos hx]
    by_cases hx0 : 0 < x
    · have hnx : 0 ≤ nearest p emin x := nearest_nonneg p hp emin x (le_of_lt hx0)
      rw [abs_of_nonneg hnx] at hx
      have hy : (2 : ℚ) ^ (emax + 1) ≤ |nearest p emin y| := by
        rw [abs_of_nonneg (le_trans hnx hm)]
        linarith
      rw [if_pos hx0, if_pos hy, if_pos (lt_of_lt_of_le hx0 hxy)]
      rfl
    · rw [if_neg hx0]
      split_ifs <;> rfl
  · rw [if_neg hx]
    push_neg at hx
    by_cases hy : (2 : ℚ) ^ (emax + 1) ≤ |nearest p emin y|
    · rw [if_pos hy]
      by_cases hy0 : 0 < y
      · rw [if_pos hy0]; rfl
      · exfalso
        have hny : nearest p emin y ≤ 0 := nearest_nonpos p hp emin y (not_lt.mp hy0)
        rw [abs_of_nonpos hny] at hy
        have hnx : nearest p emin x ≤ 0 := le_trans hm hny
        rw [abs_of_nonpos hnx] at hx
        linarith
    · rw [if_neg hy]
      simp [ge, hm]

theorem binary32_idem (x y : ℚ) (h : binary32 x = fin y) : binary32 y = fin y :=
  ieee_round_idem 24 (by norm_num) _ _ x y h

theorem binary64_idem (x y : ℚ) (h : binary64 x = fin y) : binary64 y = fin y :=
  ieee_round_idem 53 (by norm_num) _ _ x y h

/-- Every `float` is a `double`: the conversion from binary32 to binary64 is exact. -/
theorem binary64_of_binary32 (x y : ℚ) (h : binary32 x = fin y) : binary64 y = fin y := by
  obtain ⟨h1, h2⟩ := (ieee_round_fin_iff 24 (-126) 127 x y).mp h
  obtain ⟨n, e, hn, k1, k2⟩ := nearest_form 24 (by norm_num) (-126) x
  rw [h1] at hn
  refine (ieee_round_fin_iff 53 (-1022) 1023 y y).mpr ⟨?_, ?_⟩
  · rw [hn]
    apply nearest_of_form
    · have : (2 : ℤ) ^ 24 < 2 ^ 53 := by norm_num
      omega
    · push_cast at k2 ⊢
      omega
  · have : (2 : ℚ) ^ ((127 : ℤ) + 1) ≤ (2 : ℚ) ^ ((1023 : ℤ) + 1) :=
      zpow_le_zpow_right₀ (by norm_num) (by norm_num)
    linarith

end Flt

/-! ## Rounding: order and the two formats -/

namespace Flt

theorem ieee_round_zero (p : ℕ) (emin emax : ℤ) : ieee_round p emin emax 0 = fin 0 := by
  refine (ieee_round_fin_iff p emin emax 0 0).mpr ⟨nearest_zero p emin, ?_⟩
  rw [abs_zero]
  positivity

theorem ieee_round_ge (p : ℕ) (hp : 1 ≤ p) (emin emax : ℤ) (g x : ℚ)
    (hg : ieee_round p emin emax g = fin g) (h : g ≤ x) :
    (∃ y : ℚ, ieee_round p emin emax x = fin y ∧ g ≤ y ∧ ieee_round p emin emax y = fin y) ∨
      ieee_round p emin emax x = pinf := by
  have hm := ieee_round_mono p hp emin emax g x h
  rw [hg] at hm
  cases hx : ieee_round p emin emax x with
  | fin y =>
    left
    rw [hx] at hm
    exact ⟨y, rfl, by simpa [ge] using hm, ieee_round_idem p hp emin emax x y hx⟩
  | pinf => right; rfl
  | ninf => rw [hx] at hm; simp [ge] at hm
  | nan => exact absurd hx (ieee_round_ne_nan p emin emax x)

theorem ieee_round_le (p : ℕ) (hp : 1 ≤ p) (emin emax : ℤ) (g x : ℚ)
    (hg : ieee_round p emin emax g = fin g) (h : x ≤ g) :
    (∃ y : ℚ, ieee_round p emin emax x = fin y ∧ y ≤ g ∧ ieee_round p emin emax y = fin y) ∨
      ieee_round p emin emax x = ninf := by
  have hm := ieee_round_mono p hp emin emax x g h
  rw [hg] at hm
  cases hx : ieee_round p emin emax x with
  | fin y =>
    left
    rw [hx] at hm
    exact ⟨y, rfl, by simpa [ge] using hm, ieee_round_idem p hp emin emax x y hx⟩
  | pinf => rw [hx] at hm; simp [ge] at hm
  | ninf => right; rfl
  | nan => exact absurd hx (ieee_round_ne_nan p emin emax x)

theorem ieee_round_between (p : ℕ) (hp : 1 ≤ p) (emin emax : ℤ) (g1 g2 x : ℚ)
    (hg1 : ieee_round p emin emax g1 = fin g1) (hg2 : ieee_round p emin emax g2 = fin g2)
    (h1 : g1 ≤ x) (h2 : x ≤ g2) :
    ∃ y : ℚ, ieee_round p emin emax x = fin y ∧ g1 ≤ y ∧ y ≤ g2 ∧
      ieee_round p emin emax y = fin y := by
  rcases ieee_round_ge p hp emin emax g1 x hg1 h1 with ⟨y, hy, hy1, hy2⟩ | hinf
  · rcases ieee_round_le p hp emin emax g2 x hg2 h2 with ⟨z, hz, hz1, _⟩ | hninf
    · rw [hy] at hz
      injection hz with hz
      subst hz
      exact ⟨y, hy, hy1, hz1, hy2⟩
    · rw [hy] at hninf; cases hninf
  · rcases ieee_round_le p hp emin emax g2 x hg2 h2 with ⟨z, hz, _, _⟩ | hninf
    · rw [hinf] at hz; cases hz
    · rw [hinf] at hninf; cases hninf

theorem binary32_zero : binary32 0 = fin 0 := ieee_round_zero _ _ _

theorem binary64_zero : binary64 0 = fin 0 := ieee_round_zero _ _ _

theorem binary32_ge (g x : ℚ) (hg : binary32 g = fin g) (h : g ≤ x) :
    (∃ y : ℚ, binary32 x = fin y ∧ g ≤ y ∧ binary32 y = fin y) ∨ binary32 x = pinf :=
  ieee_round_ge 24 (by norm_num) _ _ g x hg h

theorem binary32_le (g x : ℚ) (hg : binary32 g = fin g) (h : x ≤ g) :
    (∃ y : ℚ, binary32 x = fin y ∧ y ≤ g ∧ binary32 y = fin y) ∨ binary32 x = ninf :=
  ieee_round_le 24 (by norm_num) _ _ g x hg h

theorem binary64_ge (g x : ℚ) (hg : binary64 g = fin g) (h : g ≤ x) :
    (∃ y : ℚ, binary64 x = fin y ∧ g ≤ y ∧ binary64 y = fin y) ∨ binary64 x = pinf :=
  ieee_round_ge 53 (by norm_num) _ _ g x hg h

theorem binary64_le (g x : ℚ) (hg : binary64 g = fin g) (h : x ≤ g) :
    (∃ y : ℚ, binary64 x = fin y ∧ y ≤ g ∧ binary64 y = fin y) ∨ binary64 x = ninf :=
  ieee_round_le 53 (by norm_num) _ _ g x hg h

theorem binary64_between (g1 g2 x : ℚ) (hg1 : binary64 g1 = fin g1)
    (hg2 : binary64 g2 = fin g2) (h1 : g1 ≤ x) (h2 : x ≤ g2) :
    ∃ y : ℚ, binary64 x = fin y ∧ g1 ≤ y ∧ y ≤ g2 ∧ binary64 y = fin y :=
  ieee_round_between 53 (by norm_num) _ _ g1 g2 x hg1 hg2 h1 h2

/-- A finite `float` is below `2 ^ 128` in absolute value. -/
theorem binary32_bound (x y : ℚ) (h : binary32 x = fin y) : |y| < (2 : ℚ) ^ (128 : ℕ) := by
  have h2 := ((ieee_round_fin_iff 24 (-126) 127 x y).mp h).2
  have : ((127 : ℤ) + 1) = ((128 : ℕ) : ℤ) := by norm_num
  rw [this, zpow_natCast] at h2
  exact h2

/-- The power `2 ^ 256` is a `double`. -/
theorem binary64_two_pow_256 : binary64 ((2 : ℚ) ^ (256 : ℕ)) = fin ((2 : ℚ) ^ (256 : ℕ)) := by
  refine (ieee_round_fin_iff 53 (-1022) 1023 _ _).mpr ⟨?_, ?_⟩
  · have h := nearest_of_form 53 (-1022) 1 256 (by norm_num) (by norm_num)
    have e : ((1 : ℤ) : ℚ) * (2 : ℚ) ^ (256 : ℤ) = (2 : ℚ) ^ (256 : ℕ) := by
      rw [show ((256 : ℤ) = ((256 : ℕ) : ℤ)) by norm_num, zpow_natCast]
      simp
    rw [e] at h
    exact h
  · rw [abs_of_pos (by positivity)]
    have : ((1023 : ℤ) + 1) = ((1024 : ℕ) : ℤ) := by norm_num
    rw [this, zpow_natCast]
    exact pow_lt_pow_right₀ (by norm_num) (by norm_num)

@[simp] theorem to_float_fin (q : ℚ) : (fin q).to_float = binary32 q := rfl

@[simp] theorem to_double_fin (q : ℚ) : (fin q).to_double = binary64 q := rfl

@[simp] theorem to_float_pinf : pinf.to_float = pinf := rfl

@[simp] theorem to_float_ninf : ninf.to_float = ninf := rfl

@[simp] theorem to_double_pinf : pinf.to_double = pinf := rfl

@[simp] theorem to_double_ninf : ninf.to_double = ninf := rfl

theorem is_float_fin (q : ℚ) : (fin q).is_float = true ↔ binary32 q = fin q := by
  simp [is_float]

theorem is_double_fin (q : ℚ) : (fin q).is_double = true ↔ binary64 q = fin q := by
  simp [is_double]

/-- The result of a conversion to `float` is a `float`. -/
theorem to_float_idem (x : Flt) : x.to_float.to_float = x.to_float := by
  cases x with
  | fin q =>
    show (binary32 q).to_float = binary32 q
    cases h : binary32 q with
    | fin y => exact binary32_idem q y h
    | pinf => rfl
    | ninf => rfl
    | nan => rfl
  | pinf => rfl
  | ninf => rfl
  | nan => rfl

/-- The result of a conversion to `double` is a `double`. -/
theorem to_double_idem (x : Flt) : x.to_double.to_double = x.to_double := by
  cases x with
  | fin q =>
    show (binary64 q).to_double = binary64 q
    cases h : binary64 q with
    | fin y => exact binary64_idem q y h
    | pinf => rfl
    | ninf => rfl
    | nan => rfl
  | pinf => rfl
  | ninf => rfl
  | nan => rfl

/-- A `float` converts to `double` without change. -/
theorem to_double_of_is_float (x : Flt) (h : x.is_float = true) : x.to_double = x := by
  cases x with
  | fin q => exact binary64_of_binary32 q q ((is_float_fin q).mp h)
  | pinf => rfl
  | ninf => rfl
  | nan => rfl

/-- The conversions are monotone in the order of `>=`. -/
theorem to_float_mono (a b : Flt) (h : ge b a = true) : ge b.to_float a.to_float = true := by
  cases a <;> cases b <;> simp [ge] at h ⊢
  · exact ieee_round_mono 24 (by norm_num) _ _ _ _ h
  · rename_i q
    cases hq : binary32 q <;> simp [ge]
    exact absurd hq (ieee_round_ne_nan _ _ _ _)
  · rename_i q
    cases hq : binary32 q <;> simp [ge]
    exact absurd hq (ieee_round_ne_nan _ _ _ _)

theorem to_double_mono (a b : Flt) (h : ge b a = true) : ge b.to_double a.to_double = true := by
  cases a <;> cases b <;> simp [ge] at h ⊢
  · exact ieee_round_mono 53 (by norm_num) _ _ _ _ h
  · rename_i q
    cases hq : binary64 q <;> simp [ge]
    exact absurd hq (ieee_round_ne_nan _ _ _ _)
  · rename_i q
    cases hq : binary64 q <;> simp [ge]
    exact absurd hq (ieee_round_ne_nan _ _ _ _)

end Flt

/-! ## The allocation loop in floating point: one record -/

theorem fp_share (L e s : ℚ) (m : Flt) (hL : |L| < (2 : ℚ) ^ (128 : ℕ)) (he0 : 0 ≤ e)
    (heL : e ≤ L) (hs0 : 0 ≤ s) (hs : Flt.binary32 s = Flt.fin s) (hm : fp.nonneg m)
    (hm0 : m ≠ Flt.fin 0) :
    (∃ q : ℚ, ((Flt.fin e * Flt.fin s).to_double / m).to_double = Flt.fin q ∧ 0 ≤ q) ∨
      ((Flt.fin e * Flt.fin s).to_double / m).to_double = Flt.pinf := by
  have hsb := Flt.binary32_bound s s hs
  rw [abs_of_nonneg hs0] at hsb
  have hLb : L < (2 : ℚ) ^ (128 : ℕ) := lt_of_le_of_lt (le_abs_self L) hL
  have hes : e * s ≤ (2 : ℚ) ^ (256 : ℕ) := by
    have h1 : e * s ≤ (2 : ℚ) ^ (128 : ℕ) * (2 : ℚ) ^ (128 : ℕ) :=
      mul_le_mul (by linarith) (le_of_lt hsb) hs0 (by positivity)
    have h2 : (2 : ℚ) ^ (128 : ℕ) * (2 : ℚ) ^ (128 : ℕ) = (2 : ℚ) ^ (256 : ℕ) := by
      rw [← pow_add]
    linarith
  obtain ⟨P, hP, hP0, _, _⟩ := Flt.binary64_between 0 ((2 : ℚ) ^ (256 : ℕ)) (e * s)
    Flt.binary64_zero Flt.binary64_two_pow_256 (mul_nonneg he0 hs0) hes
  have hp : (Flt.fin e * Flt.fin s).to_double = Flt.fin P := by
    rw [Flt.fin_mul_fin, Flt.to_double_fin, hP]
  rw [hp]
  rcases hm with ⟨M, hM, hM0, _⟩ | hinf
  · subst hM
    have hMne : M ≠ 0 := by
      intro h
      exact hm0 (by rw [h])
    rw [Flt.fin_div_fin_of_ne P M hMne, Flt.to_double_fin]
    have hMpos : 0 < M := lt_of_le_of_ne hM0 (Ne.symm hMne)
    rcases Flt.binary64_ge 0 (P / M) Flt.binary64_zero (div_nonneg hP0 hM0) with
      ⟨Q, hQ, hQ0, _⟩ | hQ
    · exact Or.inl ⟨Q, hQ, hQ0⟩
    · exact Or.inr hQ
  · subst hinf
    left
    refine ⟨0, ?_, le_rfl⟩
    show (Flt.fin 0).to_double = Flt.fin 0
    exact Flt.binary64_zero

theorem fp_grow (a : ℚ) (q : Flt) (ha : Flt.binary32 a = Flt.fin a)
    (hq : (∃ x : ℚ, q = Flt.fin x ∧ 0 ≤ x) ∨ q = Flt.pinf) :
    (∃ A : ℚ, (Flt.fin a + q).to_double.to_float = Flt.fin A ∧ a ≤ A ∧
        Flt.binary32 A = Flt.fin A) ∨
      (Flt.fin a + q).to_double.to_float = Flt.pinf := by
  have ha64 : Flt.binary64 a = Flt.fin a := Flt.binary64_of_binary32 a a ha
  rcases hq with ⟨x, hx, hx0⟩ | hinf
  · subst hx
    rw [Flt.fin_add_fin, Flt.to_double_fin]
    rcases Flt.binary64_ge a (a + x) ha64 (by linarith) with ⟨D, hD, hDa, _⟩ | hD
    · rw [hD, Flt.to_float_fin]
      rcases Flt.binary32_ge a D ha hDa with ⟨A, hA, hAa, hAA⟩ | hA
      · exact Or.inl ⟨A, hA, hAa, hAA⟩
      · exact Or.inr hA
    · rw [hD]
      exact Or.inr rfl
  · subst hinf
    exact Or.inr rfl

theorem fp_remove (rs : Flt) (s : ℚ) (hs0 : 0 ≤ s) (hrs : fp.nonpos rs) :
    fp.nonpos (rs - Flt.fin s).to_double := by
  rcases hrs with ⟨r, hr, hr0, hr64⟩ | hinf
  · subst hr
    rw [Flt.fin_sub_fin, Flt.to_double_fin]
    rcases Flt.binary64_le r (r - s) hr64 (by linarith) with ⟨y, hy, hyr, hyy⟩ | hy
    · exact Or.inl ⟨y, hy, by linarith, hyy⟩
    · exact Or.inr hy
  · subst hinf
    exact Or.inr rfl

/-- One record through the body of the inner loop, in floating point: the record stays
within its limits, its allocation does not shrink, and `remove_stretch` stays non-positive. -/
theorem fp_allocate_elem_inv (L e : ℚ) (m rs : Flt) (i : qinfo)
    (hL : |L| < (2 : ℚ) ^ (128 : ℕ)) (he0 : 0 ≤ e) (heL : e ≤ L) (hi : fp.valid i)
    (hm : fp.nonneg m) (hm0 : i.alloc < i.max → m ≠ Flt.fin 0) (hrs : fp.nonpos rs) :
    ∃ (j : qinfo) (rs1 : Flt),
      fp.allocate_elem (Flt.fin e) m i.lift rs = (j.lift, rs1) ∧
      fp.valid j ∧ qgrown i j ∧ fp.nonpos rs1 := by
  obtain ⟨hlo0, hlo, hhi, hs0, hmax32, hs32, ha32⟩ := hi
  unfold fp.allocate_elem
  by_cases hg : i.alloc < i.max
  · have hlt : Flt.lt i.lift.alloc i.lift.max = true := by simp [qinfo.lift, hg]
    rw [if_pos hlt]
    simp only
    have hshare := fp_share L e i.stretch m hL he0 heL hs0 hs32 hm (hm0 hg)
    have hq : (∃ x : ℚ, ((Flt.fin e * i.lift.stretch).to_double / m).to_double = Flt.fin x ∧
        0 ≤ x) ∨ ((Flt.fin e * i.lift.stretch).to_double / m).to_double = Flt.pinf := hshare
    have hgrow := fp_grow i.alloc ((Flt.fin e * i.lift.stretch).to_double / m).to_double
      ha32 hq
    have hgrow2 : (∃ A : ℚ, (i.lift.alloc +
        ((Flt.fin e * i.lift.stretch).to_double / m).to_double).to_double.to_float
          = Flt.fin A ∧ i.alloc ≤ A ∧ Flt.binary32 A = Flt.fin A) ∨
        (i.lift.alloc + ((Flt.fin e * i.lift.stretch).to_double / m).to_double).to_double.to_float
          = Flt.pinf := hgrow
    have hclamp : ∃ (j : qinfo) (rs1 : Flt),
        (({ i.lift with alloc := i.lift.max } : layout_info),
          (rs - i.lift.stretch).to_double) = (j.lift, rs1) ∧
        fp.valid j ∧ qgrown i j ∧ fp.nonpos rs1 :=
      ⟨{ i with alloc := i.max }, (rs - Flt.fin i.stretch).to_double, rfl,
        ⟨hlo0, le_trans hlo hhi, le_rfl, hs0, hmax32, hs32, hmax32⟩,
        ⟨rfl, rfl, rfl, hhi, le_rfl⟩, fp_remove rs i.stretch hs0 hrs⟩
    rcases hgrow2 with ⟨A, hA, hAa, hAA⟩ | hinf
    · rw [hA]
      by_cases hc : i.max ≤ A
      · have hge : Flt.ge (Flt.fin A) i.lift.max = true := by simp [qinfo.lift, hc]
        rw [if_pos hge]
        exact hclamp
      · have hge : ¬ Flt.ge (Flt.fin A) i.lift.max = true := by simp [qinfo.lift, hc]
        rw [if_neg hge]
        push_neg at hc
        exact ⟨{ i with alloc := A }, rs, rfl,
          ⟨hlo0, le_trans hlo hAa, le_of_lt hc, hs0, hmax32, hs32, hAA⟩,
          ⟨rfl, rfl, rfl, hAa, le_of_lt hc⟩, hrs⟩
    · rw [hinf]
      have hge : Flt.ge Flt.pinf i.lift.max = true := by simp [qinfo.lift, Flt.ge]
      rw [if_pos hge]
      exact hclamp
  · have hlt : ¬ Flt.lt i.lift.alloc i.lift.max = true := by simp [qinfo.lift, hg]
    rw [if_neg hlt]
    exact ⟨i, rs, rfl, ⟨hlo0, hlo, hhi, hs0, hmax32, hs32, ha32⟩,
      ⟨rfl, rfl, rfl, le_rfl, hhi⟩, hrs⟩

/-! ## The allocation loop in floating point: rounds -/

theorem fp_total_step (total : Flt) (a : ℚ) (ha : 0 ≤ a) (ht : fp.nonneg total) :
    fp.nonneg (total + Flt.fin a).to_double := by
  rcases ht with ⟨t, ht, ht0, _⟩ | hinf
  · subst ht
    rw [Flt.fin_add_fin, Flt.to_double_fin]
    rcases Flt.binary64_ge 0 (t + a) Flt.binary64_zero (by linarith) with ⟨y, hy, hy0, hyy⟩ | hy
    · exact Or.inl ⟨y, hy, hy0, hyy⟩
    · exact Or.inr hy
  · subst hinf
    exact Or.inr rfl

theorem fp_pool_step (m rs : Flt) (hm : fp.nonneg m) (hrs : fp.nonpos rs) :
    fp.nonneg (m - rs).to_double ∧ (m ≠ Flt.fin 0 → (m - rs).to_double ≠ Flt.fin 0) := by
  rcases hm with ⟨M, hM, hM0, hM64⟩ | hinf
  · subst hM
    rcases hrs with ⟨r, hr, hr0, _⟩ | hninf
    · subst hr
      rw [Flt.fin_sub_fin, Flt.to_double_fin]
      rcases Flt.binary64_ge M (M - r) hM64 (by linarith) with ⟨y, hy, hyM, hyy⟩ | hy
      · refine ⟨Or.inl ⟨y, hy, by linarith, hyy⟩, ?_⟩
        intro hne
        rw [hy]
        intro h
        injection h with h
        apply hne
        have : M = 0 := by linarith
        rw [this]
      · rw [hy]
        exact ⟨Or.inr rfl, fun _ h => by cases h⟩
    · subst hninf
      exact ⟨Or.inr rfl, fun _ h => by cases h⟩
  · subst hinf
    rcases hrs with ⟨r, hr, _, _⟩ | hninf
    · subst hr
      exact ⟨Or.inr rfl, fun _ h => by cases h⟩
    · subst hninf
      exact ⟨Or.inr rfl, fun _ h => by cases h⟩

/-- One pass of the inner loop in floating point keeps the records within their limits. -/
theorem fp_allocate_pass_inv (L e : ℚ) (m : Flt) (hL : |L| < (2 : ℚ) ^ (128 : ℕ))
    (he0 : 0 ≤ e) (heL : e ≤ L) (hm : fp.nonneg m) :
    ∀ (is : List qinfo) (rs total : Flt), (∀ i ∈ is, fp.valid i) →
      ((∃ i ∈ is, i.alloc < i.max) → m ≠ Flt.fin 0) → fp.nonpos rs → fp.nonneg total →
      ∃ (js : List qinfo) (rs1 total1 : Flt),
        fp.allocate_pass (Flt.fin e) m (is.map qinfo.lift) rs total
          = (js.map qinfo.lift, rs1, total1) ∧
        (∀ j ∈ js, fp.valid j) ∧ List.Forall₂ qgrown is js ∧ fp.nonpos rs1 ∧
        fp.nonneg total1 := by
  intro is
  induction is with
  | nil =>
    intro rs total _ _ hrs ht
    exact ⟨[], rs, total, rfl, by simp, List.Forall₂.nil, hrs, ht⟩
  | cons i rest ih =>
    intro rs total hv hm0 hrs ht
    obtain ⟨j, rs1, hstep, hj, hgrown, hrs1⟩ := fp_allocate_elem_inv L e m rs i hL he0 heL
      (hv i (List.mem_cons_self i rest)) hm
      (fun hg => hm0 ⟨i, List.mem_cons_self i rest, hg⟩) hrs
    have hja : 0 ≤ j.alloc := le_trans hj.1 hj.2.1
    obtain ⟨js, rs2, total2, htail, hjs, hgs, hrs2, ht2⟩ := ih rs1
      (total + Flt.fin j.alloc).to_double
      (fun k hk => hv k (List.mem_cons_of_mem i hk))
      (fun ⟨k, hk, hg⟩ => hm0 ⟨k, List.mem_cons_of_mem i hk, hg⟩) hrs1
      (fp_total_step total j.alloc hja ht)
    refine ⟨j :: js, rs2, total2, ?_, ?_, List.Forall₂.cons hgrown hgs, hrs2, ht2⟩
    · simp only [List.map_cons, fp.allocate_pass, hstep]
      have : (j.lift).alloc = Flt.fin j.alloc := rfl
      rw [this, htail]
    · intro k hk
      rcases List.mem_cons.mp hk with h | h
      · subst h; exact hj
      · exact hjs k h

theorem fp_extra_step (L : ℚ) (hL64 : Flt.binary64 L = Flt.fin L) (total : Flt)
    (ht : fp.nonneg total) :
    (∃ q : ℚ, (Flt.fin L - total).to_double = Flt.fin q ∧ q ≤ L) ∨
      (Flt.fin L - total).to_double = Flt.ninf := by
  rcases ht with ⟨t, ht, ht0, _⟩ | hinf
  · subst ht
    rw [Flt.fin_sub_fin, Flt.to_double_fin]
    rcases Flt.binary64_le L (L - t) hL64 (by linarith) with ⟨y, hy, hyL, _⟩ | hy
    · exact Or.inl ⟨y, hy, hyL⟩
    · exact Or.inr hy
  · subst hinf
    exact Or.inr rfl

theorem qgrown_growable {is js : List qinfo} (h : List.Forall₂ qgrown is js)
    (hg : ∃ j ∈ js, j.alloc < j.max) : ∃ i ∈ is, i.alloc < i.max := by
  obtain ⟨j, hj, hlt⟩ := hg
  obtain ⟨i, hi, hij⟩ := forall₂_right_mem h j hj
  refine ⟨i, hi, ?_⟩
  obtain ⟨_, h2, _, h4, _⟩ := hij
  rw [← h2]
  exact lt_of_le_of_lt h4 hlt

/-- One round of the outer loop in floating point: the records stay within their limits, and
when the loop goes on the invariant holds for the next round. -/
theorem fp_round_inv (L : ℚ) (hL : |L| < (2 : ℚ) ^ (128 : ℕ))
    (hL64 : Flt.binary64 L = Flt.fin L) (e m : Flt) (is : List qinfo)
    (h : fp.inv L e m is) :
    ∃ (js : List qinfo) (rs1 total1 : Flt),
      fp.allocate_pass e m (is.map qinfo.lift) 0 0 = (js.map qinfo.lift, rs1, total1) ∧
      (∀ j ∈ js, fp.valid j) ∧ List.Forall₂ qgrown is js ∧
      ((Flt.lt (m - rs1).to_double 1 || Flt.lt (Flt.fin L - total1).to_double Flt.half)
          = false →
        fp.inv L (Flt.fin L - total1).to_double (m - rs1).to_double js) := by
  obtain ⟨hv, ⟨q, hq, hq0, hqL⟩, hm, hm0⟩ := h
  subst hq
  have hzero_np : fp.nonpos 0 := Or.inl ⟨0, rfl, le_rfl, Flt.binary64_zero⟩
  have hzero_nn : fp.nonneg 0 := Or.inl ⟨0, rfl, le_rfl, Flt.binary64_zero⟩
  obtain ⟨js, rs1, total1, hpass, hjs, hgs, hrs1, ht1⟩ :=
    fp_allocate_pass_inv L q m hL hq0 hqL hm is 0 0 hv hm0 hzero_np hzero_nn
  refine ⟨js, rs1, total1, hpass, hjs, hgs, ?_⟩
  intro hcont
  rw [Bool.or_eq_false_iff] at hcont
  obtain ⟨_, hext⟩ := hcont
  obtain ⟨hpool, hpool0⟩ := fp_pool_step m rs1 hm hrs1
  refine ⟨hjs, ?_, hpool, ?_⟩
  · rcases fp_extra_step L hL64 total1 ht1 with ⟨x, hx, hxL⟩ | hninf
    · rw [hx] at hext ⊢
      refine ⟨x, rfl, ?_, hxL⟩
      have : ¬ x < 1 / 2 := by simpa [Flt.half] using hext
      linarith
    · rw [hninf] at hext
      simp [Flt.lt, Flt.half] at hext
  · intro hg
    exact hpool0 (hm0 (qgrown_growable hgs hg))

/-- The outer loop of `allocate` in floating point, entered with the invariant: the records
it leaves behind are within their limits and none has shrunk. -/
theorem fp_allocate_loop_inv (L : ℚ) (hL : |L| < (2 : ℚ) ^ (128 : ℕ))
    (hL64 : Flt.binary64 L = Flt.fin L) (n : Nat) :
    ∀ (e m : Flt) (is : List qinfo) (rounds : Nat), fp.inv L e m is →
      ∃ js : List qinfo,
        (fp.allocate_loop (Flt.fin L) n e m (is.map qinfo.lift) rounds).info
          = js.map qinfo.lift ∧
        (∀ j ∈ js, fp.valid j) ∧ List.Forall₂ qgrown is js := by
  induction n with
  | zero =>
    intro e m is rounds h
    exact ⟨is, rfl, h.1, qgrown_list_refl is (fun i hi => (h.1 i hi).2.2.1)⟩
  | succ n ih =>
    intro e m is rounds h
    obtain ⟨js, rs1, total1, hpass, hjs, hgs, hnext⟩ := fp_round_inv L hL hL64 e m is h
    unfold fp.allocate_loop
    simp only [hpass]
    by_cases hexit : (Flt.lt (m - rs1).to_double 1 ||
        Flt.lt (Flt.fin L - total1).to_double Flt.half) = true
    · rw [if_pos hexit]
      exact ⟨js, rfl, hjs, hgs⟩
    · rw [if_neg hexit]
      obtain ⟨ks, hks, hkv, hkg⟩ := ih _ _ js (rounds + 1)
        (hnext (by simpa using hexit))
      exact ⟨ks, hks, hkv, qgrown_list_trans hgs hkg⟩

/-- From one round to the next the records of the loop in floating point only grow. -/
theorem fp_allocate_loop_succ (L : ℚ) (hL : |L| < (2 : ℚ) ^ (128 : ℕ))
    (hL64 : Flt.binary64 L = Flt.fin L) (k : Nat) :
    ∀ (e m : Flt) (is : List qinfo) (rounds : Nat), fp.inv L e m is →
      ∃ js1 js2 : List qinfo,
        (fp.allocate_loop (Flt.fin L) k e m (is.map qinfo.lift) rounds).info
          = js1.map qinfo.lift ∧
        (fp.allocate_loop (Flt.fin L) (k + 1) e m (is.map qinfo.lift) rounds).info
          = js2.map qinfo.lift ∧
        List.Forall₂ qgrown js1 js2 := by
  induction k with
  | zero =>
    intro e m is rounds h
    obtain ⟨js, rs1, total1, hpass, hjs, hgs, _⟩ := fp_round_inv L hL hL64 e m is h
    refine ⟨is, js, rfl, ?_, hgs⟩
    rw [fp.allocate_loop.eq_def]
    simp only [hpass]
    split_ifs <;> rfl
  | succ k ih =>
    intro e m is rounds h
    obtain ⟨js, rs1, total1, hpass, hjs, hgs, hnext⟩ := fp_round_inv L hL hL64 e m is h
    rw [fp.allocate_loop.eq_def (Flt.fin L) (k + 1), fp.allocate_loop.eq_def (Flt.fin L) (k + 1 + 1)]
    simp only [hpass]
    by_cases hexit : (Flt.lt (m - rs1).to_double 1 ||
        Flt.lt (Flt.fin L - total1).to_double Flt.half) = true
    · rw [if_pos hexit, if_pos hexit]
      exact ⟨js, js, rfl, rfl, qgrown_list_refl js (fun j hj => (hjs j hj).2.2.1)⟩
    · rw [if_neg hexit, if_neg hexit]
      exact ih _ _ js (rounds + 1) (hnext (by simpa using hexit))

/-! ## The allocation loop in floating point: entry from `layout` -/

theorem growable_stretch_pos (a : axis) (cs : List child) (hs : ∀ c ∈ cs, 0 ≤ c.str a)
    (h : 0 < growable_stretch a cs) : ∃ c ∈ cs, c.lo a < c.hi a ∧ 0 < c.str a := by
  induction cs with
  | nil => simp [growable_stretch] at h
  | cons c rest ih =>
    by_cases hc : c.lo a < c.hi a ∧ 0 < c.str a
    · exact ⟨c, List.mem_cons_self c rest, hc⟩
    · have hrest : 0 < growable_stretch a rest := by
        unfold growable_stretch at h ⊢
        by_cases hg : c.lo a < c.hi a
        · have hz : c.str a = 0 := by
            have h1 := hs c (List.mem_cons_self c rest)
            have h2 : ¬ 0 < c.str a := fun hh => hc ⟨hg, hh⟩
            linarith
          simpa [List.filter_cons, hg, hz] using h
        · simpa [List.filter_cons, hg] using h
      obtain ⟨d, hd, hdd⟩ := ih (fun d hd => hs d (List.mem_cons_of_mem c hd)) hrest
      exact ⟨d, List.mem_cons_of_mem c hd, hdd⟩

theorem fp_stretch_step (m : Flt) (s : ℚ) (hs0 : 0 ≤ s) (hs : Flt.binary32 s = Flt.fin s)
    (hm : fp.nonneg m) :
    fp.nonneg (m + Flt.fin s).to_double ∧
      ((m ≠ Flt.fin 0 ∨ 0 < s) → (m + Flt.fin s).to_double ≠ Flt.fin 0) := by
  have hs64 : Flt.binary64 s = Flt.fin s := Flt.binary64_of_binary32 s s hs
  rcases hm with ⟨M, hM, hM0, hM64⟩ | hinf
  · subst hM
    rw [Flt.fin_add_fin, Flt.to_double_fin]
    rcases Flt.binary64_ge M (M + s) hM64 (by linarith) with ⟨y, hy, hyM, hyy⟩ | hy
    · refine ⟨Or.inl ⟨y, hy, by linarith, hyy⟩, ?_⟩
      intro hpos
      rw [hy]
      intro h
      injection h with h
      subst h
      rcases hpos with hne | hsp
      · apply hne
        have : M = 0 := by linarith
        rw [this]
      · rcases Flt.binary64_ge s (M + s) hs64 (by linarith) with ⟨z, hz, hzs, _⟩ | hz
        · rw [hy] at hz
          injection hz with hz
          linarith
        · rw [hy] at hz
          cases hz
    · rw [hy]
      exact ⟨Or.inr rfl, fun _ h => by cases h⟩
  · subst hinf
    exact ⟨Or.inr rfl, fun _ h => by cases h⟩

theorem fp_vtile_collect (cs : List child)
    (hv : ∀ c ∈ cs, 0 ≤ c.min_y ∧ 0 ≤ c.stretch_y ∧
      Flt.binary32 c.stretch_y = Flt.fin c.stretch_y) :
    ∀ m t : Flt, fp.nonneg m → ((∃ q : ℚ, t = Flt.fin q ∧ 0 ≤ q) ∨ t = Flt.pinf) →
      fp.nonneg (fp.vtile_element.collect (cs.map child.elem) m t).1 ∧
      ((m ≠ Flt.fin 0 ∨ ∃ c ∈ cs, c.min_y < c.max_y ∧ 0 < c.stretch_y) →
        (fp.vtile_element.collect (cs.map child.elem) m t).1 ≠ Flt.fin 0) ∧
      ((∃ q : ℚ, (fp.vtile_element.collect (cs.map child.elem) m t).2.1 = Flt.fin q ∧ 0 ≤ q) ∨
        (fp.vtile_element.collect (cs.map child.elem) m t).2.1 = Flt.pinf) ∧
      (fp.vtile_element.collect (cs.map child.elem) m t).2.2
        = (cs.map (child.info axis.y)).map qinfo.lift := by
  induction cs with
  | nil =>
    intro m t hm ht
    refine ⟨hm, ?_, ht, rfl⟩
    rintro (h | ⟨c, hc, _⟩)
    · exact h
    · simp at hc
  | cons c rest ih =>
    intro m t hm ht
    obtain ⟨hc0, hcs0, hcs⟩ := hv c (List.mem_cons_self c rest)
    have hrest := ih (fun d hd => hv d (List.mem_cons_of_mem c hd))
    have ht1 : (∃ q : ℚ, (t + Flt.fin c.min_y).to_float = Flt.fin q ∧ 0 ≤ q) ∨
        (t + Flt.fin c.min_y).to_float = Flt.pinf := by
      rcases ht with ⟨q, hq, hq0⟩ | hinf
      · subst hq
        rw [Flt.fin_add_fin, Flt.to_float_fin]
        rcases Flt.binary32_ge 0 (q + c.min_y) Flt.binary32_zero (by linarith) with
          ⟨y, hy, hy0, _⟩ | hy
        · exact Or.inl ⟨y, hy, hy0⟩
        · exact Or.inr hy
      · subst hinf
        exact Or.inr rfl
    simp only [List.map_cons, fp.vtile_element.collect]
    have hinfo : vtile_element.info_of c.elem = (child.info axis.y c).lift := rfl
    rw [hinfo]
    by_cases hg : c.min_y < c.max_y
    · have hlt : Flt.lt (child.info axis.y c).lift.alloc (child.info axis.y c).lift.max
          = true := by
        simp [qinfo.lift, child.info, child.lo, child.hi, hg]
      rw [if_pos hlt]
      obtain ⟨hm1, hm1pos⟩ := fp_stretch_step m c.stretch_y hcs0 hcs hm
      obtain ⟨r1, r2, r3, r4⟩ := hrest _ _ hm1 ht1
      refine ⟨r1, ?_, r3, ?_⟩
      · rintro (h | ⟨d, hd, hdg, hds⟩)
        · exact r2 (Or.inl (hm1pos (Or.inl h)))
        · rcases List.mem_cons.mp hd with hh | hh
          · subst hh
            exact r2 (Or.inl (hm1pos (Or.inr hds)))
          · exact r2 (Or.inr ⟨d, hh, hdg, hds⟩)
      · exact congrArg (List.cons _) r4
    · have hlt : ¬ Flt.lt (child.info axis.y c).lift.alloc (child.info axis.y c).lift.max
          = true := by
        simp [qinfo.lift, child.info, child.lo, child.hi, hg]
      rw [if_neg hlt]
      obtain ⟨r1, r2, r3, r4⟩ := hrest _ _ hm ht1
      refine ⟨r1, ?_, r3, ?_⟩
      · rintro (h | ⟨d, hd, hdg, hds⟩)
        · exact r2 (Or.inl h)
        · rcases List.mem_cons.mp hd with hh | hh
          · subst hh
            exact absurd hdg hg
          · exact r2 (Or.inr ⟨d, hh, hdg, hds⟩)
      · exact congrArg (List.cons _) r4

theorem fp_htile_collect (cs : List child)
    (hv : ∀ c ∈ cs, 0 ≤ c.min_x ∧ 0 ≤ c.stretch_x ∧
      Flt.binary32 c.stretch_x = Flt.fin c.stretch_x) :
    ∀ m t : Flt, fp.nonneg m → ((∃ q : ℚ, t = Flt.fin q ∧ 0 ≤ q) ∨ t = Flt.pinf) →
      fp.nonneg (fp.htile_element.collect (cs.map child.elem) m t).1 ∧
      ((m ≠ Flt.fin 0 ∨ ∃ c ∈ cs, c.min_x < c.max_x ∧ 0 < c.stretch_x) →
        (fp.htile_element.collect (cs.map child.elem) m t).1 ≠ Flt.fin 0) ∧
      ((∃ q : ℚ, (fp.htile_element.collect (cs.map child.elem) m t).2.1 = Flt.fin q ∧ 0 ≤ q) ∨
        (fp.htile_element.collect (cs.map child.elem) m t).2.1 = Flt.pinf) ∧
      (fp.htile_element.collect (cs.map child.elem) m t).2.2
        = (cs.map (child.info axis.x)).map qinfo.lift := by
  induction cs with
  | nil =>
    intro m t hm ht
    refine ⟨hm, ?_, ht, rfl⟩
    rintro (h | ⟨c, hc, _⟩)
    · exact h
    · simp at hc
  | cons c rest ih =>
    intro m t hm ht
    obtain ⟨hc0, hcs0, hcs⟩ := hv c (List.mem_cons_self c rest)
    have hrest := ih (fun d hd => hv d (List.mem_cons_of_mem c hd))
    have ht1 : (∃ q : ℚ, (t + Flt.fin c.min_x).to_double = Flt.fin q ∧ 0 ≤ q) ∨
        (t + Flt.fin c.min_x).to_double = Flt.pinf := by
      rcases ht with ⟨q, hq, hq0⟩ | hinf
      · subst hq
        rw [Flt.fin_add_fin, Flt.to_double_fin]
        rcases Flt.binary64_ge 0 (q + c.min_x) Flt.binary64_zero (by linarith) with
          ⟨y, hy, hy0, _⟩ | hy
        · exact Or.inl ⟨y, hy, hy0⟩
        · exact Or.inr hy
      · subst hinf
        exact Or.inr rfl
    simp only [List.map_cons, fp.htile_element.collect]
    have hinfo : htile_element.info_of c.elem = (child.info axis.x c).lift := rfl
    rw [hinfo]
    by_cases hg : c.min_x < c.max_x
    · have hlt : Flt.lt (child.info axis.x c).lift.alloc (child.info axis.x c).lift.max
          = true := by
        simp [qinfo.lift, child.info, child.lo, child.hi, hg]
      rw [if_pos hlt]
      obtain ⟨hm1, hm1pos⟩ := fp_stretch_step m c.stretch_x hcs0 hcs hm
      obtain ⟨r1, r2, r3, r4⟩ := hrest _ _ hm1 ht1
      refine ⟨r1, ?_, r3, ?_⟩
      · rintro (h | ⟨d, hd, hdg, hds⟩)
        · exact r2 (Or.inl (hm1pos (Or.inl h)))
        · rcases List.mem_cons.mp hd with hh | hh
          · subst hh
            exact r2 (Or.inl (hm1pos (Or.inr hds)))
          · exact r2 (Or.inr ⟨d, hh, hdg, hds⟩)
      · exact congrArg (List.cons _) r4
    · have hlt : ¬ Flt.lt (child.info axis.x c).lift.alloc (child.info axis.x c).lift.max
          = true := by
        simp [qinfo.lift, child.info, child.lo, child.hi, hg]
      rw [if_neg hlt]
      obtain ⟨r1, r2, r3, r4⟩ := hrest _ _ hm ht1
      refine ⟨r1, ?_, r3, ?_⟩
      · rintro (h | ⟨d, hd, hdg, hds⟩)
        · exact r2 (Or.inl h)
        · rcases List.mem_cons.mp hd with hh | hh
          · subst hh
            exact absurd hdg hg
          · exact r2 (Or.inr ⟨d, hh, hdg, hds⟩)
      · exact congrArg (List.cons _) r4

/-- What `layout` hands to `allocate` in floating point, for children whose minima and
stretch factors are not negative. -/
theorem fp_tile_collect (a : axis) (cs : List child)
    (hv : ∀ c ∈ cs, 0 ≤ c.lo a ∧ 0 ≤ c.str a ∧ Flt.binary32 (c.str a) = Flt.fin (c.str a)) :
    fp.nonneg (fp.tile_stretch a (cs.map child.elem)) ∧
    ((∃ c ∈ cs, c.lo a < c.hi a ∧ 0 < c.str a) →
      fp.tile_stretch a (cs.map child.elem) ≠ Flt.fin 0) ∧
    ((∃ q : ℚ, fp.tile_total a (cs.map child.elem) = Flt.fin q ∧ 0 ≤ q) ∨
      fp.tile_total a (cs.map child.elem) = Flt.pinf) ∧
    (∀ (size : Flt) (k : Nat), fp.tile_allocation_after a (cs.map child.elem) size k
      = fp.allocate_loop size k (size - fp.tile_total a (cs.map child.elem)).to_double
          (fp.tile_stretch a (cs.map child.elem)) ((cs.map (child.info a)).map qinfo.lift) 0) ∧
    (∀ size : Flt, fp.tile_allocation a (cs.map child.elem) size
      = fp.tile_allocation_after a (cs.map child.elem) size 9) := by
  have hz : fp.nonneg 0 := Or.inl ⟨0, rfl, le_rfl, Flt.binary64_zero⟩
  have hz2 : (∃ q : ℚ, (0 : Flt) = Flt.fin q ∧ 0 ≤ q) ∨ (0 : Flt) = Flt.pinf :=
    Or.inl ⟨0, rfl, le_rfl⟩
  cases a
  · obtain ⟨r1, r2, r3, r4⟩ := fp_htile_collect cs hv 0 0 hz hz2
    refine ⟨r1, fun h => r2 (Or.inr h), r3, ?_, ?_⟩
    · intro size k
      simp only [fp.tile_allocation_after, fp.tile_total, fp.tile_stretch, r4]
    · intro size
      rfl
  · obtain ⟨r1, r2, r3, r4⟩ := fp_vtile_collect cs hv 0 0 hz hz2
    refine ⟨r1, fun h => r2 (Or.inr h), r3, ?_, ?_⟩
    · intro size k
      simp only [fp.tile_allocation_after, fp.tile_total, fp.tile_stretch, r4]
    · intro size
      rfl

/-- The invariant holds when `allocate` is entered from `layout`, in floating point: for valid
children whose limits and stretch factors are `float`s, a target length `L` that is a `float`
and at least the `total` of the minima as `layout` adds them up, and a positive growable
stretch sum if any child can grow. -/
theorem fp_inv_init (a : axis) (cs : List child) (L : ℚ)
    (hfloat : ∀ c ∈ cs, (Flt.fin (c.lo a)).is_float = true ∧
      (Flt.fin (c.hi a)).is_float = true ∧ (Flt.fin (c.str a)).is_float = true)
    (hL : (Flt.fin L).is_float = true)
    (hvalid : ∀ c ∈ cs, 0 ≤ c.lo a ∧ c.lo a ≤ c.hi a ∧ 0 ≤ c.str a)
    (hlo : Flt.ge (Flt.fin L) (fp.tile_total a (cs.map child.elem)) = true)
    (hpool : (∃ c ∈ cs, c.lo a < c.hi a) → 0 < growable_stretch a cs) :
    fp.inv L (Flt.fin L - fp.tile_total a (cs.map child.elem)).to_double
      (fp.tile_stretch a (cs.map child.elem)) (cs.map (child.info a)) := by
  have hL32 : Flt.binary32 L = Flt.fin L := (Flt.is_float_fin L).mp hL
  have hL64 : Flt.binary64 L = Flt.fin L := Flt.binary64_of_binary32 L L hL32
  obtain ⟨r1, r2, r3, _, _⟩ := fp_tile_collect a cs
    (fun c hc => ⟨(hvalid c hc).1, (hvalid c hc).2.2,
      (Flt.is_float_fin _).mp (hfloat c hc).2.2⟩)
  refine ⟨?_, ?_, r1, ?_⟩
  · intro i hi
    rcases List.mem_map.mp hi with ⟨c, hc, rfl⟩
    obtain ⟨h1, h2, h3⟩ := hvalid c hc
    obtain ⟨f1, f2, f3⟩ := hfloat c hc
    exact ⟨h1, le_rfl, h2, h3, (Flt.is_float_fin _).mp f2, (Flt.is_float_fin _).mp f3,
      (Flt.is_float_fin _).mp f1⟩
  · rcases r3 with ⟨t, ht, ht0⟩ | hinf
    · rw [ht] at hlo ⊢
      have htL : t ≤ L := by simpa using hlo
      rw [Flt.fin_sub_fin, Flt.to_double_fin]
      obtain ⟨y, hy, hy0, hyL, _⟩ := Flt.binary64_between 0 L (L - t) Flt.binary64_zero hL64
        (by linarith) (by linarith)
      exact ⟨y, hy, hy0, hyL⟩
    · rw [hinf] at hlo
      simp [Flt.ge] at hlo
  · rintro ⟨i, hi, hg⟩
    rcases List.mem_map.mp hi with ⟨c, hc, rfl⟩
    have hS := hpool ⟨c, hc, hg⟩
    exact r2 (growable_stretch_pos a cs (fun d hd => (hvalid d hd).2.2) hS)

/-! ## Runs without rounding agree with exact arithmetic -/

theorem is_float_eq {x : Flt} (h : x.is_float = true) : x.to_float = x := by
  simpa [Flt.is_float] using h

theorem is_double_eq {x : Flt} (h : x.is_double = true) : x.to_double = x := by
  simpa [Flt.is_double] using h

theorem fp_allocate_elem_exact (extra max_stretch : Flt) (info : layout_info)
    (remove_stretch : Flt)
    (h : fp.allocate_elem_exact extra max_stretch info remove_stretch = true) :
    fp.allocate_elem extra max_stretch info remove_stretch
      = allocate_elem extra max_stretch info remove_stretch := by
  unfold fp.allocate_elem_exact at h
  unfold fp.allocate_elem allocate_elem
  by_cases hg : Flt.lt info.alloc info.max = true
  · rw [if_pos hg] at h ⊢
    rw [if_pos hg]
    simp only [Bool.and_eq_true] at h
    obtain ⟨⟨⟨⟨h1, h2⟩, h3⟩, h4⟩, h5⟩ := h
    simp only
    rw [is_double_eq h1, is_double_eq h2, is_double_eq h3, is_float_eq h4]
    by_cases hc : Flt.ge (info.alloc + extra * info.stretch / max_stretch) info.max = true
    · rw [if_pos hc] at h5 ⊢
      rw [if_pos hc, is_double_eq h5]
    · rw [if_neg hc, if_neg hc]
  · rw [if_neg hg, if_neg hg]

theorem fp_allocate_pass_exact (extra max_stretch : Flt) (info : List layout_info) :
    ∀ remove_stretch total : Flt,
      fp.allocate_pass_exact extra max_stretch info remove_stretch total = true →
      fp.allocate_pass extra max_stretch info remove_stretch total
        = allocate_pass extra max_stretch info remove_stretch total := by
  induction info with
  | nil => intro r t _; rfl
  | cons i rest ih =>
    intro r t h
    unfold fp.allocate_pass_exact at h
    simp only [Bool.and_eq_true] at h
    obtain ⟨⟨h1, h2⟩, h3⟩ := h
    unfold fp.allocate_pass allocate_pass
    simp only
    rw [fp_allocate_elem_exact extra max_stretch i r h1, is_double_eq h2, ih _ _ h3]

theorem fp_allocate_loop_exact (size : Flt) (n : Nat) :
    ∀ (extra max_stretch : Flt) (info : List layout_info) (rounds : Nat),
      fp.allocate_loop_exact size n extra max_stretch info = true →
      fp.allocate_loop size n extra max_stretch info rounds
        = allocate_loop size n extra max_stretch info rounds := by
  induction n with
  | zero => intro e m info rounds _; rfl
  | succ n ih =>
    intro e m info rounds h
    unfold fp.allocate_loop_exact at h
    simp only [Bool.and_eq_true] at h
    obtain ⟨⟨⟨h1, h2⟩, h3⟩, h4⟩ := h
    unfold fp.allocate_loop allocate_loop
    simp only
    rw [fp_allocate_pass_exact e m info 0 0 h1, is_double_eq h2, is_double_eq h3]
    by_cases hexit : (Flt.lt (m - (allocate_pass e m info 0 0).2.1) 1 ||
        Flt.lt (size - (allocate_pass e m info 0 0).2.2) Flt.half) = true
    · rw [if_pos hexit, if_pos hexit]
    · rw [if_neg hexit] at h4 ⊢
      rw [if_neg hexit]
      exact ih _ _ _ _ h4

/-- A run without rounding up to round `n + 1` is one up to round `n`. -/
theorem fp_allocate_loop_exact_pred (size : Flt) (n : Nat) :
    ∀ (extra max_stretch : Flt) (info : List layout_info),
      fp.allocate_loop_exact size (n + 1) extra max_stretch info = true →
      fp.allocate_loop_exact size n extra max_stretch info = true := by
  induction n with
  | zero => intro e m info _; rfl
  | succ n ih =>
    intro e m info h
    rw [fp.allocate_loop_exact.eq_def size (n + 1 + 1)] at h
    rw [fp.allocate_loop_exact.eq_def size (n + 1)]
    simp only [Bool.and_eq_true] at h ⊢
    obtain ⟨⟨⟨h1, h2⟩, h3⟩, h4⟩ := h
    refine ⟨⟨⟨h1, h2⟩, h3⟩, ?_⟩
    by_cases hexit : (Flt.lt (m - (allocate_pass e m info 0 0).2.1) 1 ||
        Flt.lt (size - (allocate_pass e m info 0 0).2.2) Flt.half) = true
    · rw [if_pos hexit]
    · rw [if_neg hexit] at h4 ⊢
      exact ih _ _ _ h4

theorem fp_allocate_loop_exact_le (size : Flt) (k n : Nat) (hkn : k ≤ n)
    (extra max_stretch : Flt) (info : List layout_info)
    (h : fp.allocate_loop_exact size n extra max_stretch info = true) :
    fp.allocate_loop_exact size k extra max_stretch info = true := by
  induction n with
  | zero =>
    have : k = 0 := by omega
    subst this
    exact h
  | succ n ih =>
    rcases Nat.lt_or_ge k (n + 1) with hlt | hge
    · exact ih (by omega) (fp_allocate_loop_exact_pred size n extra max_stretch info h)
    · have : k = n + 1 := by omega
      subst this
      exact h

theorem fp_vtile_collect_exact (children : List element) :
    ∀ max_stretch total : Flt,
      fp.vtile_element.collect_exact children max_stretch total = true →
      fp.vtile_element.collect children max_stretch total
        = vtile_element.collect children max_stretch total := by
  induction children with
  | nil => intro m t _; rfl
  | cons c rest ih =>
    intro m t h
    unfold fp.vtile_element.collect_exact at h
    simp only [Bool.and_eq_true] at h
    obtain ⟨⟨h1, h2⟩, h3⟩ := h
    unfold fp.vtile_element.collect vtile_element.collect
    simp only
    rw [is_float_eq h2]
    by_cases hg : Flt.lt (vtile_element.info_of c).alloc (vtile_element.info_of c).max = true
    · rw [if_pos hg] at h1 h3 ⊢
      rw [if_pos hg, is_double_eq h1, ih _ _ h3]
    · rw [if_neg hg] at h3 ⊢
      rw [if_neg hg, ih _ _ h3]

theorem fp_htile_collect_exact (children : List element) :
    ∀ max_stretch total : Flt,
      fp.htile_element.collect_exact children max_stretch total = true →
      fp.htile_element.collect children max_stretch total
        = htile_element.collect children max_stretch total := by
  induction children with
  | nil => intro m t _; rfl
  | cons c rest ih =>
    intro m t h
    unfold fp.htile_element.collect_exact at h
    simp only [Bool.and_eq_true] at h
    obtain ⟨⟨h1, h2⟩, h3⟩ := h
    unfold fp.htile_element.collect htile_element.collect
    simp only
    rw [is_double_eq h2]
    by_cases hg : Flt.lt (htile_element.info_of c).alloc (htile_element.info_of c).max = true
    · rw [if_pos hg] at h1 h3 ⊢
      rw [if_pos hg, is_double_eq h1, ih _ _ h3]
    · rw [if_neg hg] at h3 ⊢
      rw [if_neg hg, ih _ _ h3]

/-- When no operation of the allocation step rounds up to round `k`, the working state after
`k` rounds in floating point is the one of exact arithmetic. -/
theorem fp_tile_allocation_after_exact (a : axis) (children : List element) (size : Flt)
    (k : Nat) (h : fp.tile_allocation_exact a children size k = true) :
    fp.tile_allocation_after a children size k = tile_allocation_after a children size k := by
  cases a
  · unfold fp.tile_allocation_exact at h
    simp only [Bool.and_eq_true] at h
    obtain ⟨⟨h1, h2⟩, h3⟩ := h
    unfold fp.tile_allocation_after tile_allocation_after
    simp only
    rw [fp_htile_collect_exact children 0 0 h1, is_double_eq h2]
    exact fp_allocate_loop_exact size k _ _ _ 0 h3
  · unfold fp.tile_allocation_exact at h
    simp only [Bool.and_eq_true] at h
    obtain ⟨⟨h1, h2⟩, h3⟩ := h
    unfold fp.tile_allocation_after tile_allocation_after
    simp only
    rw [fp_vtile_collect_exact children 0 0 h1, is_double_eq h2]
    exact fp_allocate_loop_exact size k _ _ _ 0 h3

theorem fp_tile_allocation_exact_le (a : axis) (children : List element) (size : Flt)
    (k n : Nat) (hkn : k ≤ n) (h : fp.tile_allocation_exact a children size n = true) :
    fp.tile_allocation_exact a children size k = true := by
  cases a
  · unfold fp.tile_allocation_exact at h ⊢
    simp only [Bool.and_eq_true] at h ⊢
    exact ⟨h.1, fp_allocate_loop_exact_le size k n hkn _ _ _ h.2⟩
  · unfold fp.tile_allocation_exact at h ⊢
    simp only [Bool.and_eq_true] at h ⊢
    exact ⟨h.1, fp_allocate_loop_exact_le size k n hkn _ _ _ h.2⟩

theorem fp_tile_allocation_after_nine (a : axis) (children : List element) (size : Flt) :
    fp.tile_allocation_after a children size 9 = fp.tile_allocation a children size := by
  cases a <;> rfl

/-- When no operation of the allocation step rounds, the allocation step in floating point
is the one of exact arithmetic. -/
theorem fp_tile_allocation_eq_exact (a : axis) (children : List element) (size : Flt)
    (h : fp.tile_allocation_exact a children size 9 = true) :
    fp.tile_allocation a children size = tile_allocation a children size := by
  rw [← fp_tile_allocation_after_nine, ← tile_allocation_after_nine]
  exact fp_tile_allocation_after_exact a children size 9 h

theorem fp_vtile_walk_exact (left right : Flt) (info : List layout_info) :
    ∀ curr : Flt, fp.walk_exact curr info = true →
      fp.vtile_element.walk left right curr info = vtile_element.walk left right curr info := by
  induction info with
  | nil =>
    intro curr h
    unfold fp.walk_exact at h
    unfold fp.vtile_element.walk vtile_element.walk
    rw [is_float_eq h]
  | cons i rest ih =>
    intro curr h
    unfold fp.walk_exact at h
    simp only [Bool.and_eq_true] at h
    obtain ⟨⟨h1, h2⟩, h3⟩ := h
    have hnext : (curr + i.alloc).is_float = true := by
      cases rest with
      | nil => unfold fp.walk_exact at h3; exact h3
      | cons j more =>
        unfold fp.walk_exact at h3
        simp only [Bool.and_eq_true] at h3
        exact h3.1.1
    unfold fp.vtile_element.walk vtile_element.walk
    simp only
    rw [is_double_eq h2, is_float_eq h1, is_float_eq hnext, ih _ h3]

theorem fp_htile_walk_exact (top bottom : Flt) (info : List layout_info) :
    ∀ curr : Flt, fp.walk_exact curr info = true →
      fp.htile_element.walk top bottom curr info = htile_element.walk top bottom curr info := by
  induction info with
  | nil =>
    intro curr h
    unfold fp.walk_exact at h
    unfold fp.htile_element.walk htile_element.walk
    rw [is_float_eq h]
  | cons i rest ih =>
    intro curr h
    unfold fp.walk_exact at h
    simp only [Bool.and_eq_true] at h
    obtain ⟨⟨h1, h2⟩, h3⟩ := h
    have hnext : (curr + i.alloc).is_float = true := by
      cases rest with
      | nil => unfold fp.walk_exact at h3; exact h3
      | cons j more =>
        unfold fp.walk_exact at h3
        simp only [Bool.and_eq_true] at h3
        exact h3.1.1
    unfold fp.htile_element.walk htile_element.walk
    simp only
    rw [is_double_eq h2, is_float_eq h1, is_float_eq hnext, ih _ h3]

/-- When no operation of `layout` rounds, the cache written in floating point is the one of
exact arithmetic. -/
theorem fp_tile_offsets_eq_exact (a : axis) (children : List element) (lead trail : Flt)
    (side1 side2 : Flt) (h : fp.tile_layout_exact a children lead trail = true) :
    fp.tile_offsets a children (rect.of_axis a lead trail side1 side2)
      = tile_offsets a children (rect.of_axis a lead trail side1 side2) := by
  unfold fp.tile_layout_exact at h
  simp only [Bool.and_eq_true] at h
  obtain ⟨⟨h1, h2⟩, h3⟩ := h
  have halloc := fp_tile_allocation_eq_exact a children (trail - lead) h2
  cases a
  · simp only [fp.tile_offsets, tile_offsets, fp.htile_element.layout, htile_element.layout,
      rect.of_axis, fp.rect.width, rect.width]
    rw [is_float_eq h1]
    have h4 : fp.htile_element.allocation children (trail - lead)
        = htile_element.allocation children (trail - lead) := halloc
    rw [h4]
    exact congrArg Prod.fst (fp_htile_walk_exact side1 side2 _ lead h3)
  · simp only [fp.tile_offsets, tile_offsets, fp.vtile_element.layout, vtile_element.layout,
      rect.of_axis, fp.rect.height, rect.height]
    rw [is_float_eq h1]
    have h4 : fp.vtile_element.allocation children (trail - lead)
        = vtile_element.allocation children (trail - lead) := halloc
    rw [h4]
    exact congrArg Prod.fst (fp_vtile_walk_exact side1 side2 _ lead h3)

/-! ## Limits in floating point -/

theorem fp_vtile_limits_fold (children : List element) : ∀ l : view_limits,
    (children.foldl fp.vtile_element.limits_step l).min.y
        = fp.float_sum l.min.y (children.map (fun e => e.limits.min.y)) ∧
    (children.foldl fp.vtile_element.limits_step l).max.y
        = fp.float_sum l.max.y (children.map (fun e => e.limits.max.y)) := by
  induction children with
  | nil => intro l; exact ⟨rfl, rfl⟩
  | cons e rest ih =>
    intro l
    simp only [List.foldl_cons, List.map_cons, fp.float_sum]
    exact ih (fp.vtile_element.limits_step l e)

theorem fp_htile_limits_fold (children : List element) : ∀ l : view_limits,
    (children.foldl fp.htile_element.limits_step l).min.x
        = fp.float_sum l.min.x (children.map (fun e => e.limits.min.x)) ∧
    (children.foldl fp.htile_element.limits_step l).max.x
        = fp.float_sum l.max.x (children.map (fun e => e.limits.max.x)) := by
  induction children with
  | nil => intro l; exact ⟨rfl, rfl⟩
  | cons e rest ih =>
    intro l
    simp only [List.foldl_cons, List.map_cons, fp.float_sum]
    exact ih (fp.htile_element.limits_step l e)

/-- The primary-axis limits of a tile in floating point: the minimum is the `float` sum of the
children's minima, the maximum the `float` sum of their maxima lowered to `full_extent`. -/
theorem fp_tile_limits_primary (a : axis) (F : Flt) (cs : List child) :
    (fp.tile_limits a F (cs.map child.elem)).min.along a
        = fp.float_sum 0 (cs.map (fun c => Flt.fin (c.lo a))) ∧
    (fp.tile_limits a F (cs.map child.elem)).max.along a
        = clamp_max (fp.float_sum 0 (cs.map (fun c => Flt.fin (c.hi a)))) F := by
  cases a
  · obtain ⟨h1, h2⟩ := fp_htile_limits_fold (cs.map child.elem)
      { min := { x := 0, y := 0 }, max := { x := 0, y := F } }
    simp only [fp.tile_limits, fp.htile_element.limits, point.along, h1, h2, List.map_map]
    exact ⟨rfl, rfl⟩
  · obtain ⟨h1, h2⟩ := fp_vtile_limits_fold (cs.map child.elem)
      { min := { x := 0, y := 0 }, max := { x := F, y := 0 } }
    simp only [fp.tile_limits, fp.vtile_element.limits, point.along, h1, h2, List.map_map]
    exact ⟨rfl, rfl⟩

/-- When no partial sum rounds, the `float` sum is the sum. -/
theorem fp_float_sum_exact (qs : List ℚ) : ∀ acc : ℚ,
    fp.sums_exact (Flt.fin acc) (qs.map Flt.fin) = true →
    fp.float_sum (Flt.fin acc) (qs.map Flt.fin) = Flt.fin (acc + qs.sum) := by
  induction qs with
  | nil => intro acc _; simp [fp.float_sum]
  | cons q rest ih =>
    intro acc h
    simp only [List.map_cons, fp.sums_exact, Bool.and_eq_true] at h
    obtain ⟨h1, h2⟩ := h
    simp only [List.map_cons, fp.float_sum, List.sum_cons]
    rw [is_float_eq h1]
    rw [Flt.fin_add_fin] at h2 ⊢
    rw [ih _ h2, add_assoc]

theorem ge_add_fin (a b : Flt) (x y : ℚ) (h : Flt.ge b a = true) (hxy : x ≤ y) :
    Flt.ge (b + Flt.fin y) (a + Flt.fin x) = true := by
  cases a with
  | fin p =>
    cases b with
    | fin q =>
      have hpq : p ≤ q := by simpa using h
      rw [Flt.fin_add_fin, Flt.fin_add_fin, Flt.ge_fin_fin]
      simp
      linarith
    | pinf => rfl
    | ninf => simp [Flt.ge] at h
    | nan => simp [Flt.ge] at h
  | pinf =>
    cases b with
    | fin q => simp [Flt.ge] at h
    | pinf => rfl
    | ninf => simp [Flt.ge] at h
    | nan => simp [Flt.ge] at h
  | ninf =>
    cases b with
    | fin q => rfl
    | pinf => rfl
    | ninf => rfl
    | nan => simp [Flt.ge] at h
  | nan => cases b <;> simp [Flt.ge] at h

theorem fp_float_sum_mono (cs : List child) (f g : child → ℚ) (hfg : ∀ c ∈ cs, f c ≤ g c) :
    ∀ a b : Flt, Flt.ge b a = true →
      Flt.ge (fp.float_sum b (cs.map (fun c => Flt.fin (g c))))
        (fp.float_sum a (cs.map (fun c => Flt.fin (f c)))) = true := by
  induction cs with
  | nil => intro a b h; exact h
  | cons c rest ih =>
    intro a b h
    simp only [List.map_cons, fp.float_sum]
    apply ih (fun d hd => hfg d (List.mem_cons_of_mem c hd))
    exact Flt.to_float_mono _ _ (ge_add_fin a b (f c) (g c) h (hfg c (List.mem_cons_self c rest)))

/-- A `float` sum of non-negative numbers that has reached a `float` `g` stays at or above
it. -/
theorem fp_float_sum_ge (g : ℚ) (hg : Flt.binary32 g = Flt.fin g) (qs : List ℚ)
    (hq : ∀ q ∈ qs, 0 ≤ q) : ∀ acc : Flt, Flt.ge acc (Flt.fin g) = true →
      Flt.ge (fp.float_sum acc (qs.map Flt.fin)) (Flt.fin g) = true := by
  induction qs with
  | nil => intro acc h; exact h
  | cons q rest ih =>
    intro acc h
    simp only [List.map_cons, fp.float_sum]
    apply ih (fun r hr => hq r (List.mem_cons_of_mem q hr))
    have h1 : Flt.ge (acc + Flt.fin q) (Flt.fin g + Flt.fin 0) = true :=
      ge_add_fin (Flt.fin g) acc 0 q h (hq q (List.mem_cons_self q rest))
    rw [Flt.fin_add_fin, add_zero] at h1
    have h2 := Flt.to_float_mono _ _ h1
    rw [Flt.to_float_fin, hg] at h2
    exact h2

/-- A `float` sum of non-negative numbers, one of which is the `float` `g`, is at least
`g`. -/
theorem fp_float_sum_ge_mem (g : ℚ) (hg : Flt.binary32 g = Flt.fin g) (qs : List ℚ)
    (hq : ∀ q ∈ qs, 0 ≤ q) (hmem : g ∈ qs) : ∀ acc : Flt, Flt.ge acc (Flt.fin 0) = true →
      Flt.ge (fp.float_sum acc (qs.map Flt.fin)) (Flt.fin g) = true := by
  induction qs with
  | nil => simp at hmem
  | cons q rest ih =>
    intro acc h
    simp only [List.map_cons, fp.float_sum]
    have hq0 : 0 ≤ q := hq q (List.mem_cons_self q rest)
    rcases List.mem_cons.mp hmem with heq | hin
    · subst heq
      apply fp_float_sum_ge g hg rest (fun r hr => hq r (List.mem_cons_of_mem g hr))
      have h1 : Flt.ge (acc + Flt.fin g) (Flt.fin 0 + Flt.fin g) = true :=
        ge_add_fin (Flt.fin 0) acc g g h le_rfl
      rw [Flt.fin_add_fin, zero_add] at h1
      have h2 := Flt.to_float_mono _ _ h1
      rw [Flt.to_float_fin, hg] at h2
      exact h2
    · apply ih (fun r hr => hq r (List.mem_cons_of_mem q hr)) hin
      have h1 : Flt.ge (acc + Flt.fin q) (Flt.fin 0 + Flt.fin 0) = true :=
        ge_add_fin (Flt.fin 0) acc 0 q h hq0
      rw [Flt.fin_add_fin, add_zero] at h1
      have h2 := Flt.to_float_mono _ _ h1
      rw [Flt.to_float_fin, Flt.binary32_zero] at h2
      exact h2

theorem clamp_max_of_ge (s : Flt) (F : ℚ) (h : Flt.ge s (Flt.fin F) = true) :
    clamp_max s (Flt.fin F) = Flt.fin F := by
  unfold clamp_max
  cases s with
  | fin q =>
    have hq : F ≤ q := by simpa using h
    by_cases hlt : F < q
    · simp [hlt]
    · have : q = F := le_antisymm (not_lt.mp hlt) hq
      simp [this]
  | pinf => simp [Flt.gt, Flt.lt]
  | ninf => simp [Flt.ge] at h
  | nan => simp [Flt.ge] at h

/-! ## Limits in floating point: the claims -/

/-- C4, as stated, fails: `limits` adds the minima up in `float`, every partial sum rounded.
Three children of a vertical tile with the `float` minimum heights 0.5, 0.7f and 0.7f
(`0.7f = 11744051 / 2^24`) give `min.y = 15938356 / 2^23 = 1.90000010`, where the sum of the
three minima is `15938355 / 2^23 = 1.89999998`. -/
theorem C4_counterexample :
    (∀ c ∈ ([⟨0, 1 / 2, 10, 100, 1, 1⟩, ⟨0, 11744051 / 16777216, 10, 100, 1, 1⟩,
        ⟨0, 11744051 / 16777216, 10, 100, 1, 1⟩] : List child),
      (Flt.fin c.min_y).is_float = true) ∧
    (fp.vtile_element.limits (Flt.fin 1000000)
      { children := [child.elem ⟨0, 1 / 2, 10, 100, 1, 1⟩,
                     child.elem ⟨0, 11744051 / 16777216, 10, 100, 1, 1⟩,
                     child.elem ⟨0, 11744051 / 16777216, 10, 100, 1, 1⟩],
        _left := 0, _right := 0, _tiles := [] }).min.y = Flt.fin (15938356 / 8388608) ∧
    ((1 / 2 : ℚ) + 11744051 / 16777216 + 11744051 / 16777216 = 15938355 / 8388608) ∧
    Flt.fin (15938356 / 8388608) ≠ Flt.fin (15938355 / 8388608) := by
  decide!

/-- C4, amended: the primary-axis minimum returned by `limits` (`min.y` for
`vtile_element::limits`, `min.x` for `htile_element::limits`) is the sum of the children's
primary-axis minima as the loop adds them up: from the left, starting at 0, every partial sum
rounded to `float`.  It is the sum of the minima whenever no partial sum is rounded, that is,
whenever every partial sum is a `float`. -/
theorem C4_primary_min_is_float_sum (a : axis) (F : Flt) (cs : List child) :
    (fp.tile_limits a F (cs.map child.elem)).min.along a
        = fp.float_sum 0 (cs.map (fun c => Flt.fin (c.lo a))) ∧
    (fp.sums_exact 0 (cs.map (fun c => Flt.fin (c.lo a))) = true →
      (fp.tile_limits a F (cs.map child.elem)).min.along a
        = Flt.fin (cs.map (fun c => c.lo a)).sum) := by
  refine ⟨(fp_tile_limits_primary a F cs).1, ?_⟩
  intro h
  rw [(fp_tile_limits_primary a F cs).1]
  have h1 : cs.map (fun c => Flt.fin (c.lo a)) = (cs.map (fun c => c.lo a)).map Flt.fin := by
    rw [List.map_map]
    rfl
  rw [h1] at h ⊢
  have h2 := fp_float_sum_exact (cs.map (fun c => c.lo a)) 0 h
  rw [zero_add] at h2
  exact h2

/-- C4 amended, at three horizontal children of minimum widths 20, 30.5 and 40: no partial
sum is rounded and the minimum width of the tile is 90.5. -/
theorem C4_primary_min_is_float_sum_witness :
    (fp.tile_limits axis.x (Flt.fin 1000000)
        ([⟨20, 0, 100, 5, 1, 1⟩, ⟨61 / 2, 0, 100, 5, 1, 1⟩, ⟨40, 0, 100, 5, 1, 1⟩].map
          child.elem)).min.along axis.x = Flt.fin (181 / 2) := by
  have h := (C4_primary_min_is_float_sum axis.x (Flt.fin 1000000)
    [⟨20, 0, 100, 5, 1, 1⟩, ⟨61 / 2, 0, 100, 5, 1, 1⟩, ⟨40, 0, 100, 5, 1, 1⟩]).2 (by decide!)
  rw [h]
  decide!

/-- C5, as stated, fails: `limits` adds the maxima up in `float`, every partial sum rounded.
Three children of a vertical tile with the non-negative `float` maximum heights 0.5, 0.7f and
0.7f give, for `full_extent = 1000000`, `max.y = 15938356 / 2^23 = 1.90000010`, where
`min (sum max_i) full_extent` is `15938355 / 2^23 = 1.89999998`. -/
theorem C5_counterexample :
    (∀ c ∈ ([⟨0, 0, 10, 1 / 2, 1, 1⟩, ⟨0, 0, 10, 11744051 / 16777216, 1, 1⟩,
        ⟨0, 0, 10, 11744051 / 16777216, 1, 1⟩] : List child),
      (Flt.fin c.max_y).is_float = true ∧ 0 ≤ c.max_y) ∧
    (fp.vtile_element.limits (Flt.fin 1000000)
      { children := [child.elem ⟨0, 0, 10, 1 / 2, 1, 1⟩,
                     child.elem ⟨0, 0, 10, 11744051 / 16777216, 1, 1⟩,
                     child.elem ⟨0, 0, 10, 11744051 / 16777216, 1, 1⟩],
        _left := 0, _right := 0, _tiles := [] }).max.y = Flt.fin (15938356 / 8388608) ∧
    (min ((1 / 2 : ℚ) + 11744051 / 16777216 + 11744051 / 16777216) 1000000
      = 15938355 / 8388608) ∧
    Flt.fin (15938356 / 8388608) ≠ Flt.fin (15938355 / 8388608) := by
  decide!

/-- C5, amended: for children with non-negative primary-axis maxima and a `full_extent` that
is a `float`, the primary-axis maximum returned by `limits` is the sum of the children's
maxima as the loop adds them up (from the left, starting at 0, every partial sum rounded to
`float`), lowered to `full_extent` when it is above it; it is `min (sum max_i) full_extent`
whenever no partial sum is rounded; and it is `full_extent` as soon as one child's maximum
is `full_extent`, rounded or not. -/
theorem C5_primary_max_saturates (a : axis) (F : ℚ) (cs : List child)
    (hF : (Flt.fin F).is_float = true) (hnonneg : ∀ c ∈ cs, 0 ≤ c.hi a) :
    (fp.tile_limits a (Flt.fin F) (cs.map child.elem)).max.along a
        = clamp_max (fp.float_sum 0 (cs.map (fun c => Flt.fin (c.hi a)))) (Flt.fin F) ∧
    (fp.sums_exact 0 (cs.map (fun c => Flt.fin (c.hi a))) = true →
      (fp.tile_limits a (Flt.fin F) (cs.map child.elem)).max.along a
        = Flt.fin (min (cs.map (fun c => c.hi a)).sum F)) ∧
    ((∃ c ∈ cs, c.hi a = F) →
      (fp.tile_limits a (Flt.fin F) (cs.map child.elem)).max.along a = Flt.fin F) := by
  have hmap : cs.map (fun c => Flt.fin (c.hi a)) = (cs.map (fun c => c.hi a)).map Flt.fin := by
    rw [List.map_map]
    rfl
  refine ⟨(fp_tile_limits_primary a (Flt.fin F) cs).2, ?_, ?_⟩
  · intro h
    rw [(fp_tile_limits_primary a (Flt.fin F) cs).2]
    rw [hmap] at h ⊢
    have h2 := fp_float_sum_exact (cs.map (fun c => c.hi a)) 0 h
    rw [zero_add] at h2
    have h3 : fp.float_sum 0 ((cs.map (fun c => c.hi a)).map Flt.fin)
        = Flt.fin (cs.map (fun c => c.hi a)).sum := h2
    rw [h3, clamp_max_fin]
  · rintro ⟨c, hc, hcF⟩
    rw [(fp_tile_limits_primary a (Flt.fin F) cs).2, hmap]
    apply clamp_max_of_ge
    apply fp_float_sum_ge_mem F ((Flt.is_float_fin F).mp hF)
    · intro q hq
      rcases List.mem_map.mp hq with ⟨d, hd, rfl⟩
      exact hnonneg d hd
    · exact List.mem_map.mpr ⟨c, hc, hcF⟩
    · rfl

/-- C5 amended, at three vertical children of maximum heights 0.7f, `full_extent` and 0.7f:
the partial sums are rounded and the maximum height of the tile is `full_extent`. -/
theorem C5_primary_max_saturates_witness :
    (fp.tile_limits axis.y (Flt.fin 1000000)
        ([⟨0, 0, 10, 11744051 / 16777216, 1, 1⟩, ⟨0, 0, 10, 1000000, 1, 1⟩,
          ⟨0, 0, 10, 11744051 / 16777216, 1, 1⟩].map child.elem)).max.along axis.y
      = Flt.fin 1000000 :=
  (C5_primary_max_saturates axis.y 1000000
    [⟨0, 0, 10, 11744051 / 16777216, 1, 1⟩, ⟨0, 0, 10, 1000000, 1, 1⟩,
      ⟨0, 0, 10, 11744051 / 16777216, 1, 1⟩]
    (by decide!) (by decide!)).2.2 ⟨⟨0, 0, 10, 1000000, 1, 1⟩, by simp, rfl⟩

/-- C8, as stated, fails: two children of a vertical tile with fixed height 600000 (so that
`0 <= min <= max` holds for both) give, for `full_extent = 1000000`, `min.y = 1200000` and
`max.y = 1000000`: the returned primary-axis maximum is below the primary-axis minimum.  And
minima whose sum is at most `full_extent` are not enough in floating point: a child of height
999999.5 .. 1000000 followed by nine children of height 33/1024 .. 1 has minima with the sum
`999999.79 <= 1000000`, which `limits` adds up in `float` to `min.y = 1000000.0625`, above
`max.y = 1000000`. -/
theorem C8_counterexample :
    ((∀ c ∈ ([⟨0, 600000, 0, 600000, 1, 1⟩, ⟨0, 600000, 0, 600000, 1, 1⟩] : List child),
        0 ≤ c.min_x ∧ c.min_x ≤ c.max_x ∧ 0 ≤ c.min_y ∧ c.min_y ≤ c.max_y) ∧
      (fp.vtile_element.limits (Flt.fin 1000000)
        { children := [child.elem ⟨0, 600000, 0, 600000, 1, 1⟩,
                       child.elem ⟨0, 600000, 0, 600000, 1, 1⟩],
          _left := 0, _right := 0, _tiles := [] }).min.y = Flt.fin 1200000 ∧
      (fp.vtile_element.limits (Flt.fin 1000000)
        { children := [child.elem ⟨0, 600000, 0, 600000, 1, 1⟩,
                       child.elem ⟨0, 600000, 0, 600000, 1, 1⟩],
          _left := 0, _right := 0, _tiles := [] }).max.y = Flt.fin 1000000 ∧
      Flt.ge (Flt.fin 1000000) (Flt.fin 1200000) = false) ∧
    ((∀ c ∈ ((⟨0, 1999999 / 2, 0, 1000000, 1, 1⟩ ::
          List.replicate 9 ⟨0, 33 / 1024, 0, 1, 1, 1⟩ : List child)),
        0 ≤ c.min_x ∧ c.min_x ≤ c.max_x ∧ 0 ≤ c.min_y ∧ c.min_y ≤ c.max_y) ∧
      (((⟨0, 1999999 / 2, 0, 1000000, 1, 1⟩ ::
          List.replicate 9 ⟨0, 33 / 1024, 0, 1, 1, 1⟩ : List child)).map
        (fun c => c.min_y)).sum ≤ 1000000 ∧
      (fp.vtile_element.limits (Flt.fin 1000000)
        { children := (⟨0, 1999999 / 2, 0, 1000000, 1, 1⟩ ::
            List.replicate 9 ⟨0, 33 / 1024, 0, 1, 1, 1⟩).map child.elem,
          _left := 0, _right := 0, _tiles := [] }).min.y = Flt.fin (16000001 / 16) ∧
      (fp.vtile_element.limits (Flt.fin 1000000)
        { children := (⟨0, 1999999 / 2, 0, 1000000, 1, 1⟩ ::
            List.replicate 9 ⟨0, 33 / 1024, 0, 1, 1, 1⟩).map child.elem,
          _left := 0, _right := 0, _tiles := [] }).max.y = Flt.fin 1000000 ∧
      Flt.ge (Flt.fin 1000000) (Flt.fin (16000001 / 16)) = false) := by
  decide!

/-- C8, amended: for children with `min <= max` on the primary axis whose primary-axis minima,
added up in `float` from the left as `limits` does, are at most `full_extent`, the limits
returned by `vtile_element::limits` / `htile_element::limits` satisfy `max.A >= min.A` on the
primary axis `A`. -/
theorem C8_primary_max_ge_min (a : axis) (F : ℚ) (cs : List child)
    (hvalid : ∀ c ∈ cs, c.lo a ≤ c.hi a)
    (hfit : Flt.ge (Flt.fin F) (fp.float_sum 0 (cs.map (fun c => Flt.fin (c.lo a)))) = true) :
    Flt.ge ((fp.tile_limits a (Flt.fin F) (cs.map child.elem)).max.along a)
      ((fp.tile_limits a (Flt.fin F) (cs.map child.elem)).min.along a) = true := by
  rw [(fp_tile_limits_primary a (Flt.fin F) cs).1, (fp_tile_limits_primary a (Flt.fin F) cs).2]
  have hmono := fp_float_sum_mono cs (fun c => c.lo a) (fun c => c.hi a) hvalid 0 0 rfl
  unfold clamp_max
  by_cases hgt : Flt.gt (fp.float_sum 0 (cs.map (fun c => Flt.fin (c.hi a)))) (Flt.fin F) = true
  · rw [if_pos hgt]
    exact hfit
  · rw [if_neg hgt]
    exact hmono

/-- C8 amended, at a vertical tile over a child of height 999999.5 .. 1000000 and eight
children of height 33/1024 .. 1: the minima add up to 1000000 in `float` (their sum is
999999.7578125), which is at most `full_extent = 1000000`, and the maximum height 1000000 is
not below it. -/
theorem C8_primary_max_ge_min_witness :
    Flt.ge ((fp.tile_limits axis.y (Flt.fin 1000000)
        ((⟨0, 1999999 / 2, 5, 1000000, 1, 1⟩ ::
          List.replicate 8 ⟨0, 33 / 1024, 5, 1, 1, 1⟩).map child.elem)).max.along axis.y)
      ((fp.tile_limits axis.y (Flt.fin 1000000)
        ((⟨0, 1999999 / 2, 5, 1000000, 1, 1⟩ ::
          List.replicate 8 ⟨0, 33 / 1024, 5, 1, 1, 1⟩).map child.elem)).min.along axis.y)
      = true :=
  C8_primary_max_ge_min axis.y 1000000
    (⟨0, 1999999 / 2, 5, 1000000, 1, 1⟩ :: List.replicate 8 ⟨0, 33 / 1024, 5, 1, 1, 1⟩)
    (by decide!) (by decide!)

/-! ## Allocation in runs without rounding: the claims -/

/-- C1, as stated, fails: a vertical tile of height 20.5 over two children with heights
0..100 and 0..10 and stretch 1 (so `sum min = 0 <= 20.5 <= 110 = sum max`) ends the first round
with allocations 10.25 and 10 and `extra = 0.25 < 0.5`, where `allocate` returns: the
allocations sum to 20.25 and the last cache offset is 20.25, not the trailing edge 20.5.  No
operation rounds on this input.  And the shares are rounded to `float`: height 10 over three
children with heights 0..100 and stretch 1 gives each the `float` nearest to 10/3, and the
allocations sum to `41943039 / 2^22 = 9.99999976`, below 10; height 57 over seven such
children with heights 0..1000 gives each the `float` nearest to 57/7, and the allocations sum
to `59768835 / 2^20 = 57.0000029`, above 57. -/
theorem C1_counterexample :
    ((fp.vtile_element.allocation
        [child.elem ⟨0, 0, 0, 100, 1, 1⟩, child.elem ⟨0, 0, 0, 10, 1, 1⟩]
        (Flt.fin (41 / 2))).info.map (fun i => i.alloc)
      = [Flt.fin (41 / 4), Flt.fin 10] ∧
    ((0 : ℚ) + 0 ≤ 41 / 2 ∧ (41 / 2 : ℚ) ≤ 100 + 10) ∧
    ((41 / 4 : ℚ) + 10 ≠ 41 / 2) ∧
    ((fp.vtile_element.layout
        { children := [child.elem ⟨0, 0, 0, 100, 1, 1⟩, child.elem ⟨0, 0, 0, 10, 1, 1⟩],
          _left := 0, _right := 0, _tiles := [] }
        { left := Flt.fin 0, top := Flt.fin 0, right := Flt.fin 100,
          bottom := Flt.fin (41 / 2) }).1._tiles
      = [Flt.fin 0, Flt.fin (41 / 4), Flt.fin (81 / 4)])) ∧
    ((fp.vtile_element.allocation (List.replicate 3 (child.elem ⟨0, 0, 0, 100, 1, 1⟩))
        (Flt.fin 10)).info.map (fun i => i.alloc)
      = List.replicate 3 (Flt.fin (13981013 / 4194304)) ∧
    (List.replicate 3 (13981013 / 4194304 : ℚ)).sum = 41943039 / 4194304 ∧
    (41943039 / 4194304 : ℚ) < 10) ∧
    ((fp.vtile_element.allocation (List.replicate 7 (child.elem ⟨0, 0, 0, 1000, 1, 1⟩))
        (Flt.fin 57)).info.map (fun i => i.alloc)
      = List.replicate 7 (Flt.fin (8538405 / 1048576)) ∧
    (List.replicate 7 (8538405 / 1048576 : ℚ)).sum = 59768835 / 1048576 ∧
    (57 : ℚ) < 59768835 / 1048576) := by
  decide!

/-- C1, amended: for valid children (`0 <= min_i <= max_i`, `stretch_i >= 0`) and a target
length `L` with `sum min_i <= L <= sum max_i`, when the stretch factors of the children that
can grow have a positive sum `S` (if any child can grow), in every run of the allocation step
in which no operation rounds the allocations computed by `layout` are finite numbers with
`sum alloc_i <= L`; and `sum alloc_i = L` whenever no child that can grow reaches its maximum
in the first round, i.e. `min_i + (L - sum min) * stretch_i / S < max_i` for each of them. -/
theorem C1_allocation_sum (a : axis) (cs : List child) (L : ℚ)
    (hexact : fp.tile_allocation_exact a (cs.map child.elem) (Flt.fin L) 9 = true)
    (hvalid : ∀ c ∈ cs, 0 ≤ c.lo a ∧ c.lo a ≤ c.hi a ∧ 0 ≤ c.str a)
    (hlo : (cs.map (fun c => c.lo a)).sum ≤ L)
    (hhi : L ≤ (cs.map (fun c => c.hi a)).sum)
    (hpool : (∃ c ∈ cs, c.lo a < c.hi a) → 0 < growable_stretch a cs) :
    ∃ allocs : List ℚ,
      (fp.tile_allocation a (cs.map child.elem) (Flt.fin L)).info.map (fun i => i.alloc)
        = allocs.map Flt.fin ∧
      allocs.sum ≤ L ∧
      ((∀ c ∈ cs, c.lo a < c.hi a →
          c.lo a + (L - (cs.map (fun k => k.lo a)).sum) * c.str a / growable_stretch a cs
            < c.hi a) →
        allocs.sum = L) := by
  rw [fp_tile_allocation_eq_exact a _ _ hexact]
  exact allocation_sum_exact a cs L hvalid hlo hhi hpool

/-- C1 amended, at a vertical tile of height 90 over two children with heights 20..100 and
20..50 and stretch 1: no operation rounds and the allocations sum to 90. -/
theorem C1_allocation_sum_witness :
    ∃ allocs : List ℚ,
      (fp.tile_allocation axis.y
          ([⟨0, 20, 0, 100, 1, 1⟩, ⟨0, 20, 0, 50, 1, 1⟩].map child.elem)
          (Flt.fin 90)).info.map (fun i => i.alloc) = allocs.map Flt.fin ∧
      allocs.sum = 90 := by
  obtain ⟨allocs, h1, _, h3⟩ := C1_allocation_sum axis.y
    [⟨0, 20, 0, 100, 1, 1⟩, ⟨0, 20, 0, 50, 1, 1⟩] 90
    (by decide!) (by decide!) (by decide!) (by decide!) (by decide!)
  exact ⟨allocs, h1, h3 (by decide!)⟩

/-- C24, as stated, fails: a vertical tile of height 15 over a child with height 10..100 and a
child of fixed height 10, both with stretch 1, has growable stretch `S = 1 > 0`, and
`min_i + (L - sum min) * stretch_i / S = 5` is below the maximum of both children; the fixed
child is skipped by the guard `info.alloc < info.max` and keeps 10, where the claim gives it 5
(and the allocations 5 + 5 would not sum to 15).  No operation rounds on this input.  And the
shares are rounded to `float`: height 10 over three children with heights 0..100 and stretch
1 gives each `13981013 / 2^22 = 3.33333325`, not 10/3, and the allocations do not sum
to 10. -/
theorem C24_counterexample :
    (growable_stretch axis.y [⟨0, 10, 0, 100, 1, 1⟩, ⟨0, 10, 0, 10, 1, 1⟩] = 1 ∧
    (∀ c ∈ ([⟨0, 10, 0, 100, 1, 1⟩, ⟨0, 10, 0, 10, 1, 1⟩] : List child),
      c.lo axis.y + (15 - (10 + 10)) * c.str axis.y / 1 = 5 ∧ (5 : ℚ) < c.hi axis.y) ∧
    (fp.vtile_element.allocation
        [child.elem ⟨0, 10, 0, 100, 1, 1⟩, child.elem ⟨0, 10, 0, 10, 1, 1⟩]
        (Flt.fin 15)).info.map (fun i => i.alloc)
      = [Flt.fin 5, Flt.fin 10] ∧
    Flt.fin 10 ≠ Flt.fin 5) ∧
    (growable_stretch axis.y (List.replicate 3 ⟨0, 0, 0, 100, 1, 1⟩) = 3 ∧
    (∀ c ∈ (List.replicate 3 ⟨0, 0, 0, 100, 1, 1⟩ : List child),
      c.lo axis.y + (10 - (0 + 0 + 0)) * c.str axis.y / 3 = 10 / 3 ∧
        (10 / 3 : ℚ) < c.hi axis.y) ∧
    (fp.vtile_element.allocation (List.replicate 3 (child.elem ⟨0, 0, 0, 100, 1, 1⟩))
        (Flt.fin 10)).info.map (fun i => i.alloc)
      = List.replicate 3 (Flt.fin (13981013 / 4194304)) ∧
    (13981013 / 4194304 : ℚ) ≠ 10 / 3 ∧
    (List.replicate 3 (13981013 / 4194304 : ℚ)).sum ≠ 10) := by
  decide!

/-- C24, amended: for every target length `L` and every list of children whose growable
stretch `S` (the sum of the stretch factors of the children with `min_i < max_i`) is positive,
such that no child that can grow reaches its maximum (`min_i + (L - sum min) * stretch_i / S <
max_i` for each of them), in every run of the allocation step in which no operation rounds
`allocate` returns after a single round with `alloc_i = min_i + (L - sum min) * stretch_i / S`
for every child that can grow and `alloc_i = min_i` for every child that cannot; hence
`sum alloc_i = L`. -/
theorem C24_proportional_distribution (a : axis) (cs : List child) (L : ℚ)
    (hexact : fp.tile_allocation_exact a (cs.map child.elem) (Flt.fin L) 9 = true)
    (hS : 0 < growable_stretch a cs)
    (hfree : ∀ c ∈ cs, c.lo a < c.hi a →
      c.lo a + (L - (cs.map (fun k => k.lo a)).sum) * c.str a / growable_stretch a cs
        < c.hi a) :
    (fp.tile_allocation a (cs.map child.elem) (Flt.fin L)).rounds = 1 ∧
    List.Forall₂
      (fun c info => info.alloc = Flt.fin
        (if c.lo a < c.hi a then
          c.lo a + (L - (cs.map (fun k => k.lo a)).sum) * c.str a / growable_stretch a cs
        else c.lo a))
      cs (fp.tile_allocation a (cs.map child.elem) (Flt.fin L)).info ∧
    ∃ allocs : List ℚ,
      (fp.tile_allocation a (cs.map child.elem) (Flt.fin L)).info.map (fun i => i.alloc)
        = allocs.map Flt.fin ∧
      allocs.sum = L := by
  rw [fp_tile_allocation_eq_exact a _ _ hexact]
  exact proportional_distribution_exact a cs L hS hfree

/-- C24 amended, at a horizontal tile of width 100 over four children with widths 10..100 and
stretch factors 1, 1, 2 and 4: no operation rounds, `allocate` returns after one round, and
the children get 17.5, 17.5, 25 and 40. -/
theorem C24_proportional_distribution_witness :
    (fp.tile_allocation axis.x
        ([⟨10, 0, 100, 5, 1, 1⟩, ⟨10, 0, 100, 5, 1, 1⟩, ⟨10, 0, 100, 5, 2, 1⟩,
          ⟨10, 0, 100, 5, 4, 1⟩].map child.elem) (Flt.fin 100)).rounds = 1 ∧
    (fp.tile_allocation axis.x
        ([⟨10, 0, 100, 5, 1, 1⟩, ⟨10, 0, 100, 5, 1, 1⟩, ⟨10, 0, 100, 5, 2, 1⟩,
          ⟨10, 0, 100, 5, 4, 1⟩].map child.elem) (Flt.fin 100)).info.map (fun i => i.alloc)
      = [Flt.fin (35 / 2), Flt.fin (35 / 2), Flt.fin 25, Flt.fin 40] := by
  refine ⟨(C24_proportional_distribution axis.x
    [⟨10, 0, 100, 5, 1, 1⟩, ⟨10, 0, 100, 5, 1, 1⟩, ⟨10, 0, 100, 5, 2, 1⟩,
      ⟨10, 0, 100, 5, 4, 1⟩] 100 (by decide!) (by decide!) (by decide!)).1, ?_⟩
  decide!

/-- C27, as stated, fails: the share `extra * stretch / max_stretch` is rounded, and it can be
rounded up.  A vertical tile from top 0 to bottom 57 over seven children with heights 0..1000
and stretch 1 gives every child the `float` nearest to 57/7, which is `8538405 / 2^20`, above
57/7; the allocations sum to `59768835 / 2^20 = 57.0000029 > 57`, `allocate` returns with
`extra = -3 / 2^20 < 0`, and the last offset of the cache is `14942209 / 2^18 = 57.0000038`,
past the trailing edge 57. -/
theorem C27_counterexample :
    (∀ c ∈ (List.replicate 7 ⟨0, 0, 0, 1000, 1, 1⟩ : List child),
      c.lo axis.y ≤ c.hi axis.y ∧ 0 ≤ c.str axis.y) ∧
    0 < growable_stretch axis.y (List.replicate 7 ⟨0, 0, 0, 1000, 1, 1⟩) ∧
    ((List.replicate 7 (⟨0, 0, 0, 1000, 1, 1⟩ : child)).map (fun c => c.lo axis.y)).sum
      ≤ 57 - 0 ∧
    (fp.tile_allocation axis.y ((List.replicate 7 ⟨0, 0, 0, 1000, 1, 1⟩).map child.elem)
        (Flt.fin 57)).info.map (fun i => i.alloc)
      = List.replicate 7 (Flt.fin (8538405 / 1048576)) ∧
    ((List.replicate 7 (8538405 / 1048576 : ℚ)).sum = 59768835 / 1048576 ∧
      (57 : ℚ) < 59768835 / 1048576) ∧
    (fp.tile_allocation axis.y ((List.replicate 7 ⟨0, 0, 0, 1000, 1, 1⟩).map child.elem)
        (Flt.fin 57)).extra = Flt.fin (-(3 / 1048576)) ∧
    (fp.tile_offsets axis.y ((List.replicate 7 ⟨0, 0, 0, 1000, 1, 1⟩).map child.elem)
        (rect.of_axis axis.y (Flt.fin 0) (Flt.fin 57) 0 (Flt.fin 20))).getLast?
      = some (Flt.fin (14942209 / 262144)) ∧
    (57 : ℚ) < 14942209 / 262144 := by
  decide!

/-- C27, amended: for children with `min_i <= max_i` and `stretch_i >= 0` whose growable
stretch sum is positive, and bounds whose primary length `L` is at least `sum min_i`, in every
run of `layout` in which no operation rounds, after every round of `allocate` (the state after
`k` rounds, for every `k <= 9`) and on return the allocations are finite with
`sum alloc_i <= L`, the remaining `extra` is non-negative, and the last offset of the cache
written by `layout` is not past the trailing edge of the bounds. -/
theorem C27_no_overshoot (a : axis) (cs : List child) (lead trail : ℚ) (side1 side2 : Flt)
    (k : Nat)
    (hexact : fp.tile_layout_exact a (cs.map child.elem) (Flt.fin lead) (Flt.fin trail) = true)
    (hk : k ≤ 9)
    (hvalid : ∀ c ∈ cs, c.lo a ≤ c.hi a ∧ 0 ≤ c.str a)
    (hS : 0 < growable_stretch a cs)
    (hlo : (cs.map (fun c => c.lo a)).sum ≤ trail - lead) :
    (∃ (allocs : List ℚ) (e : ℚ),
      (fp.tile_allocation_after a (cs.map child.elem) (Flt.fin (trail - lead)) k).info.map
        (fun i => i.alloc) = allocs.map Flt.fin ∧
      allocs.sum ≤ trail - lead ∧
      (fp.tile_allocation_after a (cs.map child.elem) (Flt.fin (trail - lead)) k).extra
        = Flt.fin e ∧
      0 ≤ e) ∧
    (∃ allocs : List ℚ,
      (fp.tile_allocation a (cs.map child.elem) (Flt.fin (trail - lead))).info.map
        (fun i => i.alloc) = allocs.map Flt.fin ∧
      allocs.sum ≤ trail - lead) ∧
    (∃ (ts : List ℚ) (t : ℚ),
      fp.tile_offsets a (cs.map child.elem)
          (rect.of_axis a (Flt.fin lead) (Flt.fin trail) side1 side2) = ts.map Flt.fin ∧
      ts.getLast? = some t ∧ t ≤ trail) := by
  have hoff := fp_tile_offsets_eq_exact a (cs.map child.elem) (Flt.fin lead) (Flt.fin trail)
    side1 side2 hexact
  unfold fp.tile_layout_exact at hexact
  simp only [Bool.and_eq_true, Flt.fin_sub_fin] at hexact
  obtain ⟨⟨_, h9⟩, _⟩ := hexact
  rw [fp_tile_allocation_after_exact a _ _ k (fp_tile_allocation_exact_le a _ _ k 9 hk h9),
    fp_tile_allocation_eq_exact a _ _ h9, hoff]
  exact no_overshoot_exact a cs lead trail side1 side2 k hvalid hS hlo

/-- C27 amended, at a vertical tile from top 0 to bottom 20.5 over two children with heights
0..100 and 0..10 and stretch 1, after the first round: no operation rounds, and the last
offset of the cache is not past 20.5. -/
theorem C27_no_overshoot_witness :
    ∃ (ts : List ℚ) (t : ℚ),
      fp.tile_offsets axis.y ([⟨0, 0, 0, 100, 1, 1⟩, ⟨0, 0, 0, 10, 1, 1⟩].map child.elem)
          (rect.of_axis axis.y (Flt.fin 0) (Flt.fin (41 / 2)) 0 (Flt.fin 20))
        = ts.map Flt.fin ∧
      ts.getLast? = some t ∧ t ≤ 41 / 2 :=
  (C27_no_overshoot axis.y [⟨0, 0, 0, 100, 1, 1⟩, ⟨0, 0, 0, 10, 1, 1⟩] 0 (41 / 2) 0
    (Flt.fin 20) 1 (by decide!) (by decide!) (by decide!) (by decide!) (by decide!)).2.2

/-- C2, as stated, fails: a vertical tile of height 5 over one child with height 10..100 and
stretch 1 (so `L = 5 < 10 = sum min`) enters `allocate` with `extra = -5` and leaves the child
with `alloc = 5`, below its minimum 10.  And a length of at least the exact sum of the minima
is not enough in floating point: `vtile_element::layout` adds the minima up in `float`, so
for minima 0.5, 0.7f and 0.7f and the height `15938355 / 2^23`, which is their exact sum, the
`float` total is `15938356 / 2^23`, `extra` is negative on entry and the first child ends with
`16777215 / 2^25`, below its minimum 0.5. -/
theorem C2_counterexample :
    ((fp.vtile_element.allocation [child.elem ⟨0, 10, 0, 100, 1, 1⟩] (Flt.fin 5)).info
        = [{ min := Flt.fin 10, max := Flt.fin 100, stretch := Flt.fin 1,
             alloc := Flt.fin 5 }] ∧
      Flt.lt (Flt.fin 5) (Flt.fin 10) = true) ∧
    ((1 / 2 : ℚ) + 11744051 / 16777216 + 11744051 / 16777216 = 15938355 / 8388608 ∧
      fp.tile_total axis.y
          [child.elem ⟨0, 1 / 2, 0, 100, 1, 1⟩, child.elem ⟨0, 11744051 / 16777216, 0, 100, 1, 1⟩,
            child.elem ⟨0, 11744051 / 16777216, 0, 100, 1, 1⟩]
        = Flt.fin (15938356 / 8388608) ∧
      (fp.vtile_element.allocation
          [child.elem ⟨0, 1 / 2, 0, 100, 1, 1⟩, child.elem ⟨0, 11744051 / 16777216, 0, 100, 1, 1⟩,
            child.elem ⟨0, 11744051 / 16777216, 0, 100, 1, 1⟩]
          (Flt.fin (15938355 / 8388608))).info.map (fun i => i.alloc)
        = [Flt.fin (16777215 / 33554432), Flt.fin (5872025 / 8388608),
            Flt.fin (5872025 / 8388608)] ∧
      Flt.lt (Flt.fin (16777215 / 33554432)) (Flt.fin (1 / 2)) = true) := by
  decide!

/-- C2, amended: for valid children (`0 <= min_i <= max_i`, `stretch_i >= 0`, all of them
`float`s) and every `float` target length `L` that is at least the total of the minima as
`layout` adds them up (in `float` for a vertical tile, in `double` for a horizontal one), when
the stretch factors of the children that can grow have a positive sum (if any child can
grow), after allocation every record keeps its child's limits and its `alloc` is a finite
number with `min_i <= alloc_i <= max_i`. -/
theorem C2_allocation_within_limits (a : axis) (cs : List child) (L : ℚ)
    (hfloat : ∀ c ∈ cs, (Flt.fin (c.lo a)).is_float = true ∧
      (Flt.fin (c.hi a)).is_float = true ∧ (Flt.fin (c.str a)).is_float = true)
    (hL : (Flt.fin L).is_float = true)
    (hvalid : ∀ c ∈ cs, 0 ≤ c.lo a ∧ c.lo a ≤ c.hi a ∧ 0 ≤ c.str a)
    (hlo : Flt.ge (Flt.fin L) (fp.tile_total a (cs.map child.elem)) = true)
    (hpool : (∃ c ∈ cs, c.lo a < c.hi a) → 0 < growable_stretch a cs) :
    List.Forall₂
      (fun c info => info.min = Flt.fin (c.lo a) ∧ info.max = Flt.fin (c.hi a) ∧
        ∃ x : ℚ, info.alloc = Flt.fin x ∧ c.lo a ≤ x ∧ x ≤ c.hi a)
      cs (fp.tile_allocation a (cs.map child.elem) (Flt.fin L)).info := by
  have hL32 : Flt.binary32 L = Flt.fin L := (Flt.is_float_fin L).mp hL
  have hL64 : Flt.binary64 L = Flt.fin L := Flt.binary64_of_binary32 L L hL32
  have hLb := Flt.binary32_bound L L hL32
  obtain ⟨_, _, _, r4, r5⟩ := fp_tile_collect a cs
    (fun c hc => ⟨(hvalid c hc).1, (hvalid c hc).2.2,
      (Flt.is_float_fin _).mp (hfloat c hc).2.2⟩)
  have hinit := fp_inv_init a cs L hfloat hL hvalid hlo hpool
  obtain ⟨js, hjs, _, hgrown⟩ := fp_allocate_loop_inv L hLb hL64 9 _ _ _ 0 hinit
  rw [r5, r4, hjs]
  rw [List.forall₂_map_left_iff] at hgrown
  rw [List.forall₂_map_right_iff]
  refine List.Forall₂.imp ?_ hgrown
  intro c j h
  obtain ⟨h1, h2, _, h4, h5⟩ := h
  refine ⟨?_, ?_, j.alloc, rfl, h4, ?_⟩
  · show Flt.fin j.min = _
    rw [h1]; rfl
  · show Flt.fin j.max = _
    rw [h2]; rfl
  · rw [h2] at h5; exact h5

/-- C2 amended, at a horizontal tile of width 50 over two children with widths 0..100 and
0..10 and stretch 1, where the shares are rounded (the second round hands out `10 / 3`). -/
theorem C2_allocation_within_limits_witness :
    List.Forall₂
      (fun (c : child) (info : layout_info) =>
        info.min = Flt.fin (c.lo axis.x) ∧ info.max = Flt.fin (c.hi axis.x) ∧
        ∃ x : ℚ, info.alloc = Flt.fin x ∧ c.lo axis.x ≤ x ∧ x ≤ c.hi axis.x)
      [⟨0, 0, 100, 5, 1, 1⟩, ⟨0, 0, 10, 5, 1, 1⟩]
      (fp.tile_allocation axis.x
        ([⟨0, 0, 100, 5, 1, 1⟩, ⟨0, 0, 10, 5, 1, 1⟩].map child.elem) (Flt.fin 50)).info :=
  C2_allocation_within_limits axis.x [⟨0, 0, 100, 5, 1, 1⟩, ⟨0, 0, 10, 5, 1, 1⟩] 50
    (by decide!) (by decide!) (by decide!) (by decide!) (by decide!)

/-- C26, as stated, fails: for a vertical tile of height 5 over one valid child with height
10..100 and stretch 1 the allocation starts at the minimum 10 and is 5 after the first round:
it has decreased.  And a length of at least the exact sum of the minima is not enough in
floating point: for minima 0.5, 0.7f and 0.7f and the height `15938355 / 2^23`, their exact
sum, the `float` total of `vtile_element::layout` is above the height and the first round
lowers every allocation. -/
theorem C26_counterexample :
    ((fp.tile_allocation_after axis.y [child.elem ⟨0, 10, 0, 100, 1, 1⟩] (Flt.fin 5) 0).info.map
        (fun i => i.alloc) = [Flt.fin 10] ∧
      (fp.tile_allocation_after axis.y [child.elem ⟨0, 10, 0, 100, 1, 1⟩] (Flt.fin 5)
        1).info.map (fun i => i.alloc) = [Flt.fin 5] ∧
      Flt.lt (Flt.fin 5) (Flt.fin 10) = true) ∧
    ((1 / 2 : ℚ) + 11744051 / 16777216 + 11744051 / 16777216 = 15938355 / 8388608 ∧
      (fp.tile_allocation_after axis.y
          [child.elem ⟨0, 1 / 2, 0, 100, 1, 1⟩, child.elem ⟨0, 11744051 / 16777216, 0, 100, 1, 1⟩,
            child.elem ⟨0, 11744051 / 16777216, 0, 100, 1, 1⟩]
          (Flt.fin (15938355 / 8388608)) 0).info.map (fun i => i.alloc)
        = [Flt.fin (1 / 2), Flt.fin (11744051 / 16777216), Flt.fin (11744051 / 16777216)] ∧
      (fp.tile_allocation_after axis.y
          [child.elem ⟨0, 1 / 2, 0, 100, 1, 1⟩, child.elem ⟨0, 11744051 / 16777216, 0, 100, 1, 1⟩,
            child.elem ⟨0, 11744051 / 16777216, 0, 100, 1, 1⟩]
          (Flt.fin (15938355 / 8388608)) 1).info.map (fun i => i.alloc)
        = [Flt.fin (16777215 / 33554432), Flt.fin (5872025 / 8388608),
            Flt.fin (5872025 / 8388608)] ∧
      ((16777215 / 33554432 : ℚ) < 1 / 2 ∧ (5872025 / 8388608 : ℚ) < 11744051 / 16777216)) := by
  decide!

/-- C26, amended: for valid children (`0 <= min_i <= max_i`, `stretch_i >= 0`, all of them
`float`s) and every `float` target length `L` that is at least the total of the minima as
`layout` adds them up (in `float` for a vertical tile, in `double` for a horizontal one), when
the stretch factors of the children that can grow have a positive sum (if any child can
grow), each child's `alloc` starts at `min_i`, and from the state after `k` rounds of
`allocate` to the state after `k + 1` rounds it keeps its maximum, does not decrease, does not
exceed `max_i`, and stays at `max_i` once it has reached it. -/
theorem C26_alloc_monotone (a : axis) (cs : List child) (L : ℚ) (k : Nat)
    (hfloat : ∀ c ∈ cs, (Flt.fin (c.lo a)).is_float = true ∧
      (Flt.fin (c.hi a)).is_float = true ∧ (Flt.fin (c.str a)).is_float = true)
    (hL : (Flt.fin L).is_float = true)
    (hvalid : ∀ c ∈ cs, 0 ≤ c.lo a ∧ c.lo a ≤ c.hi a ∧ 0 ≤ c.str a)
    (hlo : Flt.ge (Flt.fin L) (fp.tile_total a (cs.map child.elem)) = true)
    (hpool : (∃ c ∈ cs, c.lo a < c.hi a) → 0 < growable_stretch a cs) :
    List.Forall₂ (fun c i => i.alloc = Flt.fin (c.lo a) ∧ i.max = Flt.fin (c.hi a))
      cs (fp.tile_allocation_after a (cs.map child.elem) (Flt.fin L) 0).info ∧
    List.Forall₂
      (fun i j => j.max = i.max ∧ ∃ x y mx : ℚ, i.alloc = Flt.fin x ∧ j.alloc = Flt.fin y ∧
        i.max = Flt.fin mx ∧ x ≤ y ∧ y ≤ mx ∧ (x = mx → y = mx))
      (fp.tile_allocation_after a (cs.map child.elem) (Flt.fin L) k).info
      (fp.tile_allocation_after a (cs.map child.elem) (Flt.fin L) (k + 1)).info := by
  have hL32 : Flt.binary32 L = Flt.fin L := (Flt.is_float_fin L).mp hL
  have hL64 : Flt.binary64 L = Flt.fin L := Flt.binary64_of_binary32 L L hL32
  have hLb := Flt.binary32_bound L L hL32
  obtain ⟨_, _, _, r4, _⟩ := fp_tile_collect a cs
    (fun c hc => ⟨(hvalid c hc).1, (hvalid c hc).2.2,
      (Flt.is_float_fin _).mp (hfloat c hc).2.2⟩)
  have hinit := fp_inv_init a cs L hfloat hL hvalid hlo hpool
  constructor
  · rw [r4]
    show List.Forall₂ _ cs (List.map qinfo.lift (List.map (child.info a) cs))
    rw [List.forall₂_map_right_iff, List.forall₂_map_right_iff, List.forall₂_same]
    intro c _
    exact ⟨rfl, rfl⟩
  · obtain ⟨js1, js2, h1, h2, hg⟩ := fp_allocate_loop_succ L hLb hL64 k _ _ _ 0 hinit
    rw [r4, r4, h1, h2]
    rw [List.forall₂_map_left_iff, List.forall₂_map_right_iff]
    refine List.Forall₂.imp ?_ hg
    intro i j h
    obtain ⟨_, h2, _, h4, h5⟩ := h
    refine ⟨?_, i.alloc, j.alloc, i.max, rfl, rfl, rfl, h4, ?_, ?_⟩
    · show Flt.fin j.max = Flt.fin i.max
      rw [h2]
    · rw [h2] at h5; exact h5
    · intro hx
      rw [h2] at h5
      exact le_antisymm h5 (hx ▸ h4)

/-- C26 amended, at a horizontal tile of width 50 over two children with widths 0..100 and
0..10 and stretch 1, from the first to the second round, where the shares are rounded. -/
theorem C26_alloc_monotone_witness :
    List.Forall₂
      (fun (i j : layout_info) => j.max = i.max ∧ ∃ x y mx : ℚ, i.alloc = Flt.fin x ∧
        j.alloc = Flt.fin y ∧ i.max = Flt.fin mx ∧ x ≤ y ∧ y ≤ mx ∧ (x = mx → y = mx))
      (fp.tile_allocation_after axis.x
        ([⟨0, 0, 100, 5, 1, 1⟩, ⟨0, 0, 10, 5, 1, 1⟩].map child.elem) (Flt.fin 50) 1).info
      (fp.tile_allocation_after axis.x
        ([⟨0, 0, 100, 5, 1, 1⟩, ⟨0, 0, 10, 5, 1, 1⟩].map child.elem) (Flt.fin 50)
        (1 + 1)).info :=
  (C26_alloc_monotone axis.x [⟨0, 0, 100, 5, 1, 1⟩, ⟨0, 0, 10, 5, 1, 1⟩] 50 1
    (by decide!) (by decide!) (by decide!) (by decide!) (by decide!)).2

/-! ## The layout walk in floating point -/

/-- Adding a non-negative finite number does not lower a value. -/
theorem fp_ge_add (curr : Flt) (x : ℚ) (hc : curr ≠ Flt.nan) (hx : 0 ≤ x) :
    Flt.ge (curr + Flt.fin x) curr = true := by
  cases curr with
  | fin q =>
    show decide (q ≤ q + x) = true
    simp [hx]
  | pinf => rfl
  | ninf => rfl
  | nan => exact absurd rfl hc

/-- Adding a finite number and converting to `double` does not produce a NaN. -/
theorem fp_add_ne_nan (curr : Flt) (x : ℚ) (hc : curr ≠ Flt.nan) :
    (curr + Flt.fin x).to_double ≠ Flt.nan := by
  cases curr with
  | fin q => exact Flt.ieee_round_ne_nan _ _ _ _
  | pinf => intro h; cases h
  | ninf => intro h; cases h
  | nan => exact absurd rfl hc

/-- The offsets written by the walk of `vtile_element::layout` for non-negative finite
allocations, from a `double` offset: one more than the records, the first one the `float` of
the starting offset, and non-decreasing. -/
theorem fp_vtile_walk_chain (left right : Flt) (js : List qinfo)
    (hjs : ∀ j ∈ js, 0 ≤ j.alloc) :
    ∀ curr : Flt, curr ≠ Flt.nan → curr.to_double = curr →
      (fp.vtile_element.walk left right curr (js.map qinfo.lift)).1.length = js.length + 1 ∧
      (fp.vtile_element.walk left right curr (js.map qinfo.lift)).1.head?
        = some curr.to_float ∧
      List.Chain' (fun x y => Flt.ge y x = true)
        (fp.vtile_element.walk left right curr (js.map qinfo.lift)).1 := by
  induction js with
  | nil =>
    intro curr _ _
    exact ⟨rfl, rfl, List.chain'_singleton _⟩
  | cons j rest ih =>
    intro curr hc hd
    obtain ⟨h1, h2, h3⟩ := ih (fun k hk => hjs k (List.mem_cons_of_mem _ hk)) _
      (fp_add_ne_nan curr j.alloc hc) (Flt.to_double_idem _)
    refine ⟨?_, rfl, ?_⟩
    · show (_ :: (fp.vtile_element.walk left right (curr + Flt.fin j.alloc).to_double
        (rest.map qinfo.lift)).1).length = _
      rw [List.length_cons, h1, List.length_cons]
    · show List.Chain' _ (curr.to_float ::
        (fp.vtile_element.walk left right (curr + Flt.fin j.alloc).to_double
          (rest.map qinfo.lift)).1)
      rw [List.chain'_cons']
      refine ⟨?_, h3⟩
      intro y hy
      rw [h2] at hy
      cases hy
      have := Flt.to_float_mono _ _ (Flt.to_double_mono _ _
        (fp_ge_add curr j.alloc hc (hjs j (List.mem_cons_self _ _))))
      rw [hd] at this
      exact this

/-- The offsets written by the walk of `htile_element::layout` for non-negative finite
allocations, from a `double` offset: one more than the records, the first one the `float` of
the starting offset, and non-decreasing. -/
theorem fp_htile_walk_chain (top bottom : Flt) (js : List qinfo)
    (hjs : ∀ j ∈ js, 0 ≤ j.alloc) :
    ∀ curr : Flt, curr ≠ Flt.nan → curr.to_double = curr →
      (fp.htile_element.walk top bottom curr (js.map qinfo.lift)).1.length = js.length + 1 ∧
      (fp.htile_element.walk top bottom curr (js.map qinfo.lift)).1.head?
        = some curr.to_float ∧
      List.Chain' (fun x y => Flt.ge y x = true)
        (fp.htile_element.walk top bottom curr (js.map qinfo.lift)).1 := by
  induction js with
  | nil =>
    intro curr _ _
    exact ⟨rfl, rfl, List.chain'_singleton _⟩
  | cons j rest ih =>
    intro curr hc hd
    obtain ⟨h1, h2, h3⟩ := ih (fun k hk => hjs k (List.mem_cons_of_mem _ hk)) _
      (fp_add_ne_nan curr j.alloc hc) (Flt.to_double_idem _)
    refine ⟨?_, rfl, ?_⟩
    · show (_ :: (fp.htile_element.walk top bottom (curr + Flt.fin j.alloc).to_double
        (rest.map qinfo.lift)).1).length = _
      rw [List.length_cons, h1, List.length_cons]
    · show List.Chain' _ (curr.to_float ::
        (fp.htile_element.walk top bottom (curr + Flt.fin j.alloc).to_double
          (rest.map qinfo.lift)).1)
      rw [List.chain'_cons']
      refine ⟨?_, h3⟩
      intro y hy
      rw [h2] at hy
      cases hy
      have := Flt.to_float_mono _ _ (Flt.to_double_mono _ _
        (fp_ge_add curr j.alloc hc (hjs j (List.mem_cons_self _ _))))
      rw [hd] at this
      exact this

/-- The cache written by `layout` in floating point is the list of offsets of the walk from
the leading edge over the allocations for the `float` length of the bounds. -/
theorem fp_tile_offsets_start (a : axis) (children : List element) (lead trail : ℚ)
    (side1 side2 : Flt) :
    fp.tile_offsets a children (rect.of_axis a (Flt.fin lead) (Flt.fin trail) side1 side2)
      = match a with
        | axis.y => (fp.vtile_element.walk side1 side2 (Flt.fin lead)
            (fp.tile_allocation axis.y children (Flt.binary32 (trail - lead))).info).1
        | axis.x => (fp.htile_element.walk side1 side2 (Flt.fin lead)
            (fp.tile_allocation axis.x children (Flt.binary32 (trail - lead))).info).1 := by
  cases a
  · simp only [fp.tile_offsets, fp.htile_element.layout, rect.of_axis, fp.rect.width,
      Flt.fin_sub_fin]
    rfl
  · simp only [fp.tile_offsets, fp.vtile_element.layout, rect.of_axis, fp.rect.height,
      Flt.fin_sub_fin]
    rfl

/-- C14, as stated, fails: a vertical tile over two valid children with heights 10..100 and
0..100 and stretch 1, laid out in bounds from top 0 to bottom 4 (primary length `4 >= 0`,
below the sum 10 of the minima), enters `allocate` with `extra = -6`; the children end with
allocations 7 and -3 and the cache is `[0, 7, 4]`: offset 2 is below offset 1.  And a length
of at least the exact sum of the minima is not enough in floating point: for a vertical tile
over children with minimal heights 0, 0.5, 0.7f and 0.7f in bounds from top 0 to bottom
`15938355 / 2^23`, the exact sum of the minima, the `float` total is above the height, the
first child gets `-1 / 2^25` and offset 1 is below offset 0. -/
theorem C14_counterexample :
    ((fp.vtile_element.layout
        { children := [child.elem ⟨0, 10, 0, 100, 1, 1⟩, child.elem ⟨0, 0, 0, 100, 1, 1⟩],
          _left := 0, _right := 0, _tiles := [] }
        { left := Flt.fin 0, top := Flt.fin 0, right := Flt.fin 50,
          bottom := Flt.fin 4 }).1._tiles
        = [Flt.fin 0, Flt.fin 7, Flt.fin 4] ∧
      Flt.lt (Flt.fin 4) (Flt.fin 7) = true) ∧
    ((0 : ℚ) + 1 / 2 + 11744051 / 16777216 + 11744051 / 16777216 = 15938355 / 8388608 ∧
      (fp.vtile_element.layout
        { children := [child.elem ⟨0, 0, 0, 100, 1, 1⟩, child.elem ⟨0, 1 / 2, 0, 100, 1, 1⟩,
            child.elem ⟨0, 11744051 / 16777216, 0, 100, 1, 1⟩,
            child.elem ⟨0, 11744051 / 16777216, 0, 100, 1, 1⟩],
          _left := 0, _right := 0, _tiles := [] }
        { left := Flt.fin 0, top := Flt.fin 0, right := Flt.fin 50,
          bottom := Flt.fin (15938355 / 8388608) }).1._tiles
        = [Flt.fin 0, Flt.fin (-(1 / 33554432)), Flt.fin (8388607 / 16777216),
            Flt.fin (1258291 / 1048576), Flt.fin (7969177 / 4194304)] ∧
      Flt.lt (Flt.fin (-(1 / 33554432))) (Flt.fin 0) = true) := by
  decide!

/-- C14, amended: for valid children (`0 <= min_i <= max_i`, `stretch_i >= 0`, all of them
`float`s) and bounds with a `float` leading edge whose primary length, as `layout` computes
it in `float`, is a finite number `L` that is at least the total of the minima as `layout`
adds them up (in `float` for a vertical tile, in `double` for a horizontal one), when the
stretch factors of the children that can grow have a positive sum (if any child can grow),
after `layout` the cache holds `n + 1` offsets that are non-decreasing:
`tiles[i] <= tiles[i+1]` for all `i < size()`. -/
theorem C14_offsets_nondecreasing (a : axis) (cs : List child) (lead trail L : ℚ)
    (side1 side2 : Flt)
    (hfloat : ∀ c ∈ cs, (Flt.fin (c.lo a)).is_float = true ∧
      (Flt.fin (c.hi a)).is_float = true ∧ (Flt.fin (c.str a)).is_float = true)
    (hlead : (Flt.fin lead).is_float = true)
    (hL : Flt.binary32 (trail - lead) = Flt.fin L)
    (hvalid : ∀ c ∈ cs, 0 ≤ c.lo a ∧ c.lo a ≤ c.hi a ∧ 0 ≤ c.str a)
    (hlo : Flt.ge (Flt.fin L) (fp.tile_total a (cs.map child.elem)) = true)
    (hpool : (∃ c ∈ cs, c.lo a < c.hi a) → 0 < growable_stretch a cs) :
    (fp.tile_offsets a (cs.map child.elem)
        (rect.of_axis a (Flt.fin lead) (Flt.fin trail) side1 side2)).length = cs.length + 1 ∧
    List.Chain' (fun x y => Flt.ge y x = true)
      (fp.tile_offsets a (cs.map child.elem)
        (rect.of_axis a (Flt.fin lead) (Flt.fin trail) side1 side2)) := by
  have hL32 : Flt.binary32 L = Flt.fin L := Flt.binary32_idem _ _ hL
  have hLf : (Flt.fin L).is_float = true := (Flt.is_float_fin L).mpr hL32
  have hL64 : Flt.binary64 L = Flt.fin L := Flt.binary64_of_binary32 L L hL32
  have hLb := Flt.binary32_bound L L hL32
  obtain ⟨_, _, _, r4, r5⟩ := fp_tile_collect a cs
    (fun c hc => ⟨(hvalid c hc).1, (hvalid c hc).2.2,
      (Flt.is_float_fin _).mp (hfloat c hc).2.2⟩)
  have hinit := fp_inv_init a cs L hfloat hLf hvalid hlo hpool
  obtain ⟨js, hjs, hval, hgrown⟩ := fp_allocate_loop_inv L hLb hL64 9 _ _ _ 0 hinit
  have hnonneg : ∀ j ∈ js, 0 ≤ j.alloc := fun j hj =>
    le_trans (hval j hj).1 (hval j hj).2.1
  have hlen : js.length = cs.length := by
    have := List.Forall₂.length_eq hgrown
    simpa using this.symm
  have hd : (Flt.fin lead).to_double = Flt.fin lead := Flt.to_double_of_is_float _ hlead
  have hinfo : (fp.tile_allocation a (cs.map child.elem) (Flt.binary32 (trail - lead))).info
      = js.map qinfo.lift := by
    rw [hL, r5, r4, hjs]
  rw [fp_tile_offsets_start]
  cases a
  · simp only
    rw [hinfo]
    obtain ⟨h1, _, h3⟩ := fp_htile_walk_chain side1 side2 js hnonneg (Flt.fin lead)
      (by intro h; cases h) hd
    exact ⟨by rw [h1, hlen], h3⟩
  · simp only
    rw [hinfo]
    obtain ⟨h1, _, h3⟩ := fp_vtile_walk_chain side1 side2 js hnonneg (Flt.fin lead)
      (by intro h; cases h) hd
    exact ⟨by rw [h1, hlen], h3⟩

/-- C14 amended, at a horizontal tile from left 5 to right 55 over two children with widths
0..100 and 0..10 and stretch 1, where the shares are rounded. -/
theorem C14_offsets_nondecreasing_witness :
    (fp.tile_offsets axis.x ([⟨0, 0, 100, 5, 1, 1⟩, ⟨0, 0, 10, 5, 1, 1⟩].map child.elem)
        (rect.of_axis axis.x (Flt.fin 5) (Flt.fin 55) 0 (Flt.fin 20))).length = 2 + 1 ∧
    List.Chain' (fun x y => Flt.ge y x = true)
      (fp.tile_offsets axis.x ([⟨0, 0, 100, 5, 1, 1⟩, ⟨0, 0, 10, 5, 1, 1⟩].map child.elem)
        (rect.of_axis axis.x (Flt.fin 5) (Flt.fin 55) 0 (Flt.fin 20))) :=
  C14_offsets_nondecreasing axis.x [⟨0, 0, 100, 5, 1, 1⟩, ⟨0, 0, 10, 5, 1, 1⟩] 5 55 50 0
    (Flt.fin 20) (by decide!) (by decide!) (by decide!) (by decide!) (by decide!) (by decide!)

/-! ## Shape of the bounds cache in floating point -/

theorem fp_allocate_pass_length (extra max_stretch : Flt) (info : List layout_info) :
    ∀ remove_stretch total : Flt,
      (fp.allocate_pass extra max_stretch info remove_stretch total).1.length
        = info.length := by
  induction info with
  | nil => intro r t; simp [fp.allocate_pass]
  | cons i rest ih => intro r t; simp [fp.allocate_pass, ih]

theorem fp_allocate_loop_length (size : Flt) (n : Nat) :
    ∀ (extra max_stretch : Flt) (info : List layout_info) (rounds : Nat),
      (fp.allocate_loop size n extra max_stretch info rounds).info.length = info.length := by
  induction n with
  | zero => intro extra max_stretch info rounds; simp [fp.allocate_loop]
  | succ n ih =>
    intro extra max_stretch info rounds
    unfold fp.allocate_loop
    dsimp only
    split
    · simp [fp_allocate_pass_length]
    · rw [ih, fp_allocate_pass_length]

theorem fp_vtile_collect_length (children : List element) :
    ∀ max_stretch total : Flt,
      (fp.vtile_element.collect children max_stretch total).2.2.length
        = children.length := by
  induction children with
  | nil => intro m t; simp [fp.vtile_element.collect]
  | cons e rest ih => intro m t; simp [fp.vtile_element.collect, ih]

theorem fp_htile_collect_length (children : List element) :
    ∀ max_stretch total : Flt,
      (fp.htile_element.collect children max_stretch total).2.2.length
        = children.length := by
  induction children with
  | nil => intro m t; simp [fp.htile_element.collect]
  | cons e rest ih => intro m t; simp [fp.htile_element.collect, ih]

theorem fp_vtile_allocation_length (children : List element) (height : Flt) :
    (fp.vtile_element.allocation children height).info.length = children.length := by
  simp [fp.vtile_element.allocation, fp.allocate, fp_allocate_loop_length,
    fp_vtile_collect_length]

theorem fp_htile_allocation_length (children : List element) (width : Flt) :
    (fp.htile_element.allocation children width).info.length = children.length := by
  simp [fp.htile_element.allocation, fp.allocate, fp_allocate_loop_length,
    fp_htile_collect_length]

theorem fp_vtile_walk_length (left right : Flt) (info : List layout_info) :
    ∀ curr : Flt,
      (fp.vtile_element.walk left right curr info).1.length = info.length + 1 := by
  induction info with
  | nil => intro curr; simp [fp.vtile_element.walk]
  | cons i rest ih => intro curr; simp [fp.vtile_element.walk, ih]

theorem fp_htile_walk_length (top bottom : Flt) (info : List layout_info) :
    ∀ curr : Flt,
      (fp.htile_element.walk top bottom curr info).1.length = info.length + 1 := by
  induction info with
  | nil => intro curr; simp [fp.htile_element.walk]
  | cons i rest ih => intro curr; simp [fp.htile_element.walk, ih]

theorem fp_vtile_walk_head (left right : Flt) (info : List layout_info) (curr : Flt) :
    (fp.vtile_element.walk left right curr info).1.get? 0 = some curr.to_float := by
  cases info <;> simp [fp.vtile_element.walk]

theorem fp_htile_walk_head (top bottom : Flt) (info : List layout_info) (curr : Flt) :
    (fp.htile_element.walk top bottom curr info).1.get? 0 = some curr.to_float := by
  cases info <;> simp [fp.htile_element.walk]

theorem fp_vtile_walk_last (left right : Flt) (info : List layout_info) :
    ∀ curr : Flt, (fp.vtile_element.walk left right curr info).1.get? info.length
      = some (fp.running_offset curr (info.map (fun k => k.alloc))).to_float := by
  induction info with
  | nil => intro curr; simp [fp.vtile_element.walk, fp.running_offset]
  | cons k rest ih =>
    intro curr
    simpa [fp.vtile_element.walk, fp.running_offset] using ih (curr + k.alloc).to_double

theorem fp_htile_walk_last (top bottom : Flt) (info : List layout_info) :
    ∀ curr : Flt, (fp.htile_element.walk top bottom curr info).1.get? info.length
      = some (fp.running_offset curr (info.map (fun k => k.alloc))).to_float := by
  induction info with
  | nil => intro curr; simp [fp.htile_element.walk, fp.running_offset]
  | cons k rest ih =>
    intro curr
    simpa [fp.htile_element.walk, fp.running_offset] using ih (curr + k.alloc).to_double

/-- Offsets and child bounds written by the walk of `vtile_element::layout` at position `i`,
in floating point: `c` is the `double` offset reached before child `i`. -/
theorem fp_vtile_walk_get (left right : Flt) (info : List layout_info) :
    ∀ (curr : Flt) (i : Nat), i < info.length →
      ∃ (c : Flt) (k : layout_info),
        c = fp.running_offset curr ((info.take i).map (fun k => k.alloc)) ∧
        info.get? i = some k ∧
        (fp.vtile_element.walk left right curr info).1.get? i = some c.to_float ∧
        (fp.vtile_element.walk left right curr info).1.get? (i + 1)
          = some (c + k.alloc).to_double.to_float ∧
        (fp.vtile_element.walk left right curr info).2.get? i
          = some { left := left, top := c.to_float, right := right,
                   bottom := (c + k.alloc).to_double.to_float } := by
  induction info with
  | nil => intro curr i hi; simp at hi
  | cons k rest ih =>
    intro curr i hi
    cases i with
    | zero =>
      refine ⟨curr, k, ?_, ?_, ?_, ?_, ?_⟩
      · simp [fp.running_offset]
      · simp
      · simp [fp.vtile_element.walk]
      · cases rest <;> simp [fp.vtile_element.walk]
      · simp [fp.vtile_element.walk]
    | succ j =>
      have hj : j < rest.length := by simpa using hi
      obtain ⟨c, k2, h0, h1, h2, h3, h4⟩ := ih (curr + k.alloc).to_double j hj
      refine ⟨c, k2, ?_, ?_, ?_, ?_, ?_⟩
      · rw [h0]; simp [fp.running_offset]
      · simpa using h1
      · simpa [fp.vtile_element.walk] using h2
      · simpa [fp.vtile_element.walk] using h3
      · simpa [fp.vtile_element.walk] using h4

/-- Offsets and child bounds written by the walk of `htile_element::layout` at position `i`,
in floating point: `c` is the `double` offset reached before child `i`. -/
theorem fp_htile_walk_get (top bottom : Flt) (info : List layout_info) :
    ∀ (curr : Flt) (i : Nat), i < info.length →
      ∃ (c : Flt) (k : layout_info),
        c = fp.running_offset curr ((info.take i).map (fun k => k.alloc)) ∧
        info.get? i = some k ∧
        (fp.htile_element.walk top bottom curr info).1.get? i = some c.to_float ∧
        (fp.htile_element.walk top bottom curr info).1.get? (i + 1)
          = some (c + k.alloc).to_double.to_float ∧
        (fp.htile_element.walk top bottom curr info).2.get? i
          = some { left := c.to_float, top := top,
                   right := (c + k.alloc).to_double.to_float, bottom := bottom } := by
  induction info with
  | nil => intro curr i hi; simp at hi
  | cons k rest ih =>
    intro curr i hi
    cases i with
    | zero =>
      refine ⟨curr, k, ?_, ?_, ?_, ?_, ?_⟩
      · simp [fp.running_offset]
      · simp
      · simp [fp.htile_element.walk]
      · cases rest <;> simp [fp.htile_element.walk]
      · simp [fp.htile_element.walk]
    | succ j =>
      have hj : j < rest.length := by simpa using hi
      obtain ⟨c, k2, h0, h1, h2, h3, h4⟩ := ih (curr + k.alloc).to_double j hj
      refine ⟨c, k2, ?_, ?_, ?_, ?_, ?_⟩
      · rw [h0]; simp [fp.running_offset]
      · simpa using h1
      · simpa [fp.htile_element.walk] using h2
      · simpa [fp.htile_element.walk] using h3
      · simpa [fp.htile_element.walk] using h4

/-- When the offset before a child and the offset after it are `float`s, the two conversions
of the walk change nothing. -/
theorem fp_walk_step_exact (x y : ℚ) (hx : (Flt.fin x).is_float = true)
    (hxy : (Flt.fin (x + y)).is_float = true) :
    (Flt.fin x).to_float = Flt.fin x ∧
    (Flt.fin x + Flt.fin y).to_double.to_float = Flt.fin (x + y) := by
  refine ⟨is_float_eq hx, ?_⟩
  show (Flt.fin (x + y)).to_double.to_float = _
  rw [Flt.to_double_of_is_float _ hxy]
  exact is_float_eq hxy

/-- C12, as stated, fails: a vertical tile over one child with height 10..20 and stretch 1,
laid out in bounds from top 0 to bottom 100, gets the cache `[0, 20]`: the last offset is 20,
the end of the child, and not the trailing edge 100 of the container.  And the difference of
two offsets need not be the allocation: the walk adds the allocations up in a `double` and
stores each offset as a `float`, so a vertical tile from top 0 to bottom 57 over seven
children with heights 0..1000 and stretch 1 gives every child `8538405 / 2^20`, while offset 3
minus offset 2 is `8538406 / 2^20`. -/
theorem C12_counterexample :
    ((fp.vtile_element.layout
        { children := [child.elem ⟨0, 10, 0, 20, 1, 1⟩], _left := 0, _right := 0, _tiles := [] }
        { left := Flt.fin 0, top := Flt.fin 0, right := Flt.fin 50,
          bottom := Flt.fin 100 }).1._tiles
        = [Flt.fin 0, Flt.fin 20] ∧
      Flt.fin 20 ≠ Flt.fin 100) ∧
    ((fp.vtile_element.allocation (List.replicate 7 (child.elem ⟨0, 0, 0, 1000, 1, 1⟩))
        (Flt.fin 57)).info.map (fun i => i.alloc)
        = List.replicate 7 (Flt.fin (8538405 / 1048576)) ∧
      (fp.vtile_element.layout
        { children := List.replicate 7 (child.elem ⟨0, 0, 0, 1000, 1, 1⟩),
          _left := 0, _right := 0, _tiles := [] }
        { left := Flt.fin 0, top := Flt.fin 0, right := Flt.fin 50,
          bottom := Flt.fin 57 }).1._tiles
        = [Flt.fin 0, Flt.fin (8538405 / 1048576), Flt.fin (8538405 / 524288),
            Flt.fin (1600951 / 65536), Flt.fin (8538405 / 262144), Flt.fin (5336503 / 131072),
            Flt.fin (1600951 / 32768), Flt.fin (14942209 / 262144)] ∧
      (1600951 / 65536 : ℚ) - 8538405 / 524288 = 8538406 / 1048576 ∧
      (8538406 / 1048576 : ℚ) ≠ 8538405 / 1048576) := by
  decide!

/-- C12, amended: after every `layout` on a tile with `n` children the cache `_tiles` holds
exactly `n + 1` offsets; offset 0 is the `float` of the leading primary-axis edge of the
bounds of the context (top for a vertical tile, left for a horizontal tile), which is that
edge when it is a `float`; for every `i < n`, with `c` the `double` offset that the walk has
reached before child `i` (the leading edge plus the allocations of the children before it,
added in order in `double`), offset `i` is the `float` of `c` and the starting edge of the
bounds handed to child `i`, offset `i + 1` is the `float` of the `double` `c + alloc_i` and
the end edge of those bounds, and offset `i + 1` minus offset `i` is child `i`'s allocation
whenever `c` and `c + alloc_i` are finite `float`s; and offset `n` is the `float` of the
leading edge plus the allocations of all children, added in order in `double`. -/
theorem C12_cache_shape (v : vtile_element) (h : htile_element) (bounds : rect) :
    ((fp.vtile_element.layout v bounds).1._tiles.length = v.children.length + 1 ∧
      (fp.vtile_element.layout v bounds).1._tiles.get? 0 = some bounds.top.to_float ∧
      (bounds.top.is_float = true →
        (fp.vtile_element.layout v bounds).1._tiles.get? 0 = some bounds.top) ∧
      (∀ i : Nat, i < v.children.length → ∃ (c : Flt) (k : layout_info) (r : rect),
        c = fp.running_offset bounds.top
          (((fp.vtile_element.allocation v.children (fp.rect.height bounds)).info.take i).map
            (fun k => k.alloc)) ∧
        (fp.vtile_element.allocation v.children (fp.rect.height bounds)).info.get? i
          = some k ∧
        (fp.vtile_element.layout v bounds).1._tiles.get? i = some c.to_float ∧
        (fp.vtile_element.layout v bounds).1._tiles.get? (i + 1)
          = some (c + k.alloc).to_double.to_float ∧
        (fp.vtile_element.layout v bounds).2.get? i = some r ∧
        r.top = c.to_float ∧ r.bottom = (c + k.alloc).to_double.to_float ∧
        (∀ x y : ℚ, c = Flt.fin x → k.alloc = Flt.fin y → (Flt.fin x).is_float = true →
          (Flt.fin (x + y)).is_float = true →
          ∃ t u : ℚ, (fp.vtile_element.layout v bounds).1._tiles.get? i = some (Flt.fin t) ∧
            (fp.vtile_element.layout v bounds).1._tiles.get? (i + 1) = some (Flt.fin u) ∧
            u - t = y)) ∧
      (fp.vtile_element.layout v bounds).1._tiles.get? v.children.length
        = some (fp.running_offset bounds.top
            ((fp.vtile_element.allocation v.children (fp.rect.height bounds)).info.map
              (fun k => k.alloc))).to_float) ∧
    ((fp.htile_element.layout h bounds).1._tiles.length = h.children.length + 1 ∧
      (fp.htile_element.layout h bounds).1._tiles.get? 0 = some bounds.left.to_float ∧
      (bounds.left.is_float = true →
        (fp.htile_element.layout h bounds).1._tiles.get? 0 = some bounds.left) ∧
      (∀ i : Nat, i < h.children.length → ∃ (c : Flt) (k : layout_info) (r : rect),
        c = fp.running_offset bounds.left
          (((fp.htile_element.allocation h.children (fp.rect.width bounds)).info.take i).map
            (fun k => k.alloc)) ∧
        (fp.htile_element.allocation h.children (fp.rect.width bounds)).info.get? i
          = some k ∧
        (fp.htile_element.layout h bounds).1._tiles.get? i = some c.to_float ∧
        (fp.htile_element.layout h bounds).1._tiles.get? (i + 1)
          = some (c + k.alloc).to_double.to_float ∧
        (fp.htile_element.layout h bounds).2.get? i = some r ∧
        r.left = c.to_float ∧ r.right = (c + k.alloc).to_double.to_float ∧
        (∀ x y : ℚ, c = Flt.fin x → k.alloc = Flt.fin y → (Flt.fin x).is_float = true →
          (Flt.fin (x + y)).is_float = true →
          ∃ t u : ℚ, (fp.htile_element.layout h bounds).1._tiles.get? i = some (Flt.fin t) ∧
            (fp.htile_element.layout h bounds).1._tiles.get? (i + 1) = some (Flt.fin u) ∧
            u - t = y)) ∧
      (fp.htile_element.layout h bounds).1._tiles.get? h.children.length
        = some (fp.running_offset bounds.left
            ((fp.htile_element.allocation h.children (fp.rect.width bounds)).info.map
              (fun k => k.alloc))).to_float) := by
  have hv : (fp.vtile_element.layout v bounds).1._tiles
      = (fp.vtile_element.walk bounds.left bounds.right bounds.top
          (fp.vtile_element.allocation v.children (fp.rect.height bounds)).info).1 := rfl
  have hv2 : (fp.vtile_element.layout v bounds).2
      = (fp.vtile_element.walk bounds.left bounds.right bounds.top
          (fp.vtile_element.allocation v.children (fp.rect.height bounds)).info).2 := rfl
  have hh : (fp.htile_element.layout h bounds).1._tiles
      = (fp.htile_element.walk bounds.top bounds.bottom bounds.left
          (fp.htile_element.allocation h.children (fp.rect.width bounds)).info).1 := rfl
  have hh2 : (fp.htile_element.layout h bounds).2
      = (fp.htile_element.walk bounds.top bounds.bottom bounds.left
          (fp.htile_element.allocation h.children (fp.rect.width bounds)).info).2 := rfl
  rw [hv, hv2, hh, hh2]
  refine ⟨⟨?_, ?_, ?_, ?_, ?_⟩, ⟨?_, ?_, ?_, ?_, ?_⟩⟩
  · rw [fp_vtile_walk_length, fp_vtile_allocation_length]
  · exact fp_vtile_walk_head _ _ _ _
  · intro hf
    rw [fp_vtile_walk_head, is_float_eq hf]
  · intro i hi
    obtain ⟨c, k, h0, h1, h2, h3, h4⟩ := fp_vtile_walk_get bounds.left bounds.right
      (fp.vtile_element.allocation v.children (fp.rect.height bounds)).info bounds.top i
      (by rw [fp_vtile_allocation_length]; exact hi)
    refine ⟨c, k, _, h0, h1, h2, h3, h4, rfl, rfl, ?_⟩
    intro x y hc hk hx hxy
    obtain ⟨e1, e2⟩ := fp_walk_step_exact x y hx hxy
    refine ⟨x, x + y, ?_, ?_, by ring⟩
    · rw [h2, hc, e1]
    · rw [h3, hc, hk, e2]
  · have hl := fp_vtile_walk_last bounds.left bounds.right
      (fp.vtile_element.allocation v.children (fp.rect.height bounds)).info bounds.top
    rw [fp_vtile_allocation_length] at hl
    exact hl
  · rw [fp_htile_walk_length, fp_htile_allocation_length]
  · exact fp_htile_walk_head _ _ _ _
  · intro hf
    rw [fp_htile_walk_head, is_float_eq hf]
  · intro i hi
    obtain ⟨c, k, h0, h1, h2, h3, h4⟩ := fp_htile_walk_get bounds.top bounds.bottom
      (fp.htile_element.allocation h.children (fp.rect.width bounds)).info bounds.left i
      (by rw [fp_htile_allocation_length]; exact hi)
    refine ⟨c, k, _, h0, h1, h2, h3, h4, rfl, rfl, ?_⟩
    intro x y hc hk hx hxy
    obtain ⟨e1, e2⟩ := fp_walk_step_exact x y hx hxy
    refine ⟨x, x + y, ?_, ?_, by ring⟩
    · rw [h2, hc, e1]
    · rw [h3, hc, hk, e2]
  · have hl := fp_htile_walk_last bounds.top bounds.bottom
      (fp.htile_element.allocation h.children (fp.rect.width bounds)).info bounds.left
    rw [fp_htile_allocation_length] at hl
    exact hl

/-! ## Radio buttons: the claim -/

end Elements
